import Mathlib

/-!
Shallow embedding of the core of `Techcable/euler-rust`: the decimal digit
vectors (`src/utils/digits.rs`), the bounded sieve and the page-segmented
incremental sieve (`src/utils/sieve.rs`), and the incremental prime
membership cache (`src/utils/primes.rs`).

Machine integers (`u8`, `u32`, `u64`, `usize`) are modelled as `Nat`; the
only arithmetic in the source that can actually wrap on the inputs the
types admit is `Digits::value`, which is therefore modelled with an
explicit `% 2 ^ 64`.  Rust panics (failed `assert!`, out-of-bounds
indexing) are modelled by returning `Option.none`.  `debug_assert!`s are
compiled out in release builds and are not modelled.
-/

set_option linter.unnecessarySeqFocus false
set_option linter.unusedVariables false

namespace Euler

/-- `u64::MAX + 1`: modulus of 64-bit unsigned arithmetic. -/
def U64_MOD : Nat := 2 ^ 64

/-- `u64::checked_mul`: `none` exactly when the product overflows. -/
def checked_mul_u64 (a b : Nat) : Option Nat :=
  if a * b < U64_MOD then some (a * b) else none

/-- `u64::checked_add`: `none` exactly when the sum overflows. -/
def checked_add_u64 (a b : Nat) : Option Nat :=
  if a + b < U64_MOD then some (a + b) else none

/-- The accumulation loop shared by `Digits::checked_value` and
`BigDigits::checked_value`: repeated checked multiply-by-10-and-add over
the digit sequence (most significant first). -/
def checked_value_list (digits : List Nat) : Option Nat :=
  digits.foldl
    (fun acc digit =>
      acc.bind fun result =>
        (checked_mul_u64 result 10).bind fun m => checked_add_u64 m digit)
    (some 0)

/-- The exact (mathematical) value of a most-significant-first digit list. -/
def list_value (digits : List Nat) : Nat :=
  digits.foldl (fun acc digit => acc * 10 + digit) 0

/-- `struct Digits { len: u8, values: [u8; 20] }`.  The fixed 20-byte array
is modelled as a `List Nat` that every operation keeps at length 20. -/
structure Digits where
  len : Nat
  values : List Nat
deriving DecidableEq, Repr

/-- `Digits::new`. -/
def Digits.new : Digits := ⟨0, List.replicate 20 0⟩

/-- `Digits::as_slice`: the first `len` entries of `values`. -/
def Digits.as_slice (d : Digits) : List Nat := d.values.take d.len

/-- `Digits::push`.  `none` models the `assert!` panics (invalid digit,
capacity overflow). -/
def Digits.push (d : Digits) (digit : Nat) : Option Digits :=
  if digit < 10 ∧ d.len < 20 then
    some ⟨d.len + 1, d.values.set d.len digit⟩
  else none

/-- `Digits::from_digits`.  The source copies the digits into a zeroed
20-byte array; `none` models the `assert!` panics. -/
def Digits.from_digits (digits : List Nat) : Option Digits :=
  if digits.length ≤ 20 ∧ ∀ d ∈ digits, d < 10 then
    some ⟨digits.length, digits ++ List.replicate (20 - digits.length) 0⟩
  else none

/-- `Digits::reverse`: reverses `as_mut_slice()`, i.e. the first `len`
entries, in place. -/
def Digits.reverse (d : Digits) : Digits :=
  ⟨d.len, (d.values.take d.len).reverse ++ d.values.drop d.len⟩

/-- `Digits::reversed`. -/
def Digits.reversed (d : Digits) : Digits := d.reverse

/-- The `while num > 0` loop of `Digits::from_value`: push `num % 10`,
divide by 10, repeat.  The loop runs at most `num` iterations because
`num` strictly decreases; the explicit `fuel` (instantiated to `num` by
`from_value`) makes the recursion structural, and the fuel-exhaustion
branch is unreachable for that instantiation. -/
def Digits.from_value_loop : (fuel num : Nat) → Digits → Option Digits
  | _, 0, d => some d
  | 0, _ + 1, _ => none
  | fuel + 1, num + 1, d =>
    match d.push ((num + 1) % 10) with
    | none => none
    | some d2 => Digits.from_value_loop fuel ((num + 1) / 10) d2

/-- `Digits::from_value`: zero maps to the single-digit vector `[0]`,
otherwise digits are collected least-significant-first and reversed. -/
def Digits.from_value (num : Nat) : Option Digits :=
  if num = 0 then some ⟨1, List.replicate 20 0⟩
  else (Digits.from_value_loop num num Digits.new).map Digits.reverse

/-- The `for index in (len..amount).rev()` loop of `Digits::pad`: reads
`values[index]` and writes it to `values[index + padding]`; an
out-of-bounds write (a Rust panic) yields `none`.  The index list is
passed already reversed. -/
def Digits.pad_loop (vals : List Nat) (padding : Nat) :
    List Nat → Option (List Nat)
  | [] => some vals
  | index :: rest =>
    if index + padding < 20 then
      Digits.pad_loop (vals.set (index + padding) (vals.getD index 0)) padding rest
    else none

/-- `Digits::pad`: no-op when `len ≥ amount`; otherwise runs the shift
loop and zero-fills `values[..padding]`, then sets `len = amount`. -/
def Digits.pad (d : Digits) (amount : Nat) : Option Digits :=
  if amount ≤ 20 then
    if d.len < amount then
      match Digits.pad_loop d.values (amount - d.len)
          ((List.range' d.len (amount - d.len)).reverse) with
      | none => none
      | some vals =>
        some ⟨amount, List.replicate (amount - d.len) 0 ++ vals.drop (amount - d.len)⟩
    else some d
  else none

/-- `Digits::padded`. -/
def Digits.padded (d : Digits) (amount : Nat) : Option Digits := d.pad amount

/-- `Digits::insert`: overwrites the digit at `index` inside the visible
slice (despite its name it does not shift).  `none` models the digit
`assert!` and the slice bounds-check panic. -/
def Digits.insert (d : Digits) (index digit : Nat) : Option Digits :=
  if digit < 10 ∧ index < d.len then some ⟨d.len, d.values.set index digit⟩
  else none

/-- `Digits::value`: unchecked `u64` accumulation; the `u64` operations
wrap, hence the explicit `% 2 ^ 64`. -/
def Digits.value (d : Digits) : Nat :=
  d.as_slice.foldl (fun result digit => (result * 10 + digit) % U64_MOD) 0

/-- `Digits::checked_value`. -/
def Digits.checked_value (d : Digits) : Option Nat :=
  checked_value_list d.as_slice

/-- `Digits::len`. -/
def Digits.length (d : Digits) : Nat := d.len

/-- The free function `is_palindrome` of `digits.rs`: the first `half`
digits equal the reverse of the last `half` digits. -/
def is_palindrome (digits : List Nat) : Bool :=
  let half := digits.length / 2
  decide (digits.take half = (digits.drop (digits.length - half)).reverse)

/-- `Digits::is_palindrome`. -/
def Digits.is_palindrome (d : Digits) : Bool := Euler.is_palindrome d.as_slice

/-- The data fed to the `Hasher` by `impl Hash for Digits`: the length byte
followed by the visible slice. -/
def Digits.hash_stream (d : Digits) : List Nat := d.len :: d.as_slice

/-- The representation invariant of `Digits` (claim C10): `len ≤ 20`, the
backing array has exactly 20 entries, the visible entries are decimal
digits, and everything past `len` is zero. -/
def Digits.Inv (d : Digits) : Prop :=
  d.len ≤ 20 ∧ d.values.length = 20 ∧
    (∀ x ∈ d.as_slice, x < 10) ∧
    (∀ k, d.len ≤ k → d.values.getD k 0 = 0)

instance (d : Digits) : Decidable d.Inv := by
  unfold Digits.Inv
  have h2 : Decidable (∀ k, d.len ≤ k → d.values.getD k 0 = 0) := by
    refine decidable_of_iff
      (∀ k ∈ List.range d.values.length, d.len ≤ k → d.values.getD k 0 = 0) ?_
    constructor
    · intro h k hk
      by_cases hlen : k < d.values.length
      · exact h k (by simpa [List.mem_range] using hlen) hk
      · exact List.getD_eq_default _ _ (by omega)
    · intro h k _ hk
      exact h k hk
  exact instDecidableAnd

/-- `struct BigDigits(Vec<u8>)`: an unbounded most-significant-first digit
vector. -/
abbrev BigDigits := List Nat

/-- `BigDigits::from_digits`; `none` models the digit `assert!`. -/
def BigDigits.from_digits (digits : List Nat) : Option BigDigits :=
  if ∀ d ∈ digits, d < 10 then some digits else none

/-- `BigDigits::from_value`, which goes through `Digits::from_value`. -/
def BigDigits.from_value (value : Nat) : Option BigDigits :=
  (Digits.from_value value).map Digits.as_slice

/-- `BigDigits::reversed`. -/
def BigDigits.reversed (b : BigDigits) : BigDigits := List.reverse b

/-- `BigDigits::is_palindrome`. -/
def BigDigits.is_palindrome (b : BigDigits) : Bool := Euler.is_palindrome b

/-- `BigDigits::checked_value`. -/
def BigDigits.checked_value (b : BigDigits) : Option Nat :=
  checked_value_list b

/-- The free function `add_digit` of `digits.rs`: single-digit addition
with carry in and carry out.  (`left + right + carry` is at most 19 when
both operands are digits, so the `u8` arithmetic cannot wrap.) -/
def add_digit (left right : Nat) (carry : Bool) : Nat × Bool :=
  let result := left + right + (if carry then 1 else 0)
  if 10 ≤ result then (result - 10, true) else (result, false)

/-- The `Left(&left)` tail of the `zip_longest` loop: the right operand is
exhausted, each remaining pair is `(left, 0)`. -/
def add_lsd_left : List Nat → Bool → List Nat
  | [], carry => if carry then [1] else []
  | left :: ls, carry =>
    (add_digit left 0 carry).1 :: add_lsd_left ls (add_digit left 0 carry).2

/-- The `Right(&right)` tail of the `zip_longest` loop: the left operand is
exhausted, each remaining pair is `(0, right)`. -/
def add_lsd_right : List Nat → Bool → List Nat
  | [], carry => if carry then [1] else []
  | right :: rs, carry =>
    (add_digit 0 right carry).1 :: add_lsd_right rs (add_digit 0 right carry).2

/-- The `zip_longest` loop of `impl Add for BigDigits`, operating on the
already-reversed (least-significant-first) operands and producing the
least-significant-first result, including the final carry digit.  The
`Both` case is the recursion here; the one-sided tails are the helpers
above (split off so that the recursion is structural). -/
def add_lsd : List Nat → List Nat → Bool → List Nat
  | [], [], carry => if carry then [1] else []
  | ls, [], carry => add_lsd_left ls carry
  | [], rs, carry => add_lsd_right rs carry
  | left :: ls, right :: rs, carry =>
    (add_digit left right carry).1 :: add_lsd ls rs (add_digit left right carry).2

/-- Final carry of the one-sided left tail. -/
def add_lsd_left_carry : List Nat → Bool → Bool
  | [], carry => carry
  | left :: ls, carry => add_lsd_left_carry ls (add_digit left 0 carry).2

/-- Final carry of the one-sided right tail. -/
def add_lsd_right_carry : List Nat → Bool → Bool
  | [], carry => carry
  | right :: rs, carry => add_lsd_right_carry rs (add_digit 0 right carry).2

/-- The final carry of the `zip_longest` loop (true iff the `if carry`
branch appends the extra leading `1`). -/
def add_lsd_carry : List Nat → List Nat → Bool → Bool
  | [], [], carry => carry
  | ls, [], carry => add_lsd_left_carry ls carry
  | [], rs, carry => add_lsd_right_carry rs carry
  | left :: ls, right :: rs, carry => add_lsd_carry ls rs (add_digit left right carry).2

/-- `impl Add for BigDigits`: grade-school addition from the
least-significant ends, final carry appended, then reversed back to
most-significant-first order. -/
def BigDigits.add (a b : BigDigits) : BigDigits :=
  (add_lsd (List.reverse a) (List.reverse b) false).reverse

/-- `is_lycrell_number`'s `loop` (from `solutions/lychrel_numbers.rs`):
`digits += digits.reversed()`, stop with `false` on a palindrome, with
`true` once `max_iterations` is reached.  The source counts `iterations`
up from 0 and exits with `true` once `iterations + 1 ≥ max_iterations`
after an addition; here `remaining = max_iterations - iterations` counts
down, making the recursion structural. -/
def is_lycrell_loop (digits : BigDigits) (remaining : Nat) : Bool :=
  let d := BigDigits.add digits (BigDigits.reversed digits)
  if BigDigits.is_palindrome d then false
  else
    match remaining with
    | 0 => true
    | 1 => true
    | r + 2 => is_lycrell_loop d (r + 1)

/-- `is_lycrell_number` (the `none` case would be a panic inside
`BigDigits::from_value`, impossible for `u64` inputs). -/
def is_lycrell_number (value max_iterations : Nat) : Option Bool :=
  (BigDigits.from_value value).map fun digits =>
    is_lycrell_loop digits max_iterations

/-! ## Bounded sieve of Eratosthenes (`prime_set`, `primes` of `sieve.rs`,
duplicated in `primes.rs` and `utils/mod.rs`) -/

/-- The loop bound `(limit as f64).sqrt().ceil() as usize`, i.e. the
ceiling of the square root.  (For every `limit < 2^52` the `f64`
computation is exact, so it is modelled by the mathematical ceiling;
`f64` rounding above that range is not modelled.) -/
def ceil_sqrt (n : Nat) : Nat :=
  if Nat.sqrt n * Nat.sqrt n = n then Nat.sqrt n else Nat.sqrt n + 1

/-- The inner `while j < limit` loop of `prime_set`: clear bit `j`, step
by `i`.  The bitset is modelled as its characteristic function.  The
`2 ≤ i` conjunct records the outer loop's bound (the loop is only reached
with `i ≥ 2`) and makes the recursion well-founded. -/
def clear_multiples (limit i j : Nat) (s : Nat → Bool) : Nat → Bool :=
  if h : 2 ≤ i ∧ j < limit then
    clear_multiples limit i (j + i) (fun k => if k = j then false else s k)
  else s
termination_by limit - j
decreasing_by omega

/-- The initial bitset of `prime_set`: capacity `limit`, bits `2..` set. -/
def sieve_init (limit : Nat) : Nat → Bool :=
  fun k => decide (2 ≤ k ∧ k < limit)

/-- One iteration of the outer `for i in 2..ceil_sqrt(limit)` loop:
if bit `i` is still set, clear all multiples of `i` from `i * i`. -/
def sieve_step (limit : Nat) (s : Nat → Bool) (i : Nat) : Nat → Bool :=
  if s i then clear_multiples limit i (i * i) s else s

/-- `prime_set(limit)`: the sieve of Eratosthenes bitset, bit `k` for
`k < limit`.  (Bits outside the capacity read as false.) -/
def prime_set (limit : Nat) : Nat → Bool :=
  (List.range' 2 (ceil_sqrt limit - 2)).foldl (sieve_step limit)
    (sieve_init limit)

/-- `primes(limit)`: the set bits of `prime_set(limit)` in increasing
order. -/
def primes (limit : Nat) : List Nat :=
  (List.range limit).filter (prime_set limit)

/-! ## Page-segmented incremental sieve (`IncrementalSieve` of `sieve.rs`,
duplicated in `primes.rs`) -/

/-- `const BFSZ: u64 = 1 << 16` (number of `u32` words per page). -/
def BFSZ : Nat := 1 <<< 16

/-- `const BFBTS: u64 = BFSZ * 32` (number of bits per page). -/
def BFBTS : Nat := BFSZ * 32

/-- `const BFRNG: u64 = BFBTS * 2` (numeric range covered by a page). -/
def BFRNG : Nat := BFBTS * 2

/-- `struct IncrementalSieve`.  The bit-packed `buf: Box<[u32; BFSZ]>` is
modelled by its bit-characteristic function: `buf j` is
`self.buf[j >> 5] & (1 << (j & 31)) != 0`.  `bps` is the recursively
nested base-primes sieve, hence an inductive rather than a structure. -/
inductive IncrementalSieve : Type where
  | mk (bi : Option Nat) (lowi : Nat) (bpa : List Nat)
      (bps : Option IncrementalSieve) (buf : Nat → Bool)

/-- Field `bi`: position in the current page (`None` before `2` is
emitted). -/
def IncrementalSieve.bi : IncrementalSieve → Option Nat
  | ⟨b, _, _, _, _⟩ => b

/-- Field `lowi`: absolute odd-index of the current page's first bit. -/
def IncrementalSieve.lowi : IncrementalSieve → Nat
  | ⟨_, l, _, _, _⟩ => l

/-- Field `bpa`: accumulated base primes. -/
def IncrementalSieve.bpa : IncrementalSieve → List Nat
  | ⟨_, _, a, _, _⟩ => a

/-- Field `bps`: the nested base-primes sieve. -/
def IncrementalSieve.bps : IncrementalSieve → Option IncrementalSieve
  | ⟨_, _, _, s, _⟩ => s

/-- Field `buf`: the page buffer, as a bit predicate. -/
def IncrementalSieve.buf : IncrementalSieve → Nat → Bool
  | ⟨_, _, _, _, f⟩ => f

/-- `IncrementalSieve::new()`. -/
def IncrementalSieve.new : IncrementalSieve :=
  ⟨none, 0, [], none, fun _ => false⟩

/-- The `while j < BFBTS { buf[j>>5] |= 1 << (j&31); j += p }` culling
loop: mark every `p`-th bit from `j`.  The `0 < p` conjunct records that
the loop is only reached with `p ≥ 3` and makes the recursion
well-founded. -/
def mark_multiples (p j : Nat) (buf : Nat → Bool) : Nat → Bool :=
  if h : 0 < p ∧ j < BFBTS then
    mark_multiples p (j + p) (fun k => if k = j then true else buf k)
  else buf
termination_by BFBTS - j
decreasing_by omega

/-- The special page-zero culling of `next_prime` (`lowi <= 0` branch):
`i` indexes the odd candidate `p = 3 + 2i`; while `p * p < nxt`, if bit
`i` is still clear, mark the odd multiples of `p` from `p * p`. -/
def bootstrap_cull (nxt i p : Nat) (buf : Nat → Bool) : Nat → Bool :=
  if h : p * p < nxt then
    bootstrap_cull nxt (i + 1) (p + 2)
      (if buf i then buf else mark_multiples p ((p * p - 3) / 2) buf)
  else buf
termination_by nxt - p
decreasing_by
  have hp : p ≤ p * p := by
    rcases Nat.eq_zero_or_pos p with h0 | h0
    · simp [h0]
    · exact Nat.le_mul_of_pos_left p h0
  omega

/-- Culling of one base prime `p` on the page at `lowi` (the body of the
`for &p in &self.bpa[..len-1]` loop): compute the page-relative start
index `s` of the first odd multiple of `p` at or after the page, and mark
every `p`-th bit. -/
def cull_prime (lowi : Nat) (buf : Nat → Bool) (p : Nat) : Nat → Bool :=
  let s0 := (p * p - 3) / 2
  let s := if lowi ≤ s0 then s0 - lowi
           else if (lowi - s0) % p ≠ 0 then p - (lowi - s0) % p else 0
  mark_multiples p s buf

/-- The `while (bi < BFBTS) && marked(bi)` scan of `next_prime`. -/
def scan_buf (buf : Nat → Bool) (bi : Nat) : Nat :=
  if h : bi < BFBTS ∧ buf bi then scan_buf buf (bi + 1) else bi
termination_by BFBTS - bi
decreasing_by omega

mutual

/-- `IncrementalSieve::next_prime`, with explicit `fuel` bounding the
number of nested `next_prime` invocations (page advances and base-prime
pulls).  `none` means the fuel ran out — never a behaviour of the
source, which simply keeps running. -/
def next_prime : Nat → IncrementalSieve → Option (Nat × IncrementalSieve)
  | 0, _ => none
  | fuel + 1, ⟨none, lowi, bpa, bps, buf⟩ =>
    some (2, ⟨some 0, lowi, bpa, bps, buf⟩)
  | fuel + 1, ⟨some b, lowi, bpa, bps, buf⟩ =>
    if b = 0 then
      if lowi = 0 then
        emit_from fuel lowi bpa bps
          (bootstrap_cull (3 + 2 * lowi + BFRNG) 0 3 buf) b
      else
        match
          (if bpa.isEmpty then
            match next_prime fuel (bps.getD IncrementalSieve.new) with
            | none => none
            | some (_, s1) =>
              match next_prime fuel s1 with
              | none => none
              | some (p2, s2) => some (s2, [p2])
          else some (bps.getD IncrementalSieve.new, bpa)) with
        | none => none
        | some (bps1, bpa1) =>
          match bpa1.getLast? with
          | none => none
          | some pLast =>
            match pull_base_primes fuel bps1 bpa1 pLast
                (3 + 2 * lowi + BFRNG) with
            | none => none
            | some (bps2, bpa2) =>
              emit_from fuel lowi bpa2 (some bps2)
                (bpa2.dropLast.foldl (cull_prime lowi) (fun _ => false)) b
    else
      emit_from fuel lowi bpa bps buf b
termination_by fuel _ => 2 * fuel + 1

/-- The `while sqr < nxt` base-prime pull loop of `next_prime`: `p` is
the current last entry of `bpa`. -/
def pull_base_primes :
    Nat → IncrementalSieve → List Nat → Nat → Nat →
      Option (IncrementalSieve × List Nat)
  | 0, _, _, _, _ => none
  | fuel + 1, bps, bpa, p, nxt =>
    if p * p < nxt then
      match next_prime fuel bps with
      | none => none
      | some (q, bps2) => pull_base_primes fuel bps2 (bpa ++ [q]) q nxt
    else some (bps, bpa)
termination_by fuel _ _ _ _ => 2 * fuel + 2

/-- The common tail of `next_prime`: scan from `b` for the next clear
bit; emit its value, or advance to the next page and recurse. -/
def emit_from :
    Nat → Nat → List Nat → Option IncrementalSieve → (Nat → Bool) → Nat →
      Option (Nat × IncrementalSieve)
  | fuel, lowi, bpa, bps, buf, b =>
    if scan_buf buf b < BFBTS then
      some (3 + 2 * (lowi + scan_buf buf b),
        ⟨some (scan_buf buf b + 1), lowi, bpa, bps, buf⟩)
    else
      next_prime fuel ⟨some 0, lowi + BFBTS, bpa, bps, buf⟩
termination_by fuel _ _ _ _ _ => 2 * fuel + 2

end

/-- The `self.sieve.by_ref().take_while(|&p| p < limit)` collection used
by `IncrementalPrimeSet::expand` (and by the tests): collects emitted
primes while `< limit`.  Note that, exactly as with Rust's `take_while`,
the first emitted prime `≥ limit` is pulled and discarded, and the
returned state is the state after that pull. -/
def collect_while_lt :
    Nat → Nat → IncrementalSieve → Option (List Nat × IncrementalSieve)
  | 0, _, _ => none
  | fuel + 1, limit, s =>
    match next_prime fuel s with
    | none => none
    | some (p, s2) =>
      if p < limit then
        match collect_while_lt fuel limit s2 with
        | none => none
        | some (l, s3) => some (p :: l, s3)
      else some ([], s2)

/-- `struct IncrementalPrimeSet { set: FixedBitSet, sieve: IncrementalSieve.
}` — the `FixedBitSet` is modelled by its length and bit predicate. -/
structure IncrementalPrimeSet where
  set_len : Nat
  set_bits : Nat → Bool
  sieve : IncrementalSieve

/-- `IncrementalPrimeSet::new()` (`FixedBitSet::default()` has length
0). -/
def IncrementalPrimeSet.new : IncrementalPrimeSet :=
  ⟨0, fun _ => false, IncrementalSieve.new⟩

/-- `IncrementalPrimeSet::limit` (the bitset's length). -/
def IncrementalPrimeSet.limit (st : IncrementalPrimeSet) : Nat := st.set_len

/-- `IncrementalPrimeSet::expand`: early return if `limit` is not larger;
otherwise grow the bitset to `limit` and insert every prime pulled from
the sieve while `< limit`. -/
def IncrementalPrimeSet.expand (fuel : Nat) (st : IncrementalPrimeSet)
    (limit : Nat) : Option IncrementalPrimeSet :=
  if limit ≤ st.limit then some st
  else
    match collect_while_lt fuel limit st.sieve with
    | none => none
    | some (ps, sieve2) =>
      some ⟨limit,
        ps.foldl (fun bits p => fun k => if k = p then true else bits k)
          st.set_bits,
        sieve2⟩

/-- `IncrementalPrimeSet::contains`: the `assert!(prime <= len)` panic is
`none`; bits at or beyond the length are never set, so the bitset read is
the bit predicate. -/
def IncrementalPrimeSet.contains (st : IncrementalPrimeSet) (prime : Nat) :
    Option Bool :=
  if prime ≤ st.set_len then some (st.set_bits prime) else none

/-- `IncrementalPrimeSet::check_prime`: expand on demand, then answer by
bitset lookup. -/
def IncrementalPrimeSet.check_prime (fuel : Nat) (st : IncrementalPrimeSet)
    (value : Nat) : Option (Bool × IncrementalPrimeSet) :=
  if st.limit ≤ value then
    match st.expand fuel (max (value + 1000) (st.limit * 2)) with
    | none => none
    | some st2 =>
      match st2.contains value with
      | none => none
      | some r => some (r, st2)
  else
    match st.contains value with
    | none => none
    | some r => some (r, st)

/-! ## Specification-side notions for the incremental sieve -/

/-- The least prime `≥ n`. -/
def minPrimeGe (n : Nat) : Nat := Nat.find (Nat.exists_infinite_primes n)

/-- Buffer invariant of a fully culled page at offset `lowi`: bit `j` is
set exactly for composite odd values `3 + 2*(lowi + j)`. -/
def BufInv (lowi : Nat) (buf : Nat → Bool) : Prop :=
  ∀ j, j < BFBTS → (buf j = true ↔ ¬(3 + 2 * (lowi + j)).Prime)

/-- `bpa` is exactly the list of odd primes below `Fb`, in increasing
order. -/
def BpaChar (bpa : List Nat) (Fb : Nat) : Prop :=
  List.Pairwise (· < ·) bpa ∧
    ∀ m, m ∈ bpa ↔ (m.Prime ∧ 3 ≤ m ∧ m < Fb)

/-- The reachable-state invariant of `IncrementalSieve`, indexed by the
frontier `F`: every prime `< F` has been emitted and the next emission is
the least prime `≥ F`. -/
inductive Valid : IncrementalSieve → Nat → Prop where
  | start : Valid IncrementalSieve.new 2
  | pageZero : Valid ⟨some 0, 0, [], none, fun _ => false⟩ 3
  | pendingFresh (lowi : Nat) (buf : Nat → Bool) :
      0 < lowi → BFBTS ∣ lowi →
      Valid ⟨some 0, lowi, [], none, buf⟩ (3 + 2 * lowi)
  | pendingBps (lowi : Nat) (bpa : List Nat) (bpsS : IncrementalSieve)
      (buf : Nat → Bool) (Fb : Nat) :
      0 < lowi → BFBTS ∣ lowi → bpa ≠ [] → BpaChar bpa Fb →
      Valid bpsS Fb →
      Valid ⟨some 0, lowi, bpa, some bpsS, buf⟩ (3 + 2 * lowi)
  | midFresh (b lowi : Nat) (buf : Nat → Bool) :
      1 ≤ b → b ≤ BFBTS → BFBTS ∣ lowi → BufInv lowi buf →
      Valid ⟨some b, lowi, [], none, buf⟩ (3 + 2 * (lowi + b))
  | midBps (b lowi : Nat) (bpa : List Nat) (bpsS : IncrementalSieve)
      (buf : Nat → Bool) (Fb : Nat) :
      1 ≤ b → b ≤ BFBTS → BFBTS ∣ lowi → BufInv lowi buf →
      bpa ≠ [] → BpaChar bpa Fb → Valid bpsS Fb →
      Valid ⟨some b, lowi, bpa, some bpsS, buf⟩ (3 + 2 * (lowi + b))

/-- The stored base-prime state of a sieve between pages: either still
fresh, or a characterised base-prime list together with a valid nested
sieve positioned just past it. -/
def StoredInv (bpa : List Nat) (bps : Option IncrementalSieve) : Prop :=
  (bpa = [] ∧ bps = none) ∨
  (∃ Fb bpsS, bps = some bpsS ∧ bpa ≠ [] ∧ BpaChar bpa Fb ∧ Valid bpsS Fb)

/-- After emitting `q`, the new frontier `F2` separates primes `≤ q` from
primes `> q`. -/
def FrontierStep (q F2 : Nat) : Prop :=
  ∀ r, r.Prime → (r < F2 ↔ r ≤ q)

/-- Partial correctness of `next_prime` at a given fuel: from any valid
state, a successful call emits the least prime at or above the frontier
and reaches a valid successor state. -/
def PCnextS (fuel : Nat) : Prop :=
  ∀ s F q s2, Valid s F → next_prime fuel s = some (q, s2) →
    q = minPrimeGe F ∧ ∃ F2, FrontierStep q F2 ∧ Valid s2 F2

/-- Partial correctness of the base-prime pull loop: starting from a
characterised base-prime list whose last entry is `p` and a base sieve
just past it, a successful pull returns a characterised extension whose
last entry squares to at least `nxt`. -/
def PCpullS (fuel : Nat) : Prop :=
  ∀ bps bpa p nxt bps2 bpa2 Fb, Valid bps Fb → BpaChar bpa Fb →
    bpa.getLast? = some p → FrontierStep p Fb →
    pull_base_primes fuel bps bpa p nxt = some (bps2, bpa2) →
    ∃ Fb2 pL2, BpaChar bpa2 Fb2 ∧ Valid bps2 Fb2 ∧
      bpa2.getLast? = some pL2 ∧ FrontierStep pL2 Fb2 ∧ nxt ≤ pL2 * pL2

/-- Partial correctness of the scan-and-emit tail on a fully culled
page. -/
def PCemitS (fuel : Nat) : Prop :=
  ∀ lowi bpa bps buf b q s2, BFBTS ∣ lowi → b ≤ BFBTS →
    BufInv lowi buf → StoredInv bpa bps →
    emit_from fuel lowi bpa bps buf b = some (q, s2) →
    q = minPrimeGe (3 + 2 * (lowi + b)) ∧
      ∃ F2, FrontierStep q F2 ∧ Valid s2 F2

/-! ## Lemmas about the digit vectors -/

theorem list_value_append_single (l : List Nat) (d : Nat) :
    list_value (l ++ [d]) = list_value l * 10 + d := by
  simp [list_value, List.foldl_append]

theorem list_value_reverse (l : List Nat) :
    list_value l.reverse = Nat.ofDigits 10 l := by
  induction l with
  | nil => simp [list_value, Nat.ofDigits_nil]
  | cons d ds ih =>
    rw [List.reverse_cons, list_value_append_single, ih, Nat.ofDigits_cons]
    ring

theorem list_value_eq_ofDigits_reverse (l : List Nat) :
    list_value l = Nat.ofDigits 10 l.reverse := by
  rw [← list_value_reverse, List.reverse_reverse]

theorem value_fold_mod (l : List Nat) : ∀ a : Nat,
    l.foldl (fun acc d => (acc * 10 + d) % U64_MOD) (a % U64_MOD) =
      (l.foldl (fun acc d => acc * 10 + d) a) % U64_MOD := by
  induction l with
  | nil => intro a; rfl
  | cons d ds ih =>
    intro a
    simp only [List.foldl_cons]
    have h : (a % U64_MOD * 10 + d) % U64_MOD = (a * 10 + d) % U64_MOD :=
      ((Nat.mod_modEq a U64_MOD).mul_right 10).add_right d
    rw [h, ih (a * 10 + d)]

theorem Digits.value_eq_mod (d : Digits) :
    d.value = list_value d.as_slice % U64_MOD := by
  have h := value_fold_mod d.as_slice 0
  simpa [Digits.value, list_value] using h

theorem list_value_from_le (l : List Nat) :
    ∀ a : Nat, a ≤ l.foldl (fun acc d => acc * 10 + d) a := by
  induction l with
  | nil => intro a; exact Nat.le_refl a
  | cons d ds ih =>
    intro a
    calc a ≤ a * 10 + d := by omega
    _ ≤ _ := ih (a * 10 + d)

theorem checked_fold_none (l : List Nat) :
    l.foldl
      (fun acc digit =>
        acc.bind fun result =>
          (checked_mul_u64 result 10).bind fun m => checked_add_u64 m digit)
      none = none := by
  induction l with
  | nil => rfl
  | cons d ds ih => simpa using ih

theorem checked_fold_spec (l : List Nat) : ∀ a : Nat, a < U64_MOD →
    l.foldl
      (fun acc digit =>
        acc.bind fun result =>
          (checked_mul_u64 result 10).bind fun m => checked_add_u64 m digit)
      (some a) =
    (if l.foldl (fun acc d => acc * 10 + d) a < U64_MOD then
      some (l.foldl (fun acc d => acc * 10 + d) a) else none) := by
  induction l with
  | nil =>
    intro a ha
    simp [ha]
  | cons d ds ih =>
    intro a ha
    simp only [List.foldl_cons]
    by_cases hmul : a * 10 < U64_MOD
    · by_cases hadd : a * 10 + d < U64_MOD
      · rw [show ((some a).bind fun result =>
              (checked_mul_u64 result 10).bind fun m => checked_add_u64 m d)
              = some (a * 10 + d) by
            simp [checked_mul_u64, checked_add_u64, hmul, hadd]]
        exact ih (a * 10 + d) hadd
      · rw [show ((some a).bind fun result =>
              (checked_mul_u64 result 10).bind fun m => checked_add_u64 m d)
              = none by simp [checked_mul_u64, checked_add_u64, hmul, hadd]]
        rw [checked_fold_none]
        have := list_value_from_le ds (a * 10 + d)
        rw [if_neg (by omega)]
    · rw [show ((some a).bind fun result =>
            (checked_mul_u64 result 10).bind fun m => checked_add_u64 m d)
            = none by simp [checked_mul_u64, hmul]]
      rw [checked_fold_none]
      have := list_value_from_le ds (a * 10 + d)
      rw [if_neg (by omega)]

theorem checked_value_list_spec (l : List Nat) :
    checked_value_list l =
      (if list_value l < U64_MOD then some (list_value l) else none) := by
  have h := checked_fold_spec l 0 (by simp [U64_MOD])
  simpa [checked_value_list, list_value] using h

theorem add_digit_val (a b : Nat) (c : Bool) :
    (add_digit a b c).1 + 10 * (if (add_digit a b c).2 then 1 else 0)
      = a + b + (if c then 1 else 0) := by
  have h : add_digit a b c
      = if 10 ≤ a + b + (if c then 1 else 0)
        then (a + b + (if c then 1 else 0) - 10, true)
        else (a + b + (if c then 1 else 0), false) := rfl
  rw [h]
  by_cases hc : 10 ≤ a + b + (if c then 1 else 0)
  · rw [if_pos hc]; simp; omega
  · rw [if_neg hc]; simp

theorem add_digit_lt {a b : Nat} (c : Bool) (ha : a < 10) (hb : b < 10) :
    (add_digit a b c).1 < 10 := by
  have h : add_digit a b c
      = if 10 ≤ a + b + (if c then 1 else 0)
        then (a + b + (if c then 1 else 0) - 10, true)
        else (a + b + (if c then 1 else 0), false) := rfl
  rw [h]
  by_cases hc : 10 ≤ a + b + (if c then 1 else 0)
  · rw [if_pos hc]; cases c <;> simp_all <;> omega
  · rw [if_neg hc]
    cases c <;> simp_all <;> omega

theorem add_lsd_left_value (ls : List Nat) : ∀ c : Bool,
    Nat.ofDigits 10 (add_lsd_left ls c)
      = Nat.ofDigits 10 ls + (if c then 1 else 0) := by
  induction ls with
  | nil => intro c; cases c <;> simp [add_lsd_left, Nat.ofDigits]
  | cons l ls ih =>
    intro c
    have hd := add_digit_val l 0 c
    simp only [add_lsd_left, Nat.ofDigits_cons, ih]
    omega

theorem add_lsd_right_value (rs : List Nat) : ∀ c : Bool,
    Nat.ofDigits 10 (add_lsd_right rs c)
      = Nat.ofDigits 10 rs + (if c then 1 else 0) := by
  induction rs with
  | nil => intro c; cases c <;> simp [add_lsd_right, Nat.ofDigits]
  | cons r rs ih =>
    intro c
    have hd := add_digit_val 0 r c
    simp only [add_lsd_right, Nat.ofDigits_cons, ih]
    omega

theorem add_lsd_value (xs : List Nat) : ∀ (ys : List Nat) (c : Bool),
    Nat.ofDigits 10 (add_lsd xs ys c)
      = Nat.ofDigits 10 xs + Nat.ofDigits 10 ys + (if c then 1 else 0) := by
  induction xs with
  | nil =>
    intro ys c
    cases ys with
    | nil => cases c <;> simp [add_lsd, Nat.ofDigits]
    | cons r rs =>
      have h := add_lsd_right_value (r :: rs) c
      simpa [add_lsd] using h
  | cons x xs ih =>
    intro ys c
    cases ys with
    | nil =>
      have h := add_lsd_left_value (x :: xs) c
      simpa [add_lsd] using h
    | cons y ys =>
      have hd := add_digit_val x y c
      simp only [add_lsd, Nat.ofDigits_cons, ih]
      omega

theorem add_lsd_left_digits (ls : List Nat) : ∀ (c : Bool),
    (∀ d ∈ ls, d < 10) → ∀ d ∈ add_lsd_left ls c, d < 10 := by
  induction ls with
  | nil =>
    intro c _ d hd
    cases c <;> simp [add_lsd_left] at hd
    omega
  | cons l ls ih =>
    intro c h d hd
    simp only [add_lsd_left, List.mem_cons] at hd
    rcases hd with rfl | hd
    · exact add_digit_lt c (h l (by simp)) (by norm_num)
    · exact ih _ (fun x hx => h x (by simp [hx])) d hd

theorem add_lsd_right_digits (rs : List Nat) : ∀ (c : Bool),
    (∀ d ∈ rs, d < 10) → ∀ d ∈ add_lsd_right rs c, d < 10 := by
  induction rs with
  | nil =>
    intro c _ d hd
    cases c <;> simp [add_lsd_right] at hd
    omega
  | cons r rs ih =>
    intro c h d hd
    simp only [add_lsd_right, List.mem_cons] at hd
    rcases hd with rfl | hd
    · exact add_digit_lt c (by norm_num) (h r (by simp))
    · exact ih _ (fun x hx => h x (by simp [hx])) d hd

theorem add_lsd_digits (xs : List Nat) : ∀ (ys : List Nat) (c : Bool),
    (∀ d ∈ xs, d < 10) → (∀ d ∈ ys, d < 10) →
    ∀ d ∈ add_lsd xs ys c, d < 10 := by
  induction xs with
  | nil =>
    intro ys c _ hys d hd
    cases ys with
    | nil =>
      cases c <;> simp [add_lsd] at hd
      omega
    | cons r rs =>
      exact add_lsd_right_digits (r :: rs) c hys d (by simpa [add_lsd] using hd)
  | cons x xs ih =>
    intro ys c hxs hys d hd
    cases ys with
    | nil =>
      exact add_lsd_left_digits (x :: xs) c hxs d (by simpa [add_lsd] using hd)
    | cons y ys =>
      simp only [add_lsd, List.mem_cons] at hd
      rcases hd with rfl | hd
      · exact add_digit_lt c (hxs x (by simp)) (hys y (by simp))
      · exact ih ys _ (fun a ha => hxs a (by simp [ha]))
          (fun a ha => hys a (by simp [ha])) d hd

theorem add_lsd_left_length (ls : List Nat) : ∀ c : Bool,
    (add_lsd_left ls c).length
      = ls.length + (if add_lsd_left_carry ls c then 1 else 0) := by
  induction ls with
  | nil => intro c; cases c <;> simp [add_lsd_left, add_lsd_left_carry]
  | cons l ls ih =>
    intro c
    simp only [add_lsd_left, add_lsd_left_carry, List.length_cons, ih]
    omega

theorem add_lsd_right_length (rs : List Nat) : ∀ c : Bool,
    (add_lsd_right rs c).length
      = rs.length + (if add_lsd_right_carry rs c then 1 else 0) := by
  induction rs with
  | nil => intro c; cases c <;> simp [add_lsd_right, add_lsd_right_carry]
  | cons r rs ih =>
    intro c
    simp only [add_lsd_right, add_lsd_right_carry, List.length_cons, ih]
    omega

theorem add_lsd_length (xs : List Nat) : ∀ (ys : List Nat) (c : Bool),
    (add_lsd xs ys c).length
      = max xs.length ys.length + (if add_lsd_carry xs ys c then 1 else 0) := by
  induction xs with
  | nil =>
    intro ys c
    cases ys with
    | nil => cases c <;> simp [add_lsd, add_lsd_carry]
    | cons r rs =>
      have h := add_lsd_right_length (r :: rs) c
      simp only [add_lsd, add_lsd_carry, h, List.length_cons, List.length_nil]
      omega
  | cons x xs ih =>
    intro ys c
    cases ys with
    | nil =>
      have h := add_lsd_left_length (x :: xs) c
      simp only [add_lsd, add_lsd_carry, h, List.length_cons, List.length_nil]
      omega
    | cons y ys =>
      simp only [add_lsd, add_lsd_carry, List.length_cons, ih]
      omega

theorem add_lsd_left_getLast (ls : List Nat) : ∀ c : Bool,
    add_lsd_left_carry ls c = true → (add_lsd_left ls c).getLast? = some 1 := by
  induction ls with
  | nil =>
    intro c hc
    simp only [add_lsd_left_carry] at hc
    simp [add_lsd_left, hc]
  | cons l ls ih =>
    intro c hc
    simp only [add_lsd_left_carry] at hc
    have h := ih _ hc
    have h2 : (1 : Nat) ∈
        ((add_digit l 0 c).1 :: add_lsd_left ls (add_digit l 0 c).2).getLast? :=
      List.mem_getLast?_cons (Option.mem_def.mpr h)
    rw [show add_lsd_left (l :: ls) c
        = (add_digit l 0 c).1 :: add_lsd_left ls (add_digit l 0 c).2 from rfl]
    exact Option.mem_def.mp h2

theorem add_lsd_right_getLast (rs : List Nat) : ∀ c : Bool,
    add_lsd_right_carry rs c = true → (add_lsd_right rs c).getLast? = some 1 := by
  induction rs with
  | nil =>
    intro c hc
    simp only [add_lsd_right_carry] at hc
    simp [add_lsd_right, hc]
  | cons r rs ih =>
    intro c hc
    simp only [add_lsd_right_carry] at hc
    have h := ih _ hc
    have h2 : (1 : Nat) ∈
        ((add_digit 0 r c).1 :: add_lsd_right rs (add_digit 0 r c).2).getLast? :=
      List.mem_getLast?_cons (Option.mem_def.mpr h)
    rw [show add_lsd_right (r :: rs) c
        = (add_digit 0 r c).1 :: add_lsd_right rs (add_digit 0 r c).2 from rfl]
    exact Option.mem_def.mp h2

theorem add_lsd_getLast (xs : List Nat) : ∀ (ys : List Nat) (c : Bool),
    add_lsd_carry xs ys c = true → (add_lsd xs ys c).getLast? = some 1 := by
  induction xs with
  | nil =>
    intro ys c hc
    cases ys with
    | nil =>
      simp only [add_lsd_carry] at hc
      simp [add_lsd, hc]
    | cons r rs =>
      have h := add_lsd_right_getLast (r :: rs) c (by simpa [add_lsd_carry] using hc)
      simpa [add_lsd] using h
  | cons x xs ih =>
    intro ys c hc
    cases ys with
    | nil =>
      have h := add_lsd_left_getLast (x :: xs) c (by simpa [add_lsd_carry] using hc)
      simpa [add_lsd] using h
    | cons y ys =>
      simp only [add_lsd_carry] at hc
      have h := ih ys _ hc
      have h2 : (1 : Nat) ∈
          ((add_digit x y c).1 :: add_lsd xs ys (add_digit x y c).2).getLast? :=
        List.mem_getLast?_cons (Option.mem_def.mpr h)
      rw [show add_lsd (x :: xs) (y :: ys) c
          = (add_digit x y c).1 :: add_lsd xs ys (add_digit x y c).2 from rfl]
      exact Option.mem_def.mp h2

theorem BigDigits.add_value (a b : BigDigits) :
    list_value (BigDigits.add a b) = list_value a + list_value b := by
  unfold BigDigits.add
  rw [list_value_reverse, add_lsd_value]
  rw [← list_value_eq_ofDigits_reverse, ← list_value_eq_ofDigits_reverse]
  simp

/-! ## Claims C4 and C6 -/

/-- **C4.** For all digit vectors `a` and `b` representing non-negative
integers `x` and `y`, the result `c` of `a + b` (`BigDigits` addition)
represents `x + y`: whenever `x + y` is representable,
`c.checked_value() == Some(x + y)`; every digit of `c` is `< 10`; and the
length of `c` is at most `max(len(a), len(b)) + 1`, with the extra leading
digit (a `1`) appended exactly when the final carry is set. -/
theorem C4_big_digits_add (a b : BigDigits)
    (ha : ∀ d ∈ a, d < 10) (hb : ∀ d ∈ b, d < 10) :
    (list_value a + list_value b < U64_MOD →
      BigDigits.checked_value (BigDigits.add a b)
        = some (list_value a + list_value b)) ∧
    (∀ d ∈ BigDigits.add a b, d < 10) ∧
    (BigDigits.add a b).length
      = max a.length b.length
        + (if add_lsd_carry a.reverse b.reverse false then 1 else 0) ∧
    (add_lsd_carry a.reverse b.reverse false = true →
      (BigDigits.add a b).head? = some 1) := by
  refine ⟨?_, ?_, ?_, ?_⟩
  · intro hlt
    rw [BigDigits.checked_value, checked_value_list_spec, BigDigits.add_value,
      if_pos hlt]
  · intro d hd
    rw [BigDigits.add, List.mem_reverse] at hd
    exact add_lsd_digits a.reverse b.reverse false
      (fun x hx => ha x (List.mem_reverse.mp hx))
      (fun x hx => hb x (List.mem_reverse.mp hx)) d hd
  · rw [BigDigits.add, List.length_reverse, add_lsd_length]
    simp
  · intro hc
    rw [BigDigits.add, List.head?_reverse]
    exact add_lsd_getLast a.reverse b.reverse false hc

/-- Witness for C4 at the carry-exercising input `999 + 1 = 1000`. -/
theorem C4_big_digits_add_witness :
    (∀ d ∈ ([9, 9, 9] : List Nat), d < 10) ∧
    (∀ d ∈ ([1] : List Nat), d < 10) ∧
    BigDigits.checked_value (BigDigits.add [9, 9, 9] [1]) = some 1000 ∧
    (BigDigits.add [9, 9, 9] [1]).length = 4 := by
  refine ⟨by decide, by decide, ?_, ?_⟩
  · have h := (C4_big_digits_add [9, 9, 9] [1] (by decide) (by decide)).1 (by decide)
    exact h.trans (by decide)
  · have h := (C4_big_digits_add [9, 9, 9] [1] (by decide) (by decide)).2.2.1
    exact h.trans (by decide)

/-- **C6.** For every digit vector (fixed-capacity `Digits` or unbounded
`BigDigits`) whose digits are all `< 10`, `checked_value()` returns `None`
if and only if the represented integer exceeds `u64::MAX`; otherwise it
returns `Some` of that exact integer, never a wrapped result.  (The digit
bound is the claim's hypothesis; the accumulation loops are literally the
same and are shared as `checked_value_list`.) -/
theorem C6_checked_value :
    (∀ b : BigDigits, (∀ d ∈ b, d < 10) →
      ((BigDigits.checked_value b = none ↔ U64_MOD ≤ list_value b) ∧
       (list_value b < U64_MOD →
         BigDigits.checked_value b = some (list_value b)))) ∧
    (∀ d : Digits, (∀ x ∈ d.as_slice, x < 10) →
      ((Digits.checked_value d = none ↔ U64_MOD ≤ list_value d.as_slice) ∧
       (list_value d.as_slice < U64_MOD →
         Digits.checked_value d = some (list_value d.as_slice)))) := by
  constructor
  · intro b _
    rw [BigDigits.checked_value, checked_value_list_spec]
    constructor
    · constructor
      · intro h
        by_contra hlt
        rw [if_pos (by omega)] at h
        exact Option.noConfusion h
      · intro h
        rw [if_neg (by omega)]
    · intro h
      rw [if_pos h]
  · intro d _
    rw [Digits.checked_value, checked_value_list_spec]
    constructor
    · constructor
      · intro h
        by_contra hlt
        rw [if_pos (by omega)] at h
        exact Option.noConfusion h
      · intro h
        rw [if_neg (by omega)]
    · intro h
      rw [if_pos h]

/-- Witness for C6: a 20-digit value right below `u64::MAX` is returned
exactly, and a 21-digit value overflows to `None`. -/
theorem C6_checked_value_witness :
    (∀ d ∈ ([1, 8, 4, 4, 6, 7, 4, 4, 0, 7, 3, 7, 0, 9, 5, 5, 1, 6, 1, 5] : List Nat),
      d < 10) ∧
    BigDigits.checked_value
      [1, 8, 4, 4, 6, 7, 4, 4, 0, 7, 3, 7, 0, 9, 5, 5, 1, 6, 1, 5]
      = some 18446744073709551615 ∧
    (∀ d ∈ ([1, 8, 4, 4, 6, 7, 4, 4, 0, 7, 3, 7, 0, 9, 5, 5, 1, 6, 1, 6] : List Nat),
      d < 10) ∧
    BigDigits.checked_value
      [1, 8, 4, 4, 6, 7, 4, 4, 0, 7, 3, 7, 0, 9, 5, 5, 1, 6, 1, 6] = none := by
  refine ⟨by decide, ?_, by decide, ?_⟩
  · have h := ((C6_checked_value.1
      [1, 8, 4, 4, 6, 7, 4, 4, 0, 7, 3, 7, 0, 9, 5, 5, 1, 6, 1, 5]
      (by decide)).2 (by decide))
    exact h.trans (by decide)
  · exact (C6_checked_value.1
      [1, 8, 4, 4, 6, 7, 4, 4, 0, 7, 3, 7, 0, 9, 5, 5, 1, 6, 1, 6]
      (by decide)).1.mpr (by decide)

/-! ## Lemmas for `Digits` mutators and `from_value` -/

theorem take_succ_set_self (l : List Nat) (i a : Nat) (h : i < l.length) :
    (l.set i a).take (i + 1) = l.take i ++ [a] := by
  rw [List.set_eq_take_cons_drop a h, List.take_append_eq_append_take]
  have h1 : (l.take i).length = i := by simp [List.length_take]; omega
  have h2 : List.take (i + 1) (l.take i) = l.take i :=
    List.take_of_length_le (by rw [h1]; omega)
  rw [h2, h1]
  simp

theorem getD_set_self (l : List Nat) (i a : Nat) (h : i < l.length) :
    (l.set i a).getD i 0 = a := by
  simp [List.getD_eq_getElem?_getD, List.getElem?_set_self h]

theorem getD_set_ne (l : List Nat) {i k : Nat} (a : Nat) (h : i ≠ k) :
    (l.set i a).getD k 0 = l.getD k 0 := by
  simp [List.getD_eq_getElem?_getD, List.getElem?_set_ne h]

theorem Digits.push_spec {d d2 : Digits} {digit : Nat}
    (hlen : d.len < d.values.length) (h : d.push digit = some d2) :
    digit < 10 ∧ d2.len = d.len + 1 ∧ d2.values.length = d.values.length ∧
      d2.as_slice = d.as_slice ++ [digit] ∧
      (∀ k, d2.len ≤ k → d2.values.getD k 0 = d.values.getD k 0) := by
  unfold Digits.push at h
  split at h
  case isFalse => exact Option.noConfusion h
  case isTrue hc =>
    obtain ⟨rfl⟩ := Option.some.injEq .. ▸ h
    refine ⟨hc.1, rfl, by simp, ?_, ?_⟩
    · show (d.values.set d.len digit).take (d.len + 1) = d.values.take d.len ++ [digit]
      exact take_succ_set_self d.values d.len digit hlen
    · intro k hk
      exact getD_set_ne d.values digit (by simp at hk; omega)

theorem Digits.push_inv {d d2 : Digits} {digit : Nat} (hinv : d.Inv)
    (hdigit : digit < 10) (h : d.push digit = some d2) :
    d2.Inv ∧ d2.len = d.len + 1 ∧ d2.as_slice = d.as_slice ++ [digit] := by
  obtain ⟨h20, hvl, hdig, htrail⟩ := hinv
  have hlen : d.len < d.values.length := by
    -- push only succeeds when `len < 20`
    unfold Digits.push at h
    split at h
    case isFalse => exact Option.noConfusion h
    case isTrue hc => omega
  obtain ⟨_, hl2, hvl2, hs2, ht2⟩ := Digits.push_spec hlen h
  refine ⟨⟨by omega, by omega, ?_, ?_⟩, hl2, hs2⟩
  · intro x hx
    rw [hs2] at hx
    rcases List.mem_append.mp hx with hx | hx
    · exact hdig x hx
    · simp at hx; omega
  · intro k hk
    rw [ht2 k hk]
    exact htrail k (by omega)

theorem Digits.reverse_as_slice (d : Digits) (h : d.len ≤ d.values.length) :
    d.reverse.as_slice = d.as_slice.reverse ∧ d.reverse.len = d.len := by
  refine ⟨?_, rfl⟩
  show ((d.values.take d.len).reverse ++ d.values.drop d.len).take d.len
      = (d.values.take d.len).reverse
  have h1 : ((d.values.take d.len).reverse).length = d.len := by
    simp [List.length_take]; omega
  rw [List.take_append_eq_append_take, List.take_of_length_le (by omega),
    h1, Nat.sub_self]
  simp

theorem Digits.reverse_inv {d : Digits} (hinv : d.Inv) : d.reverse.Inv := by
  obtain ⟨h20, hvl, hdig, htrail⟩ := hinv
  obtain ⟨hs, hl⟩ := Digits.reverse_as_slice d (by omega)
  refine ⟨by rw [hl]; omega, ?_, ?_, ?_⟩
  · show ((d.values.take d.len).reverse ++ d.values.drop d.len).length = 20
    simp [List.length_take]
    omega
  · intro x hx
    rw [hs, List.mem_reverse] at hx
    exact hdig x hx
  · intro k hk
    rw [hl] at hk
    show ((d.values.take d.len).reverse ++ d.values.drop d.len).getD k 0 = 0
    have h1 : ((d.values.take d.len).reverse).length = d.len := by
      simp [List.length_take]; omega
    rw [List.getD_eq_getElem?_getD,
      List.getElem?_append_right (by rw [h1]; omega), h1, List.getElem?_drop]
    have h2 : d.len + (k - d.len) = k := by omega
    rw [h2, ← List.getD_eq_getElem?_getD]
    exact htrail k hk

theorem digits10_length_le_20 {num : Nat} (h : num < U64_MOD) :
    (Nat.digits 10 num).length ≤ 20 := by
  by_cases h0 : num = 0
  · subst h0; simp
  · by_contra hgt
    have h1 : (10 : Nat) ^ (Nat.digits 10 num).length ≤ 10 * num :=
      Nat.base_pow_length_digits_le 10 num (by norm_num) h0
    have h2 : (10 : Nat) ^ 21 ≤ 10 ^ (Nat.digits 10 num).length :=
      Nat.pow_le_pow_right (by norm_num) (by omega)
    have : U64_MOD < 10 ^ 20 := by norm_num [U64_MOD]
    omega

theorem Digits.from_value_loop_spec :
    ∀ fuel num (d : Digits), num ≤ fuel → d.Inv →
      d.len + (Nat.digits 10 num).length ≤ 20 →
      ∃ d2, Digits.from_value_loop fuel num d = some d2 ∧ d2.Inv ∧
        d2.len = d.len + (Nat.digits 10 num).length ∧
        d2.as_slice = d.as_slice ++ Nat.digits 10 num := by
  intro fuel
  induction fuel with
  | zero =>
    intro num d hle hinv _
    have h0 : num = 0 := by omega
    subst h0
    exact ⟨d, rfl, hinv, by simp, by simp⟩
  | succ fuel ih =>
    intro num d hle hinv hcap
    match num with
    | 0 => exact ⟨d, rfl, hinv, by simp, by simp⟩
    | n + 1 =>
      have hdigits : Nat.digits 10 (n + 1)
          = (n + 1) % 10 :: Nat.digits 10 ((n + 1) / 10) :=
        Nat.digits_def' (by norm_num) (Nat.succ_pos n)
      have hlen : d.len < 20 := by rw [hdigits] at hcap; simp at hcap; omega
      have hpush : d.push ((n + 1) % 10)
          = some ⟨d.len + 1, d.values.set d.len ((n + 1) % 10)⟩ := by
        unfold Digits.push
        rw [if_pos ⟨Nat.mod_lt _ (by norm_num), hlen⟩]
      obtain ⟨hinv2, hlen2, hslice2⟩ :=
        Digits.push_inv hinv (Nat.mod_lt _ (by norm_num)) hpush
      have hrec := ih ((n + 1) / 10) _
        (by
          have := Nat.div_lt_self (Nat.succ_pos n) (by norm_num : (1 : Nat) < 10)
          omega)
        hinv2
        (by rw [hdigits] at hcap; simp at hcap; omega)
      obtain ⟨d2, heq, hi2, hl2, hs2⟩ := hrec
      refine ⟨d2, ?_, hi2, ?_, ?_⟩
      · show Digits.from_value_loop (fuel + 1) (n + 1) d = some d2
        unfold Digits.from_value_loop
        rw [hpush]
        exact heq
      · rw [hl2, hlen2, hdigits]
        simp
        omega
      · rw [hs2, hslice2, hdigits, List.append_assoc]
        rfl

/-! ## Claim C5 -/

/-- **C5.** For every 64-bit unsigned integer `n`,
`Digits::from_value(n).value() == n` (round-trip through the decimal digit
representation), and `from_value(0)` is the single-digit vector `[0]`. -/
theorem C5_from_value_round_trip :
    (∀ num : Nat, num < U64_MOD →
      ∃ d, Digits.from_value num = some d ∧ d.value = num) ∧
    (∃ d0, Digits.from_value 0 = some d0 ∧ d0.as_slice = [0]) := by
  constructor
  · intro num hnum
    by_cases h0 : num = 0
    · subst h0
      exact ⟨⟨1, List.replicate 20 0⟩, rfl, by decide⟩
    · obtain ⟨d2, heq, hinv, _, hs⟩ :=
        Digits.from_value_loop_spec num num Digits.new (Nat.le_refl num)
          (by decide) (by simpa [Digits.new] using digits10_length_le_20 hnum)
      obtain ⟨hrs, _⟩ := Digits.reverse_as_slice d2 (by
        obtain ⟨h20, hvl, _, _⟩ := hinv
        omega)
      refine ⟨d2.reverse, ?_, ?_⟩
      · rw [Digits.from_value, if_neg h0, heq]
        rfl
      · rw [Digits.value_eq_mod, hrs, hs]
        have hnewslice : Digits.new.as_slice = [] := by decide
        rw [hnewslice, List.nil_append, list_value_reverse,
          Nat.ofDigits_digits]
        exact Nat.mod_eq_of_lt hnum
  · exact ⟨⟨1, List.replicate 20 0⟩, rfl, by decide⟩

/-- Witness for C5 at `n = 12345`. -/
theorem C5_from_value_round_trip_witness :
    12345 < U64_MOD ∧
    ∃ d, Digits.from_value 12345 = some d ∧ d.value = 12345 :=
  ⟨by decide, C5_from_value_round_trip.1 12345 (by decide)⟩

/-! ## Claim C7: the `pad` shift loop reads the wrong region -/

/-- **C7 (code bug).**  The claim says `pad(amount)` on a shorter vector
produces `amount - len` leading zeros followed by the original digits.
The source loop `for index in (len..amount).rev()` reads
`values[index]` (the zero region past the digits) instead of the digits
at `0..len`, so the original digits are destroyed by the subsequent
zero-fill.  Concretely, `from_value(5).pad(2)` yields digits `[0, 0]`,
not `[0, 5]` as the claim requires. -/
theorem C7_pad_bug :
    ((Digits.from_value 5).bind fun d => d.pad 2).map Digits.as_slice
      = some [0, 0] ∧
    ((Digits.from_value 5).bind fun d => d.pad 2).map Digits.as_slice
      ≠ some (List.replicate 1 0 ++ [5]) := by
  exact ⟨by decide, by decide⟩

/-! ## Lemmas for `pad`, `insert`, and claim C10 -/

theorem Digits.push_digit_lt {d d2 : Digits} {digit : Nat}
    (h : d.push digit = some d2) : digit < 10 := by
  unfold Digits.push at h
  split at h
  case isFalse => exact Option.noConfusion h
  case isTrue hc => exact hc.1

theorem Digits.from_value_loop_inv :
    ∀ fuel num (d d2 : Digits), d.Inv →
      Digits.from_value_loop fuel num d = some d2 → d2.Inv := by
  intro fuel
  induction fuel with
  | zero =>
    intro num d d2 hinv h
    match num with
    | 0 => obtain ⟨rfl⟩ := Option.some.injEq .. ▸ h; exact hinv
    | _ + 1 => exact Option.noConfusion h
  | succ fuel ih =>
    intro num d d2 hinv h
    match num with
    | 0 => obtain ⟨rfl⟩ := Option.some.injEq .. ▸ h; exact hinv
    | n + 1 =>
      unfold Digits.from_value_loop at h
      generalize hp : d.push ((n + 1) % 10) = res at h
      match res with
      | none => exact Option.noConfusion h
      | some d3 =>
        exact ih _ d3 d2 (Digits.push_inv hinv (Digits.push_digit_lt hp) hp).1 h

theorem Digits.pad_loop_spec :
    ∀ (idxs : List Nat) (vals : List Nat) (padding : Nat) (vals2 : List Nat)
      (W : Nat),
      (∀ i ∈ idxs, W ≤ i + padding ∧ i < W) →
      Digits.pad_loop vals padding idxs = some vals2 →
      vals2.length = vals.length ∧
      (∀ k, k < W → vals2.getD k 0 = vals.getD k 0) ∧
      (∀ k, W ≤ k → vals2.getD k 0 = vals.getD k 0 ∨
        ∃ i ∈ idxs, i < W ∧ vals2.getD k 0 = vals.getD i 0) := by
  intro idxs
  induction idxs with
  | nil =>
    intro vals padding vals2 W _ h
    obtain ⟨rfl⟩ := Option.some.injEq .. ▸ h
    exact ⟨rfl, fun k _ => rfl, fun k _ => Or.inl rfl⟩
  | cons i rest ih =>
    intro vals padding vals2 W hcond h
    unfold Digits.pad_loop at h
    split at h
    case isFalse => exact Option.noConfusion h
    case isTrue hlt =>
      have hiW := hcond i (by simp)
      obtain ⟨hL, hlow, hhigh⟩ :=
        ih (vals.set (i + padding) (vals.getD i 0)) padding vals2 W
          (fun j hj => hcond j (by simp [hj])) h
      refine ⟨by simpa using hL, ?_, ?_⟩
      · intro k hk
        rw [hlow k hk, getD_set_ne vals _ (by omega)]
      · intro k hk
        rcases hhigh k hk with heq | ⟨j, hj, hjW, heq⟩
        · by_cases hki : k = i + padding
          · subst hki
            by_cases hip : i + padding < vals.length
            · rw [heq, getD_set_self vals _ _ hip]
              exact Or.inr ⟨i, by simp, hiW.2, rfl⟩
            · rw [heq]
              rw [List.getD_eq_default _ _ (by simp; omega)]
              rw [List.getD_eq_default _ _ (by omega)]
              exact Or.inl rfl
          · rw [heq, getD_set_ne vals _ (by omega)]
            exact Or.inl rfl
        · rw [heq, getD_set_ne vals _ (by omega)]
          exact Or.inr ⟨j, by simp [hj], hjW, rfl⟩

theorem Digits.inv_getD_lt {d : Digits} (hinv : d.Inv) :
    ∀ k, d.values.getD k 0 < 10 := by
  intro k
  by_cases hk : k < d.len
  · have hkl : k < d.values.length := by
      obtain ⟨h20, hvl, _, _⟩ := hinv
      omega
    refine hinv.2.2.1 _ ?_
    rw [Digits.as_slice, List.mem_iff_getElem?]
    refine ⟨k, ?_⟩
    rw [List.getElem?_take_of_lt hk, List.getElem?_eq_getElem hkl]
    rw [List.getD_eq_getElem?_getD, List.getElem?_eq_getElem hkl]
    rfl
  · rw [hinv.2.2.2 k (by omega)]
    norm_num

theorem mem_take_getD {l : List Nat} {n x : Nat} (hx : x ∈ l.take n) :
    ∃ k, k < n ∧ l.getD k 0 = x := by
  rw [List.mem_iff_getElem?] at hx
  obtain ⟨k, hk⟩ := hx
  have hkn : k < n := by
    by_contra hge
    rw [List.getElem?_eq_none (by simp [List.length_take]; omega)] at hk
    exact Option.noConfusion hk
  refine ⟨k, hkn, ?_⟩
  rw [List.getElem?_take_of_lt hkn] at hk
  rw [List.getD_eq_getElem?_getD, hk]
  rfl

theorem getD_replicate_append (p : Nat) (X : List Nat) (k : Nat) :
    (List.replicate p (0 : Nat) ++ X).getD k 0
      = if k < p then 0 else X.getD (k - p) 0 := by
  by_cases hk : k < p
  · rw [if_pos hk, List.getD_eq_getElem?_getD,
      List.getElem?_append_left (by simp [hk])]
    simp [List.getElem?_replicate, hk]
  · rw [if_neg hk, List.getD_eq_getElem?_getD,
      List.getElem?_append_right (by simp; omega), List.length_replicate,
      ← List.getD_eq_getElem?_getD]

theorem getD_drop_add (p : Nat) (X : List Nat) (k : Nat) :
    (X.drop p).getD k 0 = X.getD (p + k) 0 := by
  rw [List.getD_eq_getElem?_getD, List.getElem?_drop,
    ← List.getD_eq_getElem?_getD]

theorem Digits.pad_inv {d : Digits} {amount : Nat} {d2 : Digits}
    (hinv : d.Inv) (h : d.pad amount = some d2) : d2.Inv := by
  unfold Digits.pad at h
  split at h
  case isFalse => exact Option.noConfusion h
  case isTrue h20a =>
    split at h
    case isFalse =>
      obtain ⟨rfl⟩ := Option.some.injEq .. ▸ h
      exact hinv
    case isTrue hlen =>
      generalize hp : Digits.pad_loop d.values (amount - d.len)
        ((List.range' d.len (amount - d.len)).reverse) = res at h
      match res with
      | none => exact Option.noConfusion h
      | some vals2 =>
        obtain ⟨rfl⟩ := Option.some.injEq .. ▸ h
        have hmem : ∀ i ∈ (List.range' d.len (amount - d.len)).reverse,
            amount ≤ i + (amount - d.len) ∧ i < amount := by
          intro i hi
          rw [List.mem_reverse, List.mem_range'] at hi
          omega
        obtain ⟨hL, hlow, hhigh⟩ :=
          Digits.pad_loop_spec _ d.values (amount - d.len) vals2 amount hmem hp
        have hval2 : ∀ k, vals2.getD k 0
            = d.values.getD k 0 ∨ (d.len ≤ k ∧ vals2.getD k 0 = 0) := by
          intro k
          by_cases hk : k < amount
          · exact Or.inl (hlow k hk)
          · rcases hhigh k (by omega) with heq | ⟨i, hi, _, heq⟩
            · exact Or.inl heq
            · rw [List.mem_reverse, List.mem_range'] at hi
              refine Or.inr ⟨by omega, ?_⟩
              rw [heq]
              exact hinv.2.2.2 i (by omega)
        have hvl : d.values.length = 20 := hinv.2.1
        have hall : ∀ k,
            (List.replicate (amount - d.len) 0
              ++ vals2.drop (amount - d.len)).getD k 0 < 10 := by
          intro k
          rw [getD_replicate_append]
          split
          · norm_num
          · rw [getD_drop_add]
            rcases hval2 (amount - d.len + (k - (amount - d.len)))
              with heq | ⟨_, heq⟩
            · rw [heq]
              exact Digits.inv_getD_lt hinv _
            · rw [heq]
              norm_num
        refine ⟨h20a, ?_, ?_, ?_⟩
        · show (List.replicate (amount - d.len) 0
            ++ vals2.drop (amount - d.len)).length = 20
          simp
          omega
        · intro x hx
          obtain ⟨k, _, hkd⟩ := mem_take_getD hx
          rw [← hkd]
          show (List.replicate (amount - d.len) 0
            ++ vals2.drop (amount - d.len)).getD k 0 < 10
          exact hall k
        · intro k hk
          have hka : amount ≤ k := hk
          show (List.replicate (amount - d.len) 0
            ++ vals2.drop (amount - d.len)).getD k 0 = 0
          rw [getD_replicate_append, if_neg (by omega), getD_drop_add]
          have hidx : amount - d.len + (k - (amount - d.len)) = k := by omega
          rw [hidx]
          rcases hval2 k with heq | ⟨_, heq⟩
          · rw [heq]
            exact hinv.2.2.2 k (by omega)
          · exact heq

theorem Digits.insert_inv {d : Digits} {i x : Nat} {d2 : Digits}
    (hinv : d.Inv) (h : d.insert i x = some d2) : d2.Inv := by
  unfold Digits.insert at h
  split at h
  case isFalse => exact Option.noConfusion h
  case isTrue hc =>
    obtain ⟨rfl⟩ := Option.some.injEq .. ▸ h
    have hvl : d.values.length = 20 := hinv.2.1
    refine ⟨hinv.1, by simpa using hvl, ?_, ?_⟩
    · intro y hy
      obtain ⟨k, hklt, hkd⟩ := mem_take_getD hy
      have hklt2 : k < d.len := hklt
      rw [← hkd]
      show (d.values.set i x).getD k 0 < 10
      by_cases hki : i = k
      · subst hki
        rw [getD_set_self d.values i x (by have h1 := hinv.1; omega)]
        exact hc.1
      · rw [getD_set_ne d.values x hki]
        exact Digits.inv_getD_lt hinv k
    · intro k hk
      have hkl : d.len ≤ k := hk
      show (d.values.set i x).getD k 0 = 0
      rw [getD_set_ne d.values x (by omega)]
      exact hinv.2.2.2 k hkl

theorem Digits.from_digits_inv {ds : List Nat} {d : Digits}
    (h : Digits.from_digits ds = some d) : d.Inv := by
  unfold Digits.from_digits at h
  split at h
  case isFalse => exact Option.noConfusion h
  case isTrue hc =>
    obtain ⟨rfl⟩ := Option.some.injEq .. ▸ h
    have hdl : ds.length ≤ 20 := hc.1
    refine ⟨hdl, by simp; omega, ?_, ?_⟩
    · intro x hx
      obtain ⟨k, hk, hkd⟩ := mem_take_getD hx
      have hklt : k < ds.length := hk
      rw [← hkd]
      show (ds ++ List.replicate (20 - ds.length) 0).getD k 0 < 10
      rw [List.getD_eq_getElem?_getD, List.getElem?_append_left (by omega),
        List.getElem?_eq_getElem hklt]
      exact hc.2 _ (List.getElem_mem hklt)
    · intro k hk
      have hk2 : ds.length ≤ k := hk
      show (ds ++ List.replicate (20 - ds.length) 0).getD k 0 = 0
      rw [List.getD_eq_getElem?_getD, List.getElem?_append_right (by omega),
        List.getElem?_replicate]
      split <;> rfl

theorem Digits.from_value_inv {n : Nat} {d : Digits}
    (h : Digits.from_value n = some d) : d.Inv := by
  unfold Digits.from_value at h
  split at h
  · obtain ⟨rfl⟩ := Option.some.injEq .. ▸ h
    decide
  · rw [Option.map_eq_some'] at h
    obtain ⟨d1, h1, rfl⟩ := h
    exact Digits.reverse_inv (Digits.from_value_loop_inv _ _ _ _ (by decide) h1)

theorem Digits.as_slice_length {d : Digits} (hinv : d.Inv) :
    d.as_slice.length = d.len := by
  obtain ⟨h20, hvl, _, _⟩ := hinv
  simp [Digits.as_slice, List.length_take]
  omega

theorem Digits.eq_iff_slice {d1 d2 : Digits} (h1 : d1.Inv) (h2 : d2.Inv) :
    d1 = d2 ↔ d1.as_slice = d2.as_slice := by
  constructor
  · intro h; rw [h]
  · intro hs
    have hlen : d1.len = d2.len := by
      rw [← Digits.as_slice_length h1, ← Digits.as_slice_length h2, hs]
    have hl1 : d1.values.length = 20 := h1.2.1
    have hl2 : d2.values.length = 20 := h2.2.1
    have hvals : d1.values = d2.values := by
      apply List.ext_getElem?
      intro k
      by_cases hk : k < d1.len
      · have e1 : d1.values[k]? = d1.as_slice[k]? :=
          (List.getElem?_take_of_lt hk).symm
        have e2 : d2.values[k]? = d2.as_slice[k]? :=
          (List.getElem?_take_of_lt (hlen ▸ hk)).symm
        rw [e1, e2, hs]
      · by_cases hk20 : k < 20
        · have z1 := h1.2.2.2 k (by omega)
          have z2 := h2.2.2.2 k (by omega)
          have hk1 : k < d1.values.length := by omega
          have hk2 : k < d2.values.length := by omega
          rw [List.getD_eq_getElem?_getD, List.getElem?_eq_getElem hk1] at z1
          rw [List.getD_eq_getElem?_getD, List.getElem?_eq_getElem hk2] at z2
          simp only [Option.getD_some] at z1 z2
          rw [List.getElem?_eq_getElem hk1, List.getElem?_eq_getElem hk2, z1, z2]
        · rw [List.getElem?_eq_none (by omega),
            List.getElem?_eq_none (by omega)]
    cases d1
    cases d2
    simp only [Digits.mk.injEq]
    exact ⟨hlen, hvals⟩

theorem Digits.hash_iff_slice {d1 d2 : Digits} (h1 : d1.Inv) (h2 : d2.Inv) :
    d1.hash_stream = d2.hash_stream ↔ d1.as_slice = d2.as_slice := by
  unfold Digits.hash_stream
  constructor
  · intro h
    exact (List.cons.injEq .. ▸ h).2
  · intro hs
    have hlen : d1.len = d2.len := by
      rw [← Digits.as_slice_length h1, ← Digits.as_slice_length h2, hs]
    rw [hlen, hs]

/-! ## Claim C10 -/

/-- **C10.** Every `Digits` value reachable through the public constructors
(`new`, `from_digits`, `from_value`) and preserved by every mutator that
returns normally (`push`, `insert`, `pad`, `reverse`) satisfies
`len ≤ 20`, each visible byte is a digit `< 10`, and every byte at index
`≥ len` is zero; consequently the derived whole-struct equality and the
hash input stream of two invariant-satisfying `Digits` agree exactly with
equality of their visible digit sequences. -/
theorem C10_digits_invariant :
    Digits.Inv Digits.new ∧
    (∀ (ds : List Nat) (d : Digits), Digits.from_digits ds = some d → d.Inv) ∧
    (∀ (n : Nat) (d : Digits), Digits.from_value n = some d → d.Inv) ∧
    (∀ (d : Digits) (x : Nat) (d2 : Digits),
      d.Inv → d.push x = some d2 → d2.Inv) ∧
    (∀ (d : Digits) (i x : Nat) (d2 : Digits),
      d.Inv → d.insert i x = some d2 → d2.Inv) ∧
    (∀ (d : Digits) (a : Nat) (d2 : Digits),
      d.Inv → d.pad a = some d2 → d2.Inv) ∧
    (∀ d : Digits, d.Inv → d.reverse.Inv) ∧
    (∀ d1 d2 : Digits, d1.Inv → d2.Inv →
      ((d1 = d2 ↔ d1.as_slice = d2.as_slice) ∧
       (d1.hash_stream = d2.hash_stream ↔ d1.as_slice = d2.as_slice))) := by
  refine ⟨by decide, ?_, ?_, ?_, ?_, ?_, ?_, ?_⟩
  · intro ds d h
    exact Digits.from_digits_inv h
  · intro n d h
    exact Digits.from_value_inv h
  · intro d x d2 hinv h
    exact (Digits.push_inv hinv (Digits.push_digit_lt h) h).1
  · intro d i x d2 hinv h
    exact Digits.insert_inv hinv h
  · intro d a d2 hinv h
    exact Digits.pad_inv hinv h
  · intro d hinv
    exact Digits.reverse_inv hinv
  · intro d1 d2 h1 h2
    exact ⟨Digits.eq_iff_slice h1 h2, Digits.hash_iff_slice h1 h2⟩

/-- Witness for C10: the invariant holds after a `from_value` construction
and after a (content-destroying but invariant-preserving) `pad`. -/
theorem C10_digits_invariant_witness :
    Digits.from_value 123 = some ⟨3, [1, 2, 3] ++ List.replicate 17 0⟩ ∧
    Digits.Inv ⟨3, [1, 2, 3] ++ List.replicate 17 0⟩ ∧
    Digits.pad ⟨3, [1, 2, 3] ++ List.replicate 17 0⟩ 5
      = some ⟨5, [0, 0, 3, 0, 0] ++ List.replicate 15 0⟩ ∧
    Digits.Inv ⟨5, [0, 0, 3, 0, 0] ++ List.replicate 15 0⟩ := by
  refine ⟨by decide, ?_, by decide, ?_⟩
  · exact C10_digits_invariant.2.2.1 123
      ⟨3, [1, 2, 3] ++ List.replicate 17 0⟩ (by decide)
  · exact C10_digits_invariant.2.2.2.2.2.1
      ⟨3, [1, 2, 3] ++ List.replicate 17 0⟩ 5
      ⟨5, [0, 0, 3, 0, 0] ++ List.replicate 15 0⟩
      (C10_digits_invariant.2.2.1 123
        ⟨3, [1, 2, 3] ++ List.replicate 17 0⟩ (by decide)) (by decide)

theorem is_lycrell_step (X X2 : BigDigits) (r : Nat)
    (h : BigDigits.add X (BigDigits.reversed X) = X2)
    (hp : BigDigits.is_palindrome X2 = false) :
    is_lycrell_loop X (r + 2) = is_lycrell_loop X2 (r + 1) := by
  conv_lhs => rw [is_lycrell_loop]
  rw [h, hp]
  rfl

theorem is_lycrell_last (X X2 : BigDigits)
    (h : BigDigits.add X (BigDigits.reversed X) = X2)
    (hp : BigDigits.is_palindrome X2 = false) :
    is_lycrell_loop X 1 = true := by
  conv_lhs => rw [is_lycrell_loop]
  rw [h, hp]
  rfl

theorem is_lycrell_palin (X X2 : BigDigits) (r : Nat)
    (h : BigDigits.add X (BigDigits.reversed X) = X2)
    (hp : BigDigits.is_palindrome X2 = true) :
    is_lycrell_loop X r = false := by
  rw [is_lycrell_loop.eq_def]
  simp only [h, hp]
  rfl

/-! ## Claim C8 -/

set_option maxRecDepth 8000 in
/-- **C8.** The reverse-and-add iteration of `is_lycrell_number` reports:
seed 196 reaches no palindrome within 50 iterations; seed 47 reaches a
palindrome within 1 iteration; seed 349 within 3 iterations. -/
theorem C8_lychrel_examples :
    is_lycrell_number 196 50 = some true ∧
    is_lycrell_number 47 1 = some false ∧
    is_lycrell_number 349 3 = some false := by
  refine ⟨?_, ?_, ?_⟩
  · have h0 : BigDigits.from_value 196 = some [1, 9, 6] := by decide
    rw [is_lycrell_number, h0]
    show some (is_lycrell_loop [1, 9, 6] 50) = some true
    refine congrArg some ?_
    rw [is_lycrell_step [1, 9, 6]
      [8, 8, 7] 48 (by decide) (by decide)]
    rw [is_lycrell_step [8, 8, 7]
      [1, 6, 7, 5] 47 (by decide) (by decide)]
    rw [is_lycrell_step [1, 6, 7, 5]
      [7, 4, 3, 6] 46 (by decide) (by decide)]
    rw [is_lycrell_step [7, 4, 3, 6]
      [1, 3, 7, 8, 3] 45 (by decide) (by decide)]
    rw [is_lycrell_step [1, 3, 7, 8, 3]
      [5, 2, 5, 1, 4] 44 (by decide) (by decide)]
    rw [is_lycrell_step [5, 2, 5, 1, 4]
      [9, 4, 0, 3, 9] 43 (by decide) (by decide)]
    rw [is_lycrell_step [9, 4, 0, 3, 9]
      [1, 8, 7, 0, 8, 8] 42 (by decide) (by decide)]
    rw [is_lycrell_step [1, 8, 7, 0, 8, 8]
      [1, 0, 6, 7, 8, 6, 9] 41 (by decide) (by decide)]
    rw [is_lycrell_step [1, 0, 6, 7, 8, 6, 9]
      [1, 0, 7, 5, 5, 4, 7, 0] 40 (by decide) (by decide)]
    rw [is_lycrell_step [1, 0, 7, 5, 5, 4, 7, 0]
      [1, 8, 2, 1, 1, 1, 7, 1] 39 (by decide) (by decide)]
    rw [is_lycrell_step [1, 8, 2, 1, 1, 1, 7, 1]
      [3, 5, 3, 2, 2, 4, 5, 2] 38 (by decide) (by decide)]
    rw [is_lycrell_step [3, 5, 3, 2, 2, 4, 5, 2]
      [6, 0, 7, 4, 4, 8, 0, 5] 37 (by decide) (by decide)]
    rw [is_lycrell_step [6, 0, 7, 4, 4, 8, 0, 5]
      [1, 1, 1, 5, 8, 9, 5, 1, 1] 36 (by decide) (by decide)]
    rw [is_lycrell_step [1, 1, 1, 5, 8, 9, 5, 1, 1]
      [2, 2, 7, 5, 7, 4, 6, 2, 2] 35 (by decide) (by decide)]
    rw [is_lycrell_step [2, 2, 7, 5, 7, 4, 6, 2, 2]
      [4, 5, 4, 0, 5, 0, 3, 4, 4] 34 (by decide) (by decide)]
    rw [is_lycrell_step [4, 5, 4, 0, 5, 0, 3, 4, 4]
      [8, 9, 7, 1, 0, 0, 7, 9, 8] 33 (by decide) (by decide)]
    rw [is_lycrell_step [8, 9, 7, 1, 0, 0, 7, 9, 8]
      [1, 7, 9, 4, 1, 0, 2, 5, 9, 6] 32 (by decide) (by decide)]
    rw [is_lycrell_step [1, 7, 9, 4, 1, 0, 2, 5, 9, 6]
      [8, 7, 4, 6, 1, 1, 7, 5, 6, 7] 31 (by decide) (by decide)]
    rw [is_lycrell_step [8, 7, 4, 6, 1, 1, 7, 5, 6, 7]
      [1, 6, 4, 0, 3, 2, 3, 4, 0, 4, 5] 30 (by decide) (by decide)]
    rw [is_lycrell_step [1, 6, 4, 0, 3, 2, 3, 4, 0, 4, 5]
      [7, 0, 4, 4, 6, 4, 6, 4, 5, 0, 6] 29 (by decide) (by decide)]
    rw [is_lycrell_step [7, 0, 4, 4, 6, 4, 6, 4, 5, 0, 6]
      [1, 3, 0, 9, 9, 2, 9, 2, 8, 9, 1, 3] 28 (by decide) (by decide)]
    rw [is_lycrell_step [1, 3, 0, 9, 9, 2, 9, 2, 8, 9, 1, 3]
      [4, 5, 0, 8, 2, 2, 2, 2, 7, 9, 4, 4] 27 (by decide) (by decide)]
    rw [is_lycrell_step [4, 5, 0, 8, 2, 2, 2, 2, 7, 9, 4, 4]
      [9, 0, 0, 5, 4, 4, 4, 5, 5, 9, 9, 8] 26 (by decide) (by decide)]
    rw [is_lycrell_step [9, 0, 0, 5, 4, 4, 4, 5, 5, 9, 9, 8]
      [1, 8, 0, 0, 0, 9, 8, 9, 0, 1, 0, 0, 7] 25 (by decide) (by decide)]
    rw [is_lycrell_step [1, 8, 0, 0, 0, 9, 8, 9, 0, 1, 0, 0, 7]
      [8, 8, 0, 1, 1, 9, 7, 8, 0, 1, 0, 8, 8] 24 (by decide) (by decide)]
    rw [is_lycrell_step [8, 8, 0, 1, 1, 9, 7, 8, 0, 1, 0, 8, 8]
      [1, 7, 6, 0, 2, 2, 8, 5, 7, 1, 2, 1, 7, 6] 23 (by decide) (by decide)]
    rw [is_lycrell_step [1, 7, 6, 0, 2, 2, 8, 5, 7, 1, 2, 1, 7, 6]
      [8, 4, 7, 2, 4, 0, 4, 3, 9, 3, 2, 8, 4, 7] 22 (by decide) (by decide)]
    rw [is_lycrell_step [8, 4, 7, 2, 4, 0, 4, 3, 9, 3, 2, 8, 4, 7]
      [1, 5, 9, 5, 4, 7, 9, 7, 7, 9, 7, 5, 5, 9, 5] 21 (by decide) (by decide)]
    rw [is_lycrell_step [1, 5, 9, 5, 4, 7, 9, 7, 7, 9, 7, 5, 5, 9, 5]
      [7, 5, 5, 1, 2, 7, 7, 5, 7, 7, 2, 1, 5, 4, 6] 20 (by decide) (by decide)]
    rw [is_lycrell_step [7, 5, 5, 1, 2, 7, 7, 5, 7, 7, 2, 1, 5, 4, 6]
      [1, 4, 0, 0, 2, 5, 5, 5, 1, 5, 4, 4, 3, 1, 0, 3] 19 (by decide) (by decide)]
    rw [is_lycrell_step [1, 4, 0, 0, 2, 5, 5, 5, 1, 5, 4, 4, 3, 1, 0, 3]
      [4, 4, 1, 3, 7, 0, 0, 6, 7, 0, 9, 6, 3, 1, 4, 4] 18 (by decide) (by decide)]
    rw [is_lycrell_step [4, 4, 1, 3, 7, 0, 0, 6, 7, 0, 9, 6, 3, 1, 4, 4]
      [8, 8, 2, 7, 3, 9, 1, 4, 3, 1, 0, 3, 6, 2, 8, 8] 17 (by decide) (by decide)]
    rw [is_lycrell_step [8, 8, 2, 7, 3, 9, 1, 4, 3, 1, 0, 3, 6, 2, 8, 8]
      [1, 7, 6, 5, 3, 6, 9, 2, 7, 7, 2, 9, 7, 3, 5, 7, 6] 16 (by decide) (by decide)]
    rw [is_lycrell_step [1, 7, 6, 5, 3, 6, 9, 2, 7, 7, 2, 9, 7, 3, 5, 7, 6]
      [8, 5, 1, 9, 1, 6, 2, 0, 5, 0, 2, 6, 0, 9, 2, 4, 7] 15 (by decide) (by decide)]
    rw [is_lycrell_step [8, 5, 1, 9, 1, 6, 2, 0, 5, 0, 2, 6, 0, 9, 2, 4, 7]
      [1, 5, 9, 4, 8, 2, 2, 4, 1, 0, 0, 5, 2, 2, 8, 4, 0, 5] 14 (by decide) (by decide)]
    rw [is_lycrell_step [1, 5, 9, 4, 8, 2, 2, 4, 1, 0, 0, 5, 2, 2, 8, 4, 0, 5]
      [6, 6, 4, 3, 0, 4, 7, 4, 1, 1, 4, 7, 5, 1, 3, 3, 5, 6] 13 (by decide) (by decide)]
    rw [is_lycrell_step [6, 6, 4, 3, 0, 4, 7, 4, 1, 1, 4, 7, 5, 1, 3, 3, 5, 6]
      [1, 3, 1, 7, 6, 2, 0, 4, 8, 2, 2, 9, 4, 9, 1, 6, 8, 2, 2] 12 (by decide) (by decide)]
    rw [is_lycrell_step [1, 3, 1, 7, 6, 2, 0, 4, 8, 2, 2, 9, 4, 9, 1, 6, 8, 2, 2]
      [3, 6, 0, 3, 8, 1, 5, 4, 0, 5, 1, 3, 5, 1, 8, 3, 9, 5, 3] 11 (by decide) (by decide)]
    rw [is_lycrell_step [3, 6, 0, 3, 8, 1, 5, 4, 0, 5, 1, 3, 5, 1, 8, 3, 9, 5, 3]
      [7, 1, 9, 7, 6, 3, 0, 7, 2, 0, 1, 8, 0, 3, 6, 7, 0, 1, 6] 10 (by decide) (by decide)]
    rw [is_lycrell_step [7, 1, 9, 7, 6, 3, 0, 7, 2, 0, 1, 8, 0, 3, 6, 7, 0, 1, 6]
      [1, 3, 3, 0, 5, 2, 6, 1, 5, 3, 0, 4, 5, 0, 7, 3, 4, 9, 3, 3] 9 (by decide) (by decide)]
    rw [is_lycrell_step [1, 3, 3, 0, 5, 2, 6, 1, 5, 3, 0, 4, 5, 0, 7, 3, 4, 9, 3, 3]
      [4, 7, 2, 4, 8, 9, 6, 6, 9, 3, 3, 9, 6, 6, 9, 8, 5, 2, 6, 4] 8 (by decide) (by decide)]
    rw [is_lycrell_step [4, 7, 2, 4, 8, 9, 6, 6, 9, 3, 3, 9, 6, 6, 9, 8, 5, 2, 6, 4]
      [9, 3, 5, 0, 7, 9, 3, 3, 8, 6, 7, 9, 3, 3, 9, 6, 9, 5, 3, 8] 7 (by decide) (by decide)]
    rw [is_lycrell_step [9, 3, 5, 0, 7, 9, 3, 3, 8, 6, 7, 9, 3, 3, 9, 6, 9, 5, 3, 8]
      [1, 7, 7, 1, 0, 4, 8, 6, 7, 8, 4, 4, 7, 6, 7, 9, 4, 0, 0, 7, 7] 6 (by decide) (by decide)]
    rw [is_lycrell_step [1, 7, 7, 1, 0, 4, 8, 6, 7, 8, 4, 4, 7, 6, 7, 9, 4, 0, 0, 7, 7]
      [9, 4, 7, 1, 5, 4, 6, 3, 5, 2, 9, 3, 5, 3, 6, 3, 4, 1, 8, 4, 8] 5 (by decide) (by decide)]
    rw [is_lycrell_step [9, 4, 7, 1, 5, 4, 6, 3, 5, 2, 9, 3, 5, 3, 6, 3, 4, 1, 8, 4, 8]
      [1, 7, 9, 5, 2, 9, 8, 2, 7, 0, 6, 8, 6, 0, 7, 2, 7, 9, 3, 5, 9, 7] 4 (by decide) (by decide)]
    rw [is_lycrell_step [1, 7, 9, 5, 2, 9, 8, 2, 7, 0, 6, 8, 6, 0, 7, 2, 7, 9, 3, 5, 9, 7]
      [9, 7, 4, 9, 2, 7, 0, 9, 7, 7, 5, 4, 6, 8, 0, 1, 7, 1, 9, 5, 6, 8] 3 (by decide) (by decide)]
    rw [is_lycrell_step [9, 7, 4, 9, 2, 7, 0, 9, 7, 7, 5, 4, 6, 8, 0, 1, 7, 1, 9, 5, 6, 8]
      [1, 8, 4, 0, 8, 4, 4, 2, 0, 6, 4, 0, 0, 4, 5, 9, 2, 4, 4, 9, 0, 4, 7] 2 (by decide) (by decide)]
    rw [is_lycrell_step [1, 8, 4, 0, 8, 4, 4, 2, 0, 6, 4, 0, 0, 4, 5, 9, 2, 4, 4, 9, 0, 4, 7]
      [9, 2, 5, 0, 2, 8, 7, 1, 6, 0, 4, 0, 5, 0, 6, 1, 6, 9, 2, 9, 5, 2, 8] 1 (by decide) (by decide)]
    rw [is_lycrell_step [9, 2, 5, 0, 2, 8, 7, 1, 6, 0, 4, 0, 5, 0, 6, 1, 6, 9, 2, 9, 5, 2, 8]
      [1, 7, 5, 0, 9, 5, 8, 3, 3, 2, 0, 9, 0, 9, 1, 2, 3, 4, 7, 5, 0, 0, 5, 7] 0 (by decide) (by decide)]
    exact is_lycrell_last [1, 7, 5, 0, 9, 5, 8, 3, 3, 2, 0, 9, 0, 9, 1, 2, 3, 4, 7, 5, 0, 0, 5, 7]
      [9, 2, 5, 1, 5, 3, 2, 6, 5, 3, 9, 9, 9, 9, 3, 5, 7, 3, 3, 4, 0, 6, 2, 8] (by decide) (by decide)
  · have h0 : BigDigits.from_value 47 = some [4, 7] := by decide
    rw [is_lycrell_number, h0]
    show some (is_lycrell_loop [4, 7] 1) = some false
    refine congrArg some ?_
    exact is_lycrell_palin [4, 7] [1, 2, 1] 1 (by decide) (by decide)
  · have h0 : BigDigits.from_value 349 = some [3, 4, 9] := by decide
    rw [is_lycrell_number, h0]
    show some (is_lycrell_loop [3, 4, 9] 3) = some false
    refine congrArg some ?_
    rw [is_lycrell_step [3, 4, 9] [1, 2, 9, 2] 1 (by decide) (by decide)]
    rw [is_lycrell_step [1, 2, 9, 2] [4, 2, 1, 3] 0 (by decide) (by decide)]
    exact is_lycrell_palin [4, 2, 1, 3] [7, 3, 3, 7] 1 (by decide) (by decide)

/-! ## Correctness of the bounded sieve (claim C1) -/

theorem clear_multiples_spec (limit i : Nat) (hi : 2 ≤ i) :
    ∀ (n j : Nat), limit - j ≤ n → ∀ (s : Nat → Bool) (k : Nat),
      clear_multiples limit i j s k
        = (s k && !(decide (j ≤ k ∧ k < limit ∧ i ∣ (k - j)))) := by
  intro n
  induction n with
  | zero =>
    intro j hj s k
    rw [clear_multiples, dif_neg (by omega)]
    have hcond : ¬(j ≤ k ∧ k < limit ∧ i ∣ (k - j)) := by
      rintro ⟨h1, h2, _⟩
      omega
    simp [hcond]
  | succ n ih =>
    intro j hj s k
    rw [clear_multiples]
    by_cases hcond : j < limit
    · rw [dif_pos ⟨hi, hcond⟩, ih (j + i) (by omega)]
      by_cases hk : k = j
      · subst hk
        have hpos : k ≤ k ∧ k < limit ∧ i ∣ (k - k) := by
          exact ⟨Nat.le_refl k, hcond, by simp⟩
        simp [hpos]
      · rw [if_neg hk]
        congr 1
        congr 1
        rw [decide_eq_decide]
        constructor
        · rintro ⟨h1, h2, h3⟩
          refine ⟨by omega, h2, ?_⟩
          have heq : k - j = (k - (j + i)) + i := by omega
          rw [heq]
          exact Nat.dvd_add h3 (dvd_refl i)
        · rintro ⟨h1, h2, h3⟩
          have hik : i ≤ k - j := Nat.le_of_dvd (by omega) h3
          refine ⟨by omega, h2, ?_⟩
          have heq : k - (j + i) = (k - j) - i := by omega
          rw [heq]
          exact Nat.dvd_sub' h3 (dvd_refl i)
    · rw [dif_neg (by omega)]
      have hno : ¬(j ≤ k ∧ k < limit ∧ i ∣ (k - j)) := by
        rintro ⟨h1, h2, _⟩
        omega
      simp [hno]

theorem minFac_sq_le {n : Nat} (h2 : 2 ≤ n) (hnp : ¬n.Prime) :
    n.minFac * n.minFac ≤ n := by
  obtain ⟨m, hm⟩ := Nat.minFac_dvd n
  have hmne1 : m ≠ 1 := by
    rintro rfl
    rw [Nat.mul_one] at hm
    exact hnp (hm ▸ Nat.minFac_prime (by omega))
  have hmne0 : m ≠ 0 := by
    rintro rfl
    omega
  have hle : n.minFac ≤ m :=
    Nat.minFac_le_of_dvd (by omega) (Dvd.intro_left _ hm.symm)
  calc n.minFac * n.minFac ≤ n.minFac * m := Nat.mul_le_mul_left _ hle
  _ = n := hm.symm

theorem prime_of_no_small_factor {b : Nat} (hb : 2 ≤ b)
    (h : ¬∃ p, p < b ∧ p.Prime ∧ p ∣ b ∧ p * p ≤ b) : b.Prime := by
  by_contra hnp
  have hm := Nat.minFac_prime (by omega : b ≠ 1)
  have hlt : b.minFac < b := (Nat.not_prime_iff_minFac_lt hb).1 hnp
  exact h ⟨b.minFac, hlt, hm, Nat.minFac_dvd b, minFac_sq_le hb hnp⟩

theorem step_prime_equiv {limit b k : Nat} (hb2 : 2 ≤ b)
    (hbprime : b.Prime) :
    ((2 ≤ k ∧ k < limit ∧ ¬∃ p, p < b ∧ p.Prime ∧ p ∣ k ∧ p * p ≤ k) ∧
      ¬(b * b ≤ k ∧ k < limit ∧ b ∣ (k - b * b))) ↔
    (2 ≤ k ∧ k < limit ∧
      ¬∃ p, p < b + 1 ∧ p.Prime ∧ p ∣ k ∧ p * p ≤ k) := by
  constructor
  · rintro ⟨⟨h1, h2, h3⟩, h4⟩
    refine ⟨h1, h2, ?_⟩
    rintro ⟨p, hp, hpp, hpd, hpsq⟩
    by_cases hpb : p = b
    · subst hpb
      exact h4 ⟨hpsq, h2, Nat.dvd_sub' hpd (dvd_mul_right p p)⟩
    · exact h3 ⟨p, by omega, hpp, hpd, hpsq⟩
  · rintro ⟨h1, h2, h3⟩
    refine ⟨⟨h1, h2, ?_⟩, ?_⟩
    · rintro ⟨p, hp, hpp, hpd, hpsq⟩
      exact h3 ⟨p, by omega, hpp, hpd, hpsq⟩
    · rintro ⟨hsq, hklim, hdvd⟩
      have hbk : b ∣ k := by
        have heq : k = (k - b * b) + b * b := by omega
        rw [heq]
        exact Nat.dvd_add hdvd (dvd_mul_right b b)
      exact h3 ⟨b, by omega, hbprime, hbk, hsq⟩

theorem step_skip_equiv {limit b k : Nat} (hb2 : 2 ≤ b)
    (hcase : limit ≤ b ∨ ∃ p, p < b ∧ p.Prime ∧ p ∣ b ∧ p * p ≤ b) :
    (2 ≤ k ∧ k < limit ∧ ¬∃ p, p < b ∧ p.Prime ∧ p ∣ k ∧ p * p ≤ k) ↔
    (2 ≤ k ∧ k < limit ∧
      ¬∃ p, p < b + 1 ∧ p.Prime ∧ p ∣ k ∧ p * p ≤ k) := by
  constructor
  · rintro ⟨h1, h2, h3⟩
    refine ⟨h1, h2, ?_⟩
    rintro ⟨p, hp, hpp, hpd, hpsq⟩
    by_cases hpb : p = b
    · subst hpb
      have hbb : p ≤ p * p := Nat.le_mul_of_pos_left p (by omega)
      rcases hcase with hlim | ⟨q, hq, hqp, hqd, hqsq⟩
      · omega
      · refine h3 ⟨q, hq, hqp, dvd_trans hqd hpd, ?_⟩
        omega
    · exact h3 ⟨p, by omega, hpp, hpd, hpsq⟩
  · rintro ⟨h1, h2, h3⟩
    exact ⟨h1, h2, fun ⟨p, hp, hpp, hpd, hpsq⟩ =>
      h3 ⟨p, by omega, hpp, hpd, hpsq⟩⟩

theorem sieve_fold_spec (limit : Nat) : ∀ (n k : Nat),
    ((List.range' 2 n).foldl (sieve_step limit) (sieve_init limit)) k
      = decide (2 ≤ k ∧ k < limit ∧
          ¬∃ p, p < 2 + n ∧ p.Prime ∧ p ∣ k ∧ p * p ≤ k) := by
  intro n
  induction n with
  | zero =>
    intro k
    show sieve_init limit k = _
    rw [sieve_init, decide_eq_decide]
    constructor
    · rintro ⟨h1, h2⟩
      refine ⟨h1, h2, ?_⟩
      rintro ⟨p, hp, hpp, _, _⟩
      have := hpp.two_le
      omega
    · rintro ⟨h1, h2, _⟩
      exact ⟨h1, h2⟩
  | succ n ih =>
    intro k
    have hsplit : List.range' 2 (n + 1) = List.range' 2 n ++ [2 + n] := by
      have h := List.range'_append_1 2 n 1
      rw [Nat.add_comm 1 n] at h
      rw [← h]
      rfl
    rw [hsplit, List.foldl_append, List.foldl_cons, List.foldl_nil, sieve_step]
    by_cases hsb :
        (List.range' 2 n).foldl (sieve_step limit) (sieve_init limit) (2 + n)
          = true
    · rw [if_pos hsb]
      have hbfacts := of_decide_eq_true (ih (2 + n) ▸ hsb)
      obtain ⟨hb2, hblim, hbnof⟩ := hbfacts
      have hbprime : (2 + n).Prime := prime_of_no_small_factor hb2 hbnof
      rw [clear_multiples_spec limit (2 + n) hb2 limit ((2 + n) * (2 + n))
        (by omega), ih k, ← decide_not, ← Bool.decide_and]
      rw [decide_eq_decide]
      have h := @step_prime_equiv limit (2 + n) k hb2 hbprime
      rw [show (2 + (n + 1)) = (2 + n) + 1 by omega]
      exact h
    · rw [if_neg hsb, ih k, decide_eq_decide]
      rw [ih (2 + n)] at hsb
      have hnot := of_decide_eq_false (Bool.not_eq_true _ ▸ hsb)
      have hcase : limit ≤ 2 + n ∨
          ∃ p, p < 2 + n ∧ p.Prime ∧ p ∣ (2 + n) ∧ p * p ≤ 2 + n := by
        by_cases hlim : 2 + n < limit
        · right
          by_contra hno
          exact hnot ⟨by omega, hlim, hno⟩
        · left
          omega
      have h := @step_skip_equiv limit (2 + n) k (by omega : 2 ≤ 2 + n) hcase
      rw [show (2 + (n + 1)) = (2 + n) + 1 by omega]
      exact h

theorem ceil_sqrt_sq_ge (n : Nat) : n ≤ ceil_sqrt n * ceil_sqrt n := by
  unfold ceil_sqrt
  split
  case isTrue h => omega
  case isFalse h =>
    have hlt := Nat.lt_succ_sqrt n
    exact Nat.le_of_lt hlt

theorem lt_ceil_sqrt {p n : Nat} (h : p * p < n) : p < ceil_sqrt n := by
  by_contra hge
  have hle : ceil_sqrt n ≤ p := by omega
  have h1 : ceil_sqrt n * ceil_sqrt n ≤ p * p := Nat.mul_le_mul hle hle
  have h2 := ceil_sqrt_sq_ge n
  omega

theorem two_le_ceil_sqrt {n : Nat} (h : 2 ≤ n) : 2 ≤ ceil_sqrt n := by
  have h1 : 1 ≤ Nat.sqrt n := Nat.le_sqrt.mpr (by omega)
  unfold ceil_sqrt
  split
  case isTrue heq =>
    by_cases hs : Nat.sqrt n = 1
    · rw [hs] at heq
      omega
    · omega
  case isFalse heq =>
    omega

/-- The bitset characterisation of the bounded sieve: bit `k` of
`prime_set limit` is set exactly for primes below `limit`. -/
theorem prime_set_char (limit k : Nat) :
    prime_set limit k = true ↔ (Nat.Prime k ∧ k < limit) := by
  by_cases hlim : 2 ≤ limit
  · have hcs2 := two_le_ceil_sqrt hlim
    have hfold := sieve_fold_spec limit (ceil_sqrt limit - 2) k
    rw [show 2 + (ceil_sqrt limit - 2) = ceil_sqrt limit by omega] at hfold
    rw [prime_set, hfold, decide_eq_true_eq]
    constructor
    · rintro ⟨h2, hklim, hnof⟩
      refine ⟨?_, hklim⟩
      by_contra hnp
      have hp := Nat.minFac_prime (by omega : k ≠ 1)
      have hsq := minFac_sq_le h2 hnp
      have hlt : k.minFac < k := (Nat.not_prime_iff_minFac_lt h2).1 hnp
      refine hnof ⟨k.minFac, ?_, hp, Nat.minFac_dvd k, hsq⟩
      exact lt_ceil_sqrt (by omega)
    · rintro ⟨hkp, hklim⟩
      refine ⟨hkp.two_le, hklim, ?_⟩
      rintro ⟨p, hp, hpp, hpd, hpsq⟩
      rcases Nat.Prime.eq_one_or_self_of_dvd hkp p hpd with h1 | hself
      · rw [h1] at hpp
        exact Nat.not_prime_one hpp
      · subst hself
        have := hkp.two_le
        nlinarith
  · have hps : prime_set limit k = sieve_init limit k := by
      interval_cases limit <;> rfl
    rw [hps, sieve_init]
    constructor
    · intro h
      have := of_decide_eq_true h
      omega
    · rintro ⟨hp, hk⟩
      have := hp.two_le
      omega

/-! ## Claim C1 -/

/-- **C1.** For every `limit`, the bitset returned by `prime_set(limit)`
has bit `k` set if and only if `k` is prime and `k < limit`; in
particular bits 0 and 1 are never set, and for `limit ≤ 2` no bit is
set. -/
theorem C1_prime_set (limit k : Nat) :
    prime_set limit k = true ↔ (Nat.Prime k ∧ k < limit) :=
  prime_set_char limit k

/-! ## Claim C9: `check_prime` frame and growth bookkeeping -/

/-- **C9.** For every state of the incremental membership cache and every
queried value: if `value < limit()`, `check_prime(value)` answers by
bitset lookup and leaves the whole cache state (limit, bitset, and the
underlying segmented sieve) unchanged; if `value ≥ limit()`, after the
call the new limit equals `max(value + 1000, 2 * old limit)`. -/
theorem C9_check_prime_frame :
    (∀ (fuel : Nat) (st : IncrementalPrimeSet) (value : Nat) (r : Bool)
        (st2 : IncrementalPrimeSet),
      value < st.limit →
      IncrementalPrimeSet.check_prime fuel st value = some (r, st2) →
      st2 = st ∧ r = st.set_bits value) ∧
    (∀ (fuel : Nat) (st : IncrementalPrimeSet) (value : Nat) (r : Bool)
        (st2 : IncrementalPrimeSet),
      st.limit ≤ value →
      IncrementalPrimeSet.check_prime fuel st value = some (r, st2) →
      st2.limit = max (value + 1000) (st.limit * 2)) := by
  constructor
  · intro fuel st value r st2 hlt h
    rw [IncrementalPrimeSet.check_prime, if_neg (by omega)] at h
    rw [IncrementalPrimeSet.contains,
      if_pos (by
        have hv : value < st.set_len := hlt
        omega)] at h
    obtain ⟨h1, h2⟩ := Prod.mk.injEq .. ▸ (Option.some.injEq .. ▸ h)
    exact ⟨h2.symm, h1.symm⟩
  · intro fuel st value r st2 hge h
    rw [IncrementalPrimeSet.check_prime, if_pos hge] at h
    generalize hexp : IncrementalPrimeSet.expand fuel st
      (max (value + 1000) (st.limit * 2)) = res at h
    match res with
    | none => exact Option.noConfusion h
    | some st3 =>
      have h2 : (match st3.contains value with
        | none => none
        | some r => some (r, st3)) = some (r, st2) := h
      have hst3 : st3.limit = max (value + 1000) (st.limit * 2) := by
        rw [IncrementalPrimeSet.expand, if_neg (by omega)] at hexp
        generalize hc : collect_while_lt fuel (max (value + 1000)
          (st.limit * 2)) st.sieve = cres at hexp
        match cres with
        | none => exact Option.noConfusion hexp
        | some psv =>
          have h3 := Option.some.inj hexp
          rw [← h3]
          rfl
      generalize hcont : st3.contains value = bres at h2
      match bres with
      | none => exact Option.noConfusion h2
      | some r2 =>
        have h4 := Option.some.inj h2
        have h5 : st3 = st2 := (Prod.mk.injEq .. ▸ h4).2
        rw [← h5, hst3]

/-- Witness for C9: a below-limit query leaves a concrete cache
untouched, and an above-limit query on a fresh-limit cache (whose sieve is
mid-page, about to emit a huge prime) grows the limit to
`max(value + 1000, 2 * limit)`. -/
theorem C9_check_prime_frame_witness :
    ∃ st2 : IncrementalPrimeSet,
      IncrementalPrimeSet.check_prime 2
        ⟨0, fun _ => false,
          ⟨some 1, 1000000, [], none, fun k => decide (k ≠ 1)⟩⟩ 0
        = some (false, st2) ∧
      st2.limit = max (0 + 1000)
        ((IncrementalPrimeSet.limit
          ⟨0, fun _ => false,
            ⟨some 1, 1000000, [], none, fun k => decide (k ≠ 1)⟩⟩) * 2) ∧
      IncrementalPrimeSet.check_prime 1
        ⟨5, fun k => decide (k = 3), IncrementalSieve.new⟩ 3
        = some (true, ⟨5, fun k => decide (k = 3), IncrementalSieve.new⟩) := by
  have hB : IncrementalPrimeSet.check_prime 2
      ⟨0, fun _ => false,
        ⟨some 1, 1000000, [], none, fun k => decide (k ≠ 1)⟩⟩ 0
      = some (false,
          ⟨1000, fun _ => false,
            ⟨some 2, 1000000, [], none, fun k => decide (k ≠ 1)⟩⟩) := by
    simp [IncrementalPrimeSet.check_prime, IncrementalPrimeSet.limit,
      IncrementalPrimeSet.expand, IncrementalPrimeSet.contains,
      collect_while_lt, next_prime, emit_from, scan_buf, BFBTS, BFSZ,
      Nat.shiftLeft_eq]
  refine ⟨_, hB, ?_, ?_⟩
  · exact C9_check_prime_frame.2 2 _ 0 false _ (by simp [IncrementalPrimeSet.limit]) hB
  · have hA : IncrementalPrimeSet.check_prime 1
        ⟨5, fun k => decide (k = 3), IncrementalSieve.new⟩ 3
        = some (decide (3 = 3),
            ⟨5, fun k => decide (k = 3), IncrementalSieve.new⟩) := by
      simp [IncrementalPrimeSet.check_prime, IncrementalPrimeSet.limit,
        IncrementalPrimeSet.contains]
    have h1 := C9_check_prime_frame.1 1 _ 3 (decide (3 = 3)) _
      (by simp [IncrementalPrimeSet.limit]) hA
    simpa using hA

/-! ## Basic facts for the incremental-sieve proofs -/

theorem BFBTS_eq : BFBTS = 2097152 := by decide

theorem BFRNG_eq : BFRNG = 4194304 := by decide

theorem minPrimeGe_prime (n : Nat) : (minPrimeGe n).Prime :=
  (Nat.find_spec (Nat.exists_infinite_primes n)).2

theorem minPrimeGe_ge (n : Nat) : n ≤ minPrimeGe n :=
  (Nat.find_spec (Nat.exists_infinite_primes n)).1

theorem minPrimeGe_min {n q : Nat} (hq : q.Prime) (hge : n ≤ q) :
    minPrimeGe n ≤ q := by
  rw [minPrimeGe]
  by_contra h
  exact Nat.find_min (Nat.exists_infinite_primes n) (by omega) ⟨hge, hq⟩

theorem minPrimeGe_unique {n q : Nat} (hq : q.Prime) (hge : n ≤ q)
    (hmin : ∀ r, r.Prime → n ≤ r → q ≤ r) : minPrimeGe n = q :=
  Nat.le_antisymm (minPrimeGe_min hq hge)
    (hmin _ (minPrimeGe_prime n) (minPrimeGe_ge n))

theorem minPrimeGe_congr {F F2 : Nat} (hle : F ≤ F2)
    (hno : ∀ r, r.Prime → F ≤ r → r < F2 → False) :
    minPrimeGe F = minPrimeGe F2 := by
  have hge1 := minPrimeGe_ge F
  have hge2 := minPrimeGe_ge F2
  have h1 : F2 ≤ minPrimeGe F := by
    by_contra h
    exact hno _ (minPrimeGe_prime F) hge1 (by omega)
  have h2 : minPrimeGe F2 ≤ minPrimeGe F :=
    minPrimeGe_min (minPrimeGe_prime F) h1
  have h3 : minPrimeGe F ≤ minPrimeGe F2 :=
    minPrimeGe_min (minPrimeGe_prime F2) (by omega)
  omega

theorem frontier_step_min {q F2 : Nat} (hqp : q.Prime)
    (hstep : FrontierStep q F2) : minPrimeGe F2 = minPrimeGe (q + 1) := by
  have hqF2 : q < F2 := (hstep q hqp).mpr (Nat.le_refl q)
  have h1 : minPrimeGe (q + 1) ≤ minPrimeGe F2 := by
    apply minPrimeGe_min (minPrimeGe_prime F2)
    have := minPrimeGe_ge F2
    omega
  have h2 : minPrimeGe F2 ≤ minPrimeGe (q + 1) := by
    apply minPrimeGe_min (minPrimeGe_prime (q + 1))
    have hp1 := minPrimeGe_prime (q + 1)
    have hge1 := minPrimeGe_ge (q + 1)
    have hnot : ¬ (minPrimeGe (q + 1) < F2) := by
      intro hlt
      have := (hstep _ hp1).mp hlt
      omega
    omega
  omega

theorem mark_multiples_spec (p : Nat) (hp : 0 < p) :
    ∀ (n j : Nat), BFBTS - j ≤ n → ∀ (buf : Nat → Bool) (k : Nat),
      mark_multiples p j buf k
        = (buf k || decide (j ≤ k ∧ k < BFBTS ∧ p ∣ (k - j))) := by
  intro n
  induction n with
  | zero =>
    intro j hj buf k
    rw [mark_multiples, dif_neg (by omega)]
    have hno : ¬(j ≤ k ∧ k < BFBTS ∧ p ∣ (k - j)) := by
      rintro ⟨h1, h2, _⟩
      omega
    simp [hno]
  | succ n ih =>
    intro j hj buf k
    rw [mark_multiples]
    by_cases hcond : j < BFBTS
    · rw [dif_pos ⟨hp, hcond⟩, ih (j + p) (by omega)]
      by_cases hk : k = j
      · subst hk
        have hpos : k ≤ k ∧ k < BFBTS ∧ p ∣ (k - k) := ⟨Nat.le_refl k, hcond, by simp⟩
        simp [hpos]
      · rw [if_neg hk]
        congr 1
        rw [decide_eq_decide]
        constructor
        · rintro ⟨h1, h2, h3⟩
          refine ⟨by omega, h2, ?_⟩
          have heq : k - j = (k - (j + p)) + p := by omega
          rw [heq]
          exact Nat.dvd_add h3 (dvd_refl p)
        · rintro ⟨h1, h2, h3⟩
          have hik : p ≤ k - j := Nat.le_of_dvd (by omega) h3
          refine ⟨by omega, h2, ?_⟩
          have heq : k - (j + p) = (k - j) - p := by omega
          rw [heq]
          exact Nat.dvd_sub' h3 (dvd_refl p)
    · rw [dif_neg (by omega)]
      have hno : ¬(j ≤ k ∧ k < BFBTS ∧ p ∣ (k - j)) := by
        rintro ⟨h1, h2, _⟩
        omega
      simp [hno]

theorem scan_buf_spec (buf : Nat → Bool) :
    ∀ (n b : Nat), BFBTS - b ≤ n → b ≤ BFBTS →
      b ≤ scan_buf buf b ∧ scan_buf buf b ≤ BFBTS ∧
      (∀ t, b ≤ t → t < scan_buf buf b → buf t = true) ∧
      (scan_buf buf b < BFBTS → buf (scan_buf buf b) = false) := by
  intro n
  induction n with
  | zero =>
    intro b hn hb
    have hbeq : b = BFBTS := by omega
    rw [scan_buf, dif_neg (by omega)]
    exact ⟨Nat.le_refl b, by omega, fun t h1 h2 => by omega, fun h => by omega⟩
  | succ n ih =>
    intro b hn hb
    rw [scan_buf]
    by_cases hcond : b < BFBTS ∧ buf b
    · rw [dif_pos hcond]
      obtain ⟨h1, h2, h3, h4⟩ := ih (b + 1) (by omega) (by omega)
      refine ⟨by omega, h2, ?_, h4⟩
      intro t ht1 ht2
      by_cases htb : t = b
      · subst htb
        exact hcond.2
      · exact h3 t (by omega) ht2
    · rw [dif_neg hcond]
      refine ⟨Nat.le_refl b, hb, fun t h1 h2 => by omega, ?_⟩
      intro hblt
      rcases Bool.eq_false_or_eq_true (buf b) with h | h
      · exact absurd ⟨hblt, h⟩ hcond
      · exact h

theorem not_prime_even {q : Nat} (hq : q.Prime) (h4 : 4 ≤ q)
    (heven : q % 2 = 0) : False := by
  rcases hq.eq_two_or_odd with h | h <;> omega

theorem odd_sq_val {p : Nat} (hodd : p % 2 = 1) (h3 : 3 ≤ p) :
    3 + 2 * ((p * p - 3) / 2) = p * p := by
  have h9 : 3 * 3 ≤ p * p := Nat.mul_le_mul h3 h3
  have h2 : (p * p) % 2 = 1 :=
    Nat.odd_iff.mp ((Nat.odd_iff.mpr hodd).mul (Nat.odd_iff.mpr hodd))
  omega

theorem dvd_val_iff {p a s0 : Nat} (hodd : p % 2 = 1)
    (hs0 : 3 + 2 * s0 = p * p) (ha : s0 ≤ a) :
    p ∣ (3 + 2 * a) ↔ p ∣ (a - s0) := by
  have hcop : Nat.Coprime p 2 := by
    rcases Nat.coprime_or_dvd_of_prime Nat.prime_two p with h | h
    · exact Nat.coprime_comm.mp h
    · omega
  constructor
  · intro h
    have h2 : (3 + 2 * a) - p * p = 2 * (a - s0) := by omega
    have hd2 : p ∣ 2 * (a - s0) := h2 ▸ Nat.dvd_sub' h (dvd_mul_right p p)
    have hd3 : p ∣ (a - s0) * 2 := by rwa [Nat.mul_comm] at hd2
    exact hcop.dvd_of_dvd_mul_right hd3
  · intro h
    have h2 : 3 + 2 * a = p * p + 2 * (a - s0) := by omega
    rw [h2]
    exact Nat.dvd_add (dvd_mul_right p p) (h.mul_left 2)

theorem bootstrap_exit_equiv {p nxt j : Nat} (hexit : nxt ≤ p * p)
    (hprev : ∀ q, q.Prime → 3 ≤ q → q < p → q * q < nxt) :
    (j < BFBTS ∧ ∃ q, q.Prime ∧ 3 ≤ q ∧ q < p ∧
      q ∣ (3 + 2 * j) ∧ q * q ≤ 3 + 2 * j) ↔
    (j < BFBTS ∧ ∃ q, q.Prime ∧ 3 ≤ q ∧ q * q < nxt ∧
      q ∣ (3 + 2 * j) ∧ q * q ≤ 3 + 2 * j) := by
  constructor
  · rintro ⟨hj, q, h1, h2, h3, h4, h5⟩
    exact ⟨hj, q, h1, h2, hprev q h1 h2 h3, h4, h5⟩
  · rintro ⟨hj, q, h1, h2, h3, h4, h5⟩
    refine ⟨hj, q, h1, h2, ?_, h4, h5⟩
    by_contra hge
    have hpq : p ≤ q := by omega
    have := Nat.mul_le_mul hpq hpq
    omega

theorem bootstrap_cull_spec :
    ∀ (n i p : Nat) (buf : Nat → Bool) (nxt : Nat),
      nxt - p ≤ n →
      nxt ≤ 3 + BFRNG →
      p = 3 + 2 * i →
      (∀ q, q.Prime → 3 ≤ q → q < p → q * q < nxt) →
      (∀ j, buf j = true ↔ (j < BFBTS ∧ ∃ q, q.Prime ∧ 3 ≤ q ∧ q < p ∧
        q ∣ (3 + 2 * j) ∧ q * q ≤ 3 + 2 * j)) →
      ∀ j, bootstrap_cull nxt i p buf j = true
        ↔ (j < BFBTS ∧ ∃ q, q.Prime ∧ 3 ≤ q ∧ q * q < nxt ∧
            q ∣ (3 + 2 * j) ∧ q * q ≤ 3 + 2 * j) := by
  intro n
  induction n with
  | zero =>
    intro i p buf nxt hn hnxt hpi hprev hinv j
    have hpp : p ≤ p * p := Nat.le_mul_of_pos_left p (by omega)
    rw [bootstrap_cull, dif_neg (by omega), hinv j]
    exact bootstrap_exit_equiv (by omega) hprev
  | succ n ih =>
    intro i p buf nxt hn hnxt hpi hprev hinv j
    rw [bootstrap_cull]
    by_cases hcond : p * p < nxt
    · rw [dif_pos hcond]
      have hpodd : p % 2 = 1 := by omega
      have hple : p ≤ 2048 := by
        by_contra hgt
        have h2049 : 2049 ≤ p := by omega
        have := Nat.mul_le_mul h2049 h2049
        rw [BFRNG_eq] at hnxt
        omega
      have hilt : i < BFBTS := by
        rw [BFBTS_eq]
        omega
      have hinv2 : ∀ j2,
          (if buf i then buf else mark_multiples p ((p * p - 3) / 2) buf) j2
              = true
            ↔ (j2 < BFBTS ∧ ∃ q, q.Prime ∧ 3 ≤ q ∧ q < p + 2 ∧
                q ∣ (3 + 2 * j2) ∧ q * q ≤ 3 + 2 * j2) := by
        intro j2
        by_cases hbi : buf i = true
        · rw [if_pos hbi, hinv j2]
          obtain ⟨-, q0, hq01, hq02, hq03, hq04, hq05⟩ := (hinv i).mp hbi
          rw [← hpi] at hq04 hq05
          constructor
          · rintro ⟨hj2, q, h1, h2, h3, h4, h5⟩
            exact ⟨hj2, q, h1, h2, by omega, h4, h5⟩
          · rintro ⟨hj2, q, h1, h2, h3, h4, h5⟩
            by_cases hqp : q < p
            · exact ⟨hj2, q, h1, h2, hqp, h4, h5⟩
            · have hqeq : q = p := by
                by_contra hne
                exact not_prime_even h1 (by omega) (by omega)
              subst hqeq
              have hppp : q ≤ q * q := Nat.le_mul_of_pos_left q (by omega)
              exact ⟨hj2, q0, hq01, hq02, by omega,
                dvd_trans hq04 h4, by omega⟩
        · rw [if_neg hbi]
          have hpprime : p.Prime := by
            apply prime_of_no_small_factor (by omega)
            rintro ⟨q, hq1, hq2, hq3, hq4⟩
            by_cases hq2eq : q = 2
            · subst hq2eq
              omega
            · have hq3le : 3 ≤ q := by
                have := hq2.two_le
                omega
              apply hbi
              refine (hinv i).mpr ⟨hilt, q, hq2, hq3le, by omega, ?_, ?_⟩
              · rw [← hpi]
                exact hq3
              · rw [← hpi]
                exact hq4
          have hs0 := odd_sq_val hpodd (by omega)
          rw [mark_multiples_spec p (by omega) BFBTS ((p * p - 3) / 2)
            (by omega) buf j2, Bool.or_eq_true, decide_eq_true_iff,
            hinv j2]
          constructor
          · rintro (⟨hj2, q, h1, h2, h3, h4, h5⟩ | ⟨hs, hj2, hdvd⟩)
            · exact ⟨hj2, q, h1, h2, by omega, h4, h5⟩
            · refine ⟨hj2, p, hpprime, by omega, by omega, ?_, by omega⟩
              exact (dvd_val_iff hpodd hs0 hs).mpr hdvd
          · rintro ⟨hj2, q, h1, h2, h3, h4, h5⟩
            by_cases hqp : q < p
            · exact Or.inl ⟨hj2, q, h1, h2, hqp, h4, h5⟩
            · have hqeq : q = p := by
                by_contra hne
                exact not_prime_even h1 (by omega) (by omega)
              subst hqeq
              right
              refine ⟨by omega, hj2, ?_⟩
              exact (dvd_val_iff hpodd hs0 (by omega)).mp h4
      exact ih (i + 1) (p + 2) _ nxt (by omega) hnxt (by omega)
        (fun q hq1 hq2 hq3 => by
          by_cases hqp : q < p
          · exact hprev q hq1 hq2 hqp
          · have hqeq : q = p := by
              by_contra hne
              exact not_prime_even hq1 (by omega) (by omega)
            subst hqeq
            exact hcond)
        hinv2 j
    · rw [dif_neg hcond, hinv j]
      exact bootstrap_exit_equiv (by omega) hprev

theorem composite_factor_equiv {v F : Nat} (hv3 : 3 ≤ v) (hodd : v % 2 = 1)
    (hvF : v < F) :
    (∃ q, q.Prime ∧ 3 ≤ q ∧ q * q < F ∧ q ∣ v ∧ q * q ≤ v) ↔ ¬v.Prime := by
  constructor
  · rintro ⟨q, h1, h2, h3, h4, h5⟩ hvp
    rcases hvp.eq_one_or_self_of_dvd q h4 with h | h
    · omega
    · have h3q : 3 * q ≤ q * q := Nat.mul_le_mul h2 (Nat.le_refl q)
      omega
  · intro hnp
    have hm := Nat.minFac_prime (show v ≠ 1 by omega)
    have hd := Nat.minFac_dvd v
    have hsq := minFac_sq_le (by omega) hnp
    have hne2 : v.minFac ≠ 2 := by
      intro h2
      have hdd : 2 ∣ v := h2 ▸ hd
      omega
    have h3m : 3 ≤ v.minFac := by
      have := hm.two_le
      omega
    exact ⟨v.minFac, hm, h3m, by omega, hd, hsq⟩

theorem BFRNG_two_BFBTS : BFRNG = 2 * BFBTS := by
  rw [BFRNG_eq, BFBTS_eq]

/-- After the page-zero bootstrap culling, the buffer satisfies the page
invariant at offset 0. -/
theorem bootstrap_page_zero_inv :
    BufInv 0 (bootstrap_cull (3 + 2 * 0 + BFRNG) 0 3 (fun _ => false)) := by
  intro j hj
  have hval : 3 + 2 * (0 + j) = 3 + 2 * j := by omega
  rw [hval]
  rw [bootstrap_cull_spec (3 + BFRNG) 0 3 (fun _ => false)
    (3 + 2 * 0 + BFRNG) (by omega) (by omega) (by omega)
    (fun q hq1 hq2 hq3 => by omega)
    (fun j2 => by
      constructor
      · intro h
        exact Bool.noConfusion h
      · rintro ⟨-, q, hq1, hq2, hq3, -, -⟩
        omega) j]
  have hvlt : 3 + 2 * j < 3 + 2 * 0 + BFRNG := by
    have := BFRNG_two_BFBTS
    omega
  constructor
  · rintro ⟨-, hex⟩
    exact (composite_factor_equiv (by omega) (by omega) hvlt).mp hex
  · intro hnp
    exact ⟨hj, (composite_factor_equiv (by omega) (by omega) hvlt).mpr hnp⟩

theorem dvd_shift_iff {p L s k : Nat} (hp : 0 < p) (hsp : s < p)
    (hdiv : p ∣ (L + s)) : p ∣ (L + k) ↔ (s ≤ k ∧ p ∣ (k - s)) := by
  constructor
  · intro h
    have hsk : s ≤ k := by
      by_contra hlt
      have hd : p ∣ (s - k) := by
        have hsub := Nat.dvd_sub' hdiv h
        rwa [show (L + s) - (L + k) = s - k by omega] at hsub
      have := Nat.eq_zero_of_dvd_of_lt hd (by omega)
      omega
    refine ⟨hsk, ?_⟩
    have hsub := Nat.dvd_sub' h hdiv
    rwa [show (L + k) - (L + s) = k - s by omega] at hsub
  · rintro ⟨hsk, h⟩
    rw [show L + k = (L + s) + (k - s) by omega]
    exact Nat.dvd_add hdiv h

/-- Culling one odd base prime `p` on the page at `lowi` marks exactly
the indices of odd multiples of `p` at or above `p * p`. -/
theorem cull_prime_spec {p : Nat} (hp : p.Prime) (h3 : 3 ≤ p) (lowi : Nat)
    (buf : Nat → Bool) (k : Nat) :
    cull_prime lowi buf p k = true ↔
      (buf k = true ∨ (k < BFBTS ∧ p ∣ (3 + 2 * (lowi + k)) ∧
        p * p ≤ 3 + 2 * (lowi + k))) := by
  have hodd : p % 2 = 1 := by
    rcases hp.eq_two_or_odd with h | h <;> omega
  have hs0 := odd_sq_val hodd h3
  have hpq : 3 * p ≤ p * p := Nat.mul_le_mul h3 (Nat.le_refl p)
  rw [show cull_prime lowi buf p
      = mark_multiples p
          (if lowi ≤ (p * p - 3) / 2 then (p * p - 3) / 2 - lowi
           else if (lowi - (p * p - 3) / 2) % p ≠ 0 then
             p - (lowi - (p * p - 3) / 2) % p
           else 0) buf from rfl]
  rw [mark_multiples_spec p (by omega) BFBTS _ (by omega) buf k,
    Bool.or_eq_true, decide_eq_true_iff]
  apply or_congr Iff.rfl
  by_cases hcase : lowi ≤ (p * p - 3) / 2
  · rw [if_pos hcase]
    constructor
    · rintro ⟨hsk, hk, hdvd⟩
      have hge : (p * p - 3) / 2 ≤ lowi + k := by omega
      refine ⟨hk, ?_, by omega⟩
      apply (dvd_val_iff hodd hs0 hge).mpr
      rwa [show lowi + k - (p * p - 3) / 2 = k - ((p * p - 3) / 2 - lowi)
        by omega]
    · rintro ⟨hk, hdvd, hsq⟩
      have hge : (p * p - 3) / 2 ≤ lowi + k := by omega
      have hd2 := (dvd_val_iff hodd hs0 hge).mp hdvd
      refine ⟨by omega, hk, ?_⟩
      rwa [show k - ((p * p - 3) / 2 - lowi) = lowi + k - (p * p - 3) / 2
        by omega]
  · rw [if_neg hcase]
    have hge : (p * p - 3) / 2 ≤ lowi + k := by omega
    have hsqle : p * p ≤ 3 + 2 * (lowi + k) := by omega
    have hL : lowi + k - (p * p - 3) / 2 = (lowi - (p * p - 3) / 2) + k := by
      omega
    have hdivmod := Nat.div_add_mod (lowi - (p * p - 3) / 2) p
    by_cases hr : (lowi - (p * p - 3) / 2) % p ≠ 0
    · rw [if_pos hr]
      have hrlt : (lowi - (p * p - 3) / 2) % p < p := Nat.mod_lt _ (by omega)
      have hshift : p ∣ ((lowi - (p * p - 3) / 2)
          + (p - (lowi - (p * p - 3) / 2) % p)) := by
        refine ⟨(lowi - (p * p - 3) / 2) / p + 1, ?_⟩
        rw [Nat.mul_add, Nat.mul_one]
        omega
      constructor
      · rintro ⟨hsk, hk, hdvd⟩
        refine ⟨hk, ?_, hsqle⟩
        apply (dvd_val_iff hodd hs0 hge).mpr
        rw [hL]
        exact (dvd_shift_iff (by omega) (by omega) hshift).mpr ⟨hsk, hdvd⟩
      · rintro ⟨hk, hdvd, -⟩
        have hd2 := (dvd_val_iff hodd hs0 hge).mp hdvd
        rw [hL] at hd2
        obtain ⟨h1, h2⟩ := (dvd_shift_iff (by omega) (by omega) hshift).mp hd2
        exact ⟨h1, hk, h2⟩
    · rw [if_neg hr]
      push_neg at hr
      have hshift : p ∣ ((lowi - (p * p - 3) / 2) + 0) := by
        exact ⟨(lowi - (p * p - 3) / 2) / p, by omega⟩
      constructor
      · rintro ⟨hsk, hk, hdvd⟩
        refine ⟨hk, ?_, hsqle⟩
        apply (dvd_val_iff hodd hs0 hge).mpr
        rw [hL]
        exact (dvd_shift_iff (by omega) (by omega) hshift).mpr ⟨hsk, hdvd⟩
      · rintro ⟨hk, hdvd, -⟩
        have hd2 := (dvd_val_iff hodd hs0 hge).mp hdvd
        rw [hL] at hd2
        obtain ⟨h1, h2⟩ := (dvd_shift_iff (by omega) (by omega) hshift).mp hd2
        exact ⟨h1, hk, h2⟩

theorem cull_fold_spec (lowi : Nat) :
    ∀ (ds : List Nat) (base : Nat → Bool) (k : Nat),
      (∀ r ∈ ds, r.Prime ∧ 3 ≤ r) →
      ((ds.foldl (cull_prime lowi) base) k = true ↔
        (base k = true ∨ ∃ r ∈ ds, k < BFBTS ∧ r ∣ (3 + 2 * (lowi + k)) ∧
          r * r ≤ 3 + 2 * (lowi + k))) := by
  intro ds
  induction ds with
  | nil =>
    intro base k hsound
    simp
  | cons d tl ih =>
    intro base k hsound
    rw [List.foldl_cons,
      ih (cull_prime lowi base d) k
        (fun r hr => hsound r (List.mem_cons_of_mem d hr)),
      cull_prime_spec (hsound d (List.mem_cons_self d tl)).1
        (hsound d (List.mem_cons_self d tl)).2 lowi base k]
    constructor
    · rintro ((h | h) | ⟨r, hr, hq⟩)
      · exact Or.inl h
      · exact Or.inr ⟨d, List.mem_cons_self d tl, h⟩
      · exact Or.inr ⟨r, List.mem_cons_of_mem d hr, hq⟩
    · rintro (h | ⟨r, hr, hq⟩)
      · exact Or.inl (Or.inl h)
      · rcases List.mem_cons.mp hr with h | h
        · subst h
          exact Or.inl (Or.inr hq)
        · exact Or.inr ⟨r, h, hq⟩

/-- Culling all base primes whose square is below the page bound over a
cleared buffer establishes the page invariant. -/
theorem cull_page_inv {lowi : Nat} (ds : List Nat)
    (hsound : ∀ r ∈ ds, r.Prime ∧ 3 ≤ r)
    (hcomplete : ∀ q, q.Prime → 3 ≤ q →
      q * q < 3 + 2 * lowi + BFRNG → q ∈ ds) :
    BufInv lowi (ds.foldl (cull_prime lowi) (fun _ => false)) := by
  intro j hj
  rw [cull_fold_spec lowi ds (fun _ => false) j hsound]
  have hBB := BFRNG_two_BFBTS
  have hvlt : 3 + 2 * (lowi + j) < 3 + 2 * lowi + BFRNG := by omega
  constructor
  · rintro (h | ⟨r, hr, h1, h2, h3⟩)
    · exact Bool.noConfusion h
    · intro hvp
      obtain ⟨hrp, hr3⟩ := hsound r hr
      rcases hvp.eq_one_or_self_of_dvd r h2 with h | h
      · omega
      · have h3r : 3 * r ≤ r * r := Nat.mul_le_mul hr3 (Nat.le_refl r)
        omega
  · intro hnp
    obtain ⟨q, h1, h2, h3, h4, h5⟩ :=
      (composite_factor_equiv (by omega) (by omega) hvlt).mpr hnp
    exact Or.inr ⟨q, hcomplete q h1 h2 h3, hj, h4, h5⟩

/-! ## Facts about the stored base-prime list -/

theorem getLast?_ne_nil {l : List Nat} {p : Nat}
    (hl : l.getLast? = some p) : l ≠ [] := by
  intro h
  rw [h] at hl
  exact Option.noConfusion hl

theorem getLast?_mem_list {l : List Nat} {p : Nat}
    (hl : l.getLast? = some p) : p ∈ l := by
  have hnil := getLast?_ne_nil hl
  have hgl : l.getLast hnil = p := by
    have h2 := List.getLast?_eq_getLast l hnil
    rw [hl] at h2
    exact (Option.some.inj h2).symm
  rw [← hgl]
  exact List.getLast_mem hnil

theorem sorted_last_max {l : List Nat} {p : Nat}
    (hs : List.Pairwise (· < ·) l) (hl : l.getLast? = some p) :
    ∀ x ∈ l, x ≤ p := by
  have hne := getLast?_ne_nil hl
  have hsplit : l.dropLast ++ [l.getLast hne] = l :=
    List.dropLast_append_getLast hne
  have hgl : l.getLast hne = p := by
    have h2 := List.getLast?_eq_getLast l hne
    rw [hl] at h2
    exact (Option.some.inj h2).symm
  intro x hx
  rw [← hsplit] at hx hs
  rcases List.mem_append.mp hx with h | h
  · have hpw := (List.pairwise_append.mp hs).2.2
    have := hpw x h (l.getLast hne) (List.mem_singleton.mpr rfl)
    omega
  · have := List.mem_singleton.mp h
    omega

theorem mem_dropLast_of_ne_last {l : List Nat} {p x : Nat}
    (hl : l.getLast? = some p) (hx : x ∈ l) (hne : x ≠ p) :
    x ∈ l.dropLast := by
  have hnil := getLast?_ne_nil hl
  have hgl : l.getLast hnil = p := by
    have h2 := List.getLast?_eq_getLast l hnil
    rw [hl] at h2
    exact (Option.some.inj h2).symm
  have hsplit := List.dropLast_append_getLast hnil
  rw [← hsplit] at hx
  rcases List.mem_append.mp hx with h | h
  · exact h
  · have := List.mem_singleton.mp h
    omega

/-- A characterised base-prime list induces a frontier step at its last
entry. -/
theorem bpa_frontier {bpa : List Nat} {Fb p : Nat} (hchar : BpaChar bpa Fb)
    (hl : bpa.getLast? = some p) : FrontierStep p Fb := by
  obtain ⟨hsort, hmem⟩ := hchar
  obtain ⟨hp, h3p, hpFb⟩ := (hmem p).mp (getLast?_mem_list hl)
  intro r hr
  constructor
  · intro hrFb
    by_cases hr2 : r = 2
    · omega
    · have h3r : 3 ≤ r := by
        have := hr.two_le
        omega
      exact sorted_last_max hsort hl r ((hmem r).mpr ⟨hr, h3r, hrFb⟩)
  · intro hrp
    omega

/-- Pulling the least prime at or above the frontier extends the
characterised base-prime list to the new frontier. -/
theorem bpa_char_append {bpa : List Nat} {Fb F2 : Nat}
    (hchar : BpaChar bpa Fb) (h3Fb : 3 ≤ Fb)
    (hstep : FrontierStep (minPrimeGe Fb) F2) :
    BpaChar (bpa ++ [minPrimeGe Fb]) F2 := by
  obtain ⟨hsort, hmem⟩ := hchar
  have hq := minPrimeGe_prime Fb
  have hge := minPrimeGe_ge Fb
  constructor
  · rw [List.pairwise_append]
    refine ⟨hsort, List.pairwise_singleton _ _, ?_⟩
    intro a ha b hb
    rw [List.mem_singleton.mp hb]
    have := (hmem a).mp ha
    omega
  · intro m
    rw [List.mem_append, List.mem_singleton, hmem m]
    constructor
    · rintro (⟨h1, h2, h3⟩ | h)
      · refine ⟨h1, h2, ?_⟩
        have := (hstep m h1).mpr (by omega)
        omega
      · subst h
        exact ⟨hq, by omega, (hstep _ hq).mpr (Nat.le_refl _)⟩
    · rintro ⟨h1, h2, h3⟩
      have hmq : m ≤ minPrimeGe Fb := (hstep m h1).mp h3
      by_cases heq : m = minPrimeGe Fb
      · exact Or.inr heq
      · refine Or.inl ⟨h1, h2, ?_⟩
        by_contra hFbm
        have := minPrimeGe_min h1 (by omega : Fb ≤ m)
        omega

theorem bpa_dropLast_sound {bpa : List Nat} {Fb : Nat}
    (hchar : BpaChar bpa Fb) : ∀ r ∈ bpa.dropLast, r.Prime ∧ 3 ≤ r := by
  intro r hr
  have := (hchar.2 r).mp ((List.dropLast_prefix bpa).subset hr)
  exact ⟨this.1, this.2.1⟩

theorem bpa_dropLast_complete {bpa : List Nat} {Fb pL nxt : Nat}
    (hchar : BpaChar bpa Fb) (hl : bpa.getLast? = some pL)
    (hsq : nxt ≤ pL * pL) :
    ∀ q, q.Prime → 3 ≤ q → q * q < nxt → q ∈ bpa.dropLast := by
  intro q h1 h2 h3
  have hqpL : q < pL := by
    by_contra hge
    have hple : pL ≤ q := by omega
    have := Nat.mul_le_mul hple hple
    omega
  have hpLFb := ((hchar.2 pL).mp (getLast?_mem_list hl)).2.2
  have hqmem : q ∈ bpa := (hchar.2 q).mpr ⟨h1, h2, by omega⟩
  exact mem_dropLast_of_ne_last hl hqmem (by omega)

/-- No prime lies strictly inside a scanned-composite stretch of a culled
page. -/
theorem no_prime_in_scanned {lowi b sc : Nat} (buf : Nat → Bool)
    (hbuf : BufInv lowi buf) (hble : b ≤ sc) (hsc : sc ≤ BFBTS)
    (hset : ∀ t, b ≤ t → t < sc → buf t = true) :
    ∀ r, r.Prime → 3 + 2 * (lowi + b) ≤ r → r < 3 + 2 * (lowi + sc) →
      False := by
  intro r hr hge hlt
  by_cases hre : r % 2 = 0
  · exact not_prime_even hr (by omega) hre
  · have hrodd : r % 2 = 1 := by omega
    have hrm : r = 3 + 2 * ((r - 3) / 2) := by omega
    have hmlo : lowi + b ≤ (r - 3) / 2 := by omega
    have hmhi : (r - 3) / 2 < lowi + sc := by omega
    have ht : buf ((r - 3) / 2 - lowi) = true :=
      hset ((r - 3) / 2 - lowi) (by omega) (by omega)
    have hcomp := (hbuf ((r - 3) / 2 - lowi) (by omega)).mp ht
    rw [show 3 + 2 * (lowi + ((r - 3) / 2 - lowi)) = r by omega] at hcomp
    exact hcomp hr

/-! ## Partial correctness of the segmented sieve -/

theorem PCemit (fuel : Nat) (hnext : PCnextS fuel) : PCemitS fuel := by
  intro lowi bpa bps buf b q s2 hdvd hble hbuf hstored hcall
  rw [emit_from] at hcall
  obtain ⟨hs1, hs2, hs3, hs4⟩ := scan_buf_spec buf BFBTS b (by omega) hble
  by_cases hlt : scan_buf buf b < BFBTS
  · rw [if_pos hlt] at hcall
    obtain ⟨hq, hs2eq⟩ := Prod.mk.injEq .. ▸ (Option.some.inj hcall)
    have hqprime : (3 + 2 * (lowi + scan_buf buf b)).Prime := by
      by_contra hnp
      have hset := (hbuf (scan_buf buf b) hlt).mpr hnp
      rw [hs4 hlt] at hset
      exact Bool.noConfusion hset
    have hmin : minPrimeGe (3 + 2 * (lowi + b))
        = 3 + 2 * (lowi + scan_buf buf b) := by
      apply minPrimeGe_unique hqprime (by omega)
      intro r hr hge
      by_contra hlt2
      exact no_prime_in_scanned buf hbuf hs1 (by omega) hs3 r hr hge
        (by omega)
    refine ⟨by omega, 3 + 2 * (lowi + (scan_buf buf b + 1)), ?_, ?_⟩
    · intro r hr
      constructor
      · intro hrlt
        by_contra hgt
        have hre : r = 3 + 2 * (lowi + scan_buf buf b) + 1 := by omega
        exact not_prime_even hr (by omega) (by omega)
      · intro hrle
        omega
    · rw [← hs2eq]
      rcases hstored with ⟨hbpa, hbps⟩ | ⟨Fb, bpsS, hbps, hne, hchar, hval⟩
      · subst hbpa
        subst hbps
        exact Valid.midFresh (scan_buf buf b + 1) lowi buf (by omega)
          (by omega) hdvd hbuf
      · subst hbps
        exact Valid.midBps (scan_buf buf b + 1) lowi bpa bpsS buf Fb
          (by omega) (by omega) hdvd hbuf hne hchar hval
  · rw [if_neg hlt] at hcall
    have hsc_eq : scan_buf buf b = BFBTS := by omega
    have hBpos : 0 < BFBTS := by
      rw [BFBTS_eq]
      omega
    have hvalid2 : Valid ⟨some 0, lowi + BFBTS, bpa, bps, buf⟩
        (3 + 2 * (lowi + BFBTS)) := by
      rcases hstored with ⟨hbpa, hbps⟩ | ⟨Fb, bpsS, hbps, hne, hchar, hval⟩
      · subst hbpa
        subst hbps
        exact Valid.pendingFresh (lowi + BFBTS) buf (by omega)
          (Nat.dvd_add hdvd dvd_rfl)
      · subst hbps
        exact Valid.pendingBps (lowi + BFBTS) bpa bpsS buf Fb (by omega)
          (Nat.dvd_add hdvd dvd_rfl) hne hchar hval
    obtain ⟨hq, F2, hstep, hvalid3⟩ := hnext _ _ _ _ hvalid2 hcall
    refine ⟨?_, F2, hstep, hvalid3⟩
    rw [hq]
    symm
    apply minPrimeGe_congr (by omega)
    intro r hr hge hrlt
    exact no_prime_in_scanned buf hbuf hs1 (by omega)
      (hsc_eq ▸ hs3) r hr hge (by omega)

theorem PCpull :
    ∀ fuel, (∀ g, g < fuel → PCnextS g) → PCpullS fuel := by
  intro fuel
  induction fuel with
  | zero =>
    intro _ bps bpa p nxt bps2 bpa2 Fb _ _ _ _ hcall
    rw [pull_base_primes] at hcall
    exact Option.noConfusion hcall
  | succ fuel ih =>
    intro hnext bps bpa p nxt bps2 bpa2 Fb hval hchar hlast hstep hcall
    rw [pull_base_primes] at hcall
    by_cases hcond : p * p < nxt
    · rw [if_pos hcond] at hcall
      generalize hnp : next_prime fuel bps = res at hcall
      match res with
      | none => exact Option.noConfusion hcall
      | some (q, bpsn) =>
        obtain ⟨hq, F2, hstepq, hvaln⟩ :=
          hnext fuel (by omega) bps Fb q bpsn hval hnp
        have h3Fb : 3 ≤ Fb := by
          have := (hchar.2 p).mp (getLast?_mem_list hlast)
          omega
        subst hq
        have hchar2 : BpaChar (bpa ++ [minPrimeGe Fb]) F2 :=
          bpa_char_append hchar h3Fb hstepq
        have hlast2 : (bpa ++ [minPrimeGe Fb]).getLast? = some (minPrimeGe Fb) :=
          List.getLast?_concat _
        exact ih (fun g hg => hnext g (by omega)) bpsn (bpa ++ [minPrimeGe Fb])
          (minPrimeGe Fb) nxt bps2 bpa2 F2 hvaln hchar2 hlast2 hstepq hcall
    · rw [if_neg hcond] at hcall
      obtain ⟨h1, h2⟩ := Prod.mk.injEq .. ▸ (Option.some.inj hcall)
      exact ⟨Fb, p, h2 ▸ hchar, h1 ▸ hval, h2 ▸ hlast, hstep, by omega⟩

theorem minPrimeGe_two : minPrimeGe 2 = 2 :=
  minPrimeGe_unique Nat.prime_two (Nat.le_refl 2) (fun r hr _ => hr.two_le)

theorem minPrimeGe_three : minPrimeGe 3 = 3 :=
  minPrimeGe_unique Nat.prime_three (Nat.le_refl 3) (fun r hr h => h)

theorem BpaChar_singleton_three {F2b : Nat} (hstep : FrontierStep 3 F2b) :
    BpaChar [3] F2b := by
  constructor
  · exact List.pairwise_singleton _ _
  · intro m
    rw [List.mem_singleton]
    constructor
    · intro h
      subst h
      exact ⟨Nat.prime_three, Nat.le_refl 3,
        (hstep 3 Nat.prime_three).mpr (Nat.le_refl 3)⟩
    · rintro ⟨h1, h2, h3⟩
      have := (hstep m h1).mp h3
      omega

theorem PCnextT : ∀ fuel, PCnextS fuel := by
  intro fuel
  induction fuel using Nat.strong_induction_on with
  | _ fuel ih =>
    cases fuel with
    | zero =>
      intro s F q s2 hval hcall
      rw [next_prime] at hcall
      exact Option.noConfusion hcall
    | succ fuel =>
      intro s F q s2 hval hcall
      cases hval with
      | start =>
        rw [show IncrementalSieve.new
            = (⟨none, 0, [], none, fun _ => false⟩ : IncrementalSieve)
            from rfl, next_prime] at hcall
        obtain ⟨h1, h2⟩ := Prod.mk.injEq .. ▸ (Option.some.inj hcall)
        refine ⟨?_, 3, ?_, ?_⟩
        · rw [← h1, minPrimeGe_two]
        · rw [← h1]
          intro r hr
          omega
        · rw [← h2]
          exact Valid.pageZero
      | pageZero =>
        rw [next_prime, if_pos rfl, if_pos rfl] at hcall
        obtain ⟨hq, F2, hstep, hval2⟩ := PCemit fuel (ih fuel (by omega))
          0 [] none _ 0 q s2 (dvd_zero BFBTS) (Nat.zero_le BFBTS)
          bootstrap_page_zero_inv (Or.inl ⟨rfl, rfl⟩) hcall
        exact ⟨hq, F2, hstep, hval2⟩
      | pendingFresh lowi buf hpos hdvd =>
        rw [next_prime, if_pos rfl, if_neg (by omega),
          if_pos List.isEmpty_nil, Option.getD_none] at hcall
        generalize hn1 : next_prime fuel IncrementalSieve.new = r1 at hcall
        match r1 with
        | none => exact Option.noConfusion hcall
        | some (p1, s1) =>
          obtain ⟨hp1, F2a, hstepa, hvala⟩ :=
            ih fuel (by omega) _ 2 p1 s1 Valid.start hn1
          have hp1v : p1 = 2 := by rw [hp1, minPrimeGe_two]
          subst hp1v
          have hcallb : (match (match next_prime fuel s1 with
                | none => none
                | some (p2, s2x) => some (s2x, [p2])) with
              | none => none
              | some (bps1, bpa1) =>
                match bpa1.getLast? with
                | none => none
                | some pLast =>
                  match pull_base_primes fuel bps1 bpa1 pLast
                      (3 + 2 * lowi + BFRNG) with
                  | none => none
                  | some (bps2, bpa2) =>
                    emit_from fuel lowi bpa2 (some bps2)
                      (bpa2.dropLast.foldl (cull_prime lowi)
                        (fun _ => false)) 0)
              = some (q, s2) := hcall
          generalize hn2 : next_prime fuel s1 = r2 at hcallb
          match r2 with
          | none => exact Option.noConfusion hcallb
          | some (p2, s2b) =>
            obtain ⟨hp2, F2b, hstepb, hvalb⟩ :=
              ih fuel (by omega) s1 F2a p2 s2b hvala hn2
            have hp2v : p2 = 3 := by
              rw [hp2, frontier_step_min Nat.prime_two hstepa,
                minPrimeGe_three]
            subst hp2v
            have hcall2 : (match ([3] : List Nat).getLast? with
                | none => none
                | some pLast =>
                  match pull_base_primes fuel s2b [3] pLast
                      (3 + 2 * lowi + BFRNG) with
                  | none => none
                  | some (bps2, bpa2) =>
                    emit_from fuel lowi bpa2 (some bps2)
                      (bpa2.dropLast.foldl (cull_prime lowi)
                        (fun _ => false)) 0)
                = some (q, s2) := hcallb
            rw [List.getLast?_singleton] at hcall2
            have hcall3 : (match pull_base_primes fuel s2b [3] 3
                  (3 + 2 * lowi + BFRNG) with
                | none => none
                | some (bps2, bpa2) =>
                  emit_from fuel lowi bpa2 (some bps2)
                    (bpa2.dropLast.foldl (cull_prime lowi)
                      (fun _ => false)) 0)
                = some (q, s2) := hcall2
            generalize hpull : pull_base_primes fuel s2b [3]
              3 (3 + 2 * lowi + BFRNG) = rp at hcall3
            match rp with
            | none => exact Option.noConfusion hcall3
            | some (bps2, bpa2) =>
              obtain ⟨Fb2, pL2, hchar2, hval2, hlast2, hstep2, hsq2⟩ :=
                PCpull fuel (fun g hg => ih g (by omega)) s2b [3] 3
                  (3 + 2 * lowi + BFRNG) bps2 bpa2 F2b hvalb
                  (BpaChar_singleton_three hstepb) (List.getLast?_singleton 3)
                  hstepb hpull
              have hbufinv : BufInv lowi
                  (bpa2.dropLast.foldl (cull_prime lowi) (fun _ => false)) :=
                cull_page_inv bpa2.dropLast (bpa_dropLast_sound hchar2)
                  (bpa_dropLast_complete hchar2 hlast2 hsq2)
              obtain ⟨hq, F2, hstep, hval3⟩ := PCemit fuel (ih fuel (by omega))
                lowi bpa2 (some bps2) _ 0 q s2 hdvd (Nat.zero_le BFBTS)
                hbufinv
                (Or.inr ⟨Fb2, bps2, rfl, getLast?_ne_nil hlast2, hchar2,
                  hval2⟩)
                hcall3
              exact ⟨hq, F2, hstep, hval3⟩
      | pendingBps lowi bpa bpsS buf Fb hpos hdvd hne hchar hvalb =>
        rw [next_prime, if_pos rfl, if_neg (by omega),
          if_neg (fun h => hne (List.isEmpty_iff.mp h)),
          Option.getD_some] at hcall
        have hcall2 : (match bpa.getLast? with
            | none => none
            | some pLast =>
              match pull_base_primes fuel bpsS bpa pLast
                  (3 + 2 * lowi + BFRNG) with
              | none => none
              | some (bps2, bpa2) =>
                emit_from fuel lowi bpa2 (some bps2)
                  (bpa2.dropLast.foldl (cull_prime lowi)
                    (fun _ => false)) 0)
            = some (q, s2) := hcall
        obtain ⟨p, hp⟩ := Option.isSome_iff_exists.mp
          (List.getLast?_isSome.mpr hne)
        rw [hp] at hcall2
        have hcall3 : (match pull_base_primes fuel bpsS bpa p
              (3 + 2 * lowi + BFRNG) with
            | none => none
            | some (bps2, bpa2) =>
              emit_from fuel lowi bpa2 (some bps2)
                (bpa2.dropLast.foldl (cull_prime lowi)
                  (fun _ => false)) 0)
            = some (q, s2) := hcall2
        generalize hpull : pull_base_primes fuel bpsS bpa p
          (3 + 2 * lowi + BFRNG) = rp at hcall3
        match rp with
        | none => exact Option.noConfusion hcall3
        | some (bps2, bpa2) =>
          obtain ⟨Fb2, pL2, hchar2, hval2, hlast2, hstep2, hsq2⟩ :=
            PCpull fuel (fun g hg => ih g (by omega)) bpsS bpa p
              (3 + 2 * lowi + BFRNG) bps2 bpa2 Fb hvalb hchar hp
              (bpa_frontier hchar hp) hpull
          have hbufinv : BufInv lowi
              (bpa2.dropLast.foldl (cull_prime lowi) (fun _ => false)) :=
            cull_page_inv bpa2.dropLast (bpa_dropLast_sound hchar2)
              (bpa_dropLast_complete hchar2 hlast2 hsq2)
          obtain ⟨hq, F2, hstep, hval3⟩ := PCemit fuel (ih fuel (by omega))
            lowi bpa2 (some bps2) _ 0 q s2 hdvd (Nat.zero_le BFBTS)
            hbufinv
            (Or.inr ⟨Fb2, bps2, rfl, getLast?_ne_nil hlast2, hchar2, hval2⟩)
            hcall3
          exact ⟨hq, F2, hstep, hval3⟩
      | midFresh b lowi buf hb1 hb2 hdvd hbuf =>
        rw [next_prime, if_neg (by omega)] at hcall
        exact PCemit fuel (ih fuel (by omega)) lowi [] none buf b q s2
          hdvd hb2 hbuf (Or.inl ⟨rfl, rfl⟩) hcall
      | midBps b lowi bpa bpsS buf Fb hb1 hb2 hdvd hbuf hne hchar hvalb =>
        rw [next_prime, if_neg (by omega)] at hcall
        exact PCemit fuel (ih fuel (by omega)) lowi bpa (some bpsS) buf b
          q s2 hdvd hb2 hbuf
          (Or.inr ⟨Fb, bpsS, rfl, hne, hchar, hvalb⟩) hcall

/-! ## The collected prefix is the filtered prime list -/

/-- Emitting the least prime `≥ F` and stepping the frontier peels it off
the front of the filtered prime list. -/
theorem filter_primes_split {F F2 p L : Nat} (hp : p.Prime)
    (hmin : minPrimeGe F = p) (hstep : FrontierStep p F2) (hpL : p < L) :
    (List.range L).filter (fun k => decide (F ≤ k ∧ k.Prime))
      = p :: (List.range L).filter (fun k => decide (F2 ≤ k ∧ k.Prime)) := by
  have hFp : F ≤ p := hmin ▸ minPrimeGe_ge F
  have hpF2 : p < F2 := (hstep p hp).mpr (Nat.le_refl p)
  have happ := List.range'_append_1 0 (p + 1) (L - (p + 1))
  rw [Nat.zero_add, show L - (p + 1) + (p + 1) = L by omega] at happ
  have hrange : List.range L
      = List.range (p + 1) ++ List.range' (p + 1) (L - (p + 1)) := by
    rw [List.range_eq_range', List.range_eq_range']
    exact happ.symm
  rw [hrange, List.range_succ, List.filter_append, List.filter_append,
    List.filter_append, List.filter_append]
  have h1 : (List.range p).filter (fun k => decide (F ≤ k ∧ k.Prime))
      = [] := by
    apply List.filter_eq_nil_iff.mpr
    intro k hk
    rw [List.mem_range] at hk
    simp only [decide_eq_true_eq]
    rintro ⟨hFk, hkp⟩
    have := hmin ▸ minPrimeGe_min hkp hFk
    omega
  have h2 : ([p] : List Nat).filter (fun k => decide (F ≤ k ∧ k.Prime))
      = [p] := by
    rw [List.filter_singleton, decide_eq_true ⟨hFp, hp⟩]
    rfl
  have h3 : (List.range p).filter (fun k => decide (F2 ≤ k ∧ k.Prime))
      = [] := by
    apply List.filter_eq_nil_iff.mpr
    intro k hk
    rw [List.mem_range] at hk
    simp only [decide_eq_true_eq]
    rintro ⟨hFk, hkp⟩
    have := (hstep k hkp).mpr (by omega)
    omega
  have h4 : ([p] : List Nat).filter (fun k => decide (F2 ≤ k ∧ k.Prime))
      = [] := by
    rw [List.filter_singleton,
      decide_eq_false (by
        rintro ⟨hc, -⟩
        omega)]
    rfl
  have h5 : (List.range' (p + 1) (L - (p + 1))).filter
        (fun k => decide (F ≤ k ∧ k.Prime))
      = (List.range' (p + 1) (L - (p + 1))).filter
        (fun k => decide (F2 ≤ k ∧ k.Prime)) := by
    apply List.filter_congr
    intro k hk
    rw [List.mem_range'_1] at hk
    rw [decide_eq_decide]
    constructor
    · rintro ⟨h6, h7⟩
      refine ⟨?_, h7⟩
      by_contra h8
      have := (hstep k h7).mp (by omega)
      omega
    · rintro ⟨h6, h7⟩
      exact ⟨by omega, h7⟩
  rw [h1, h2, h3, h4, h5]
  simp

theorem collect_spec :
    ∀ (fuel L : Nat) (s : IncrementalSieve) (F : Nat) (ps : List Nat)
      (s3 : IncrementalSieve), Valid s F →
      collect_while_lt fuel L s = some (ps, s3) →
      ps = (List.range L).filter (fun k => decide (F ≤ k ∧ k.Prime)) ∧
        ∃ F3, Valid s3 F3 ∧ L ≤ F3 := by
  intro fuel
  induction fuel with
  | zero =>
    intro L s F ps s3 _ hcall
    exact Option.noConfusion hcall
  | succ fuel ih =>
    intro L s F ps s3 hval hcall
    rw [collect_while_lt] at hcall
    generalize hnp : next_prime fuel s = r at hcall
    match r with
    | none => exact Option.noConfusion hcall
    | some (p, s2) =>
      obtain ⟨hp, F2, hstep, hval2⟩ := PCnextT fuel s F p s2 hval hnp
      have hpp : p.Prime := hp ▸ minPrimeGe_prime F
      have hcall2 : (if p < L then
            match collect_while_lt fuel L s2 with
            | none => none
            | some (l, s3x) => some (p :: l, s3x)
          else some ([], s2)) = some (ps, s3) := hcall
      by_cases hpL : p < L
      · rw [if_pos hpL] at hcall2
        generalize hc2 : collect_while_lt fuel L s2 = r2 at hcall2
        match r2 with
        | none => exact Option.noConfusion hcall2
        | some (l, s3') =>
          obtain ⟨h1, h2⟩ := Prod.mk.injEq .. ▸ (Option.some.inj hcall2)
          obtain ⟨hl, hF3⟩ := ih L s2 F2 l s3' hval2 hc2
          refine ⟨?_, h2 ▸ hF3⟩
          rw [← h1, hl]
          exact (filter_primes_split hpp hp.symm hstep hpL).symm
      · rw [if_neg hpL] at hcall2
        obtain ⟨h1, h2⟩ := Prod.mk.injEq .. ▸ (Option.some.inj hcall2)
        refine ⟨?_, F2, h2 ▸ hval2, ?_⟩
        · rw [← h1]
          symm
          apply List.filter_eq_nil_iff.mpr
          intro k hk
          rw [List.mem_range] at hk
          simp only [decide_eq_true_eq]
          rintro ⟨hFk, hkp⟩
          have := hp ▸ minPrimeGe_min hkp hFk
          omega
        · have hpF2 : p < F2 := (hstep p hpp).mpr (Nat.le_refl p)
          omega

/-- At the initial frontier 2, the filtered list is exactly `primes L`. -/
theorem filter_two_eq_primes (L : Nat) :
    (List.range L).filter (fun k => decide (2 ≤ k ∧ k.Prime)) = primes L := by
  rw [primes]
  apply List.filter_congr
  intro k hk
  rw [List.mem_range] at hk
  apply Bool.eq_iff_iff.mpr
  rw [decide_eq_true_iff, prime_set_char]
  constructor
  · rintro ⟨h2, hp⟩
    exact ⟨hp, hk⟩
  · rintro ⟨hp, hkL⟩
    exact ⟨hp.two_le, hp⟩

/-! ## Fuel monotonicity -/

theorem MOemit (fuel fuel2 : Nat)
    (hnext : ∀ s r, next_prime fuel s = some r →
      next_prime fuel2 s = some r) :
    ∀ lowi bpa bps buf b r, emit_from fuel lowi bpa bps buf b = some r →
      emit_from fuel2 lowi bpa bps buf b = some r := by
  intro lowi bpa bps buf b r hcall
  rw [emit_from] at hcall ⊢
  by_cases hlt : scan_buf buf b < BFBTS
  · rw [if_pos hlt] at hcall ⊢
    exact hcall
  · rw [if_neg hlt] at hcall ⊢
    exact hnext _ _ hcall

theorem MOpull :
    ∀ fuel fuel2, fuel ≤ fuel2 →
      (∀ g g2 (s : IncrementalSieve) (r : Nat × IncrementalSieve),
        g < fuel → g ≤ g2 → next_prime g s = some r →
          next_prime g2 s = some r) →
      ∀ bps bpa p nxt r, pull_base_primes fuel bps bpa p nxt = some r →
        pull_base_primes fuel2 bps bpa p nxt = some r := by
  intro fuel
  induction fuel with
  | zero =>
    intro fuel2 _ _ bps bpa p nxt r hcall
    rw [pull_base_primes] at hcall
    exact Option.noConfusion hcall
  | succ fuel ih =>
    intro fuel2 hle hmono bps bpa p nxt r hcall
    obtain ⟨fuel2', rfl⟩ : ∃ f2, fuel2 = f2 + 1 := ⟨fuel2 - 1, by omega⟩
    rw [pull_base_primes] at hcall ⊢
    by_cases hcond : p * p < nxt
    · rw [if_pos hcond] at hcall ⊢
      generalize hn : next_prime fuel bps = rn at hcall
      match rn with
      | none => exact Option.noConfusion hcall
      | some (q, bps2) =>
        rw [hmono fuel fuel2' bps (q, bps2) (by omega) (by omega) hn]
        exact ih fuel2' (by omega)
          (fun g g2 s r2 hg hgle h => hmono g g2 s r2 (by omega) hgle h)
          bps2 (bpa ++ [q]) q nxt r hcall
    · rw [if_neg hcond] at hcall ⊢
      exact hcall

theorem MOnextT :
    ∀ fuel fuel2 (s : IncrementalSieve) (r : Nat × IncrementalSieve),
      fuel ≤ fuel2 → next_prime fuel s = some r →
        next_prime fuel2 s = some r := by
  intro fuel
  induction fuel using Nat.strong_induction_on with
  | _ fuel ih =>
    cases fuel with
    | zero =>
      intro fuel2 s r hle hcall
      rw [next_prime] at hcall
      exact Option.noConfusion hcall
    | succ fuel =>
      intro fuel2 s r hle hcall
      obtain ⟨fuel2', rfl⟩ : ∃ f2, fuel2 = f2 + 1 := ⟨fuel2 - 1, by omega⟩
      have hle' : fuel ≤ fuel2' := by omega
      obtain ⟨bi, lowi, bpa, bps, buf⟩ := s
      cases bi with
      | none =>
        rw [next_prime] at hcall
        rw [next_prime]
        exact hcall
      | some b =>
        rw [next_prime] at hcall
        rw [next_prime]
        by_cases hb : b = 0
        · subst hb
          rw [if_pos rfl] at hcall ⊢
          by_cases hlowi : lowi = 0
          · subst hlowi
            rw [if_pos rfl] at hcall ⊢
            exact MOemit fuel fuel2'
              (fun s2 r2 h => ih fuel (by omega) fuel2' s2 r2 hle' h)
              0 bpa bps _ 0 r hcall
          · rw [if_neg hlowi] at hcall ⊢
            cases hemp : bpa.isEmpty with
            | true =>
              rw [if_pos hemp] at hcall
              rw [if_pos rfl]
              generalize hn1 :
                next_prime fuel (bps.getD IncrementalSieve.new) = r1 at hcall
              match r1 with
              | none => exact Option.noConfusion hcall
              | some (p1, s1) =>
                rw [ih fuel (by omega) fuel2' _ _ hle' hn1]
                show (match (match next_prime fuel2' s1 with
                    | none => none
                    | some (p2, s2x) => some (s2x, [p2])) with
                  | none => none
                  | some (bps1, bpa1) =>
                    match bpa1.getLast? with
                    | none => none
                    | some pLast =>
                      match pull_base_primes fuel2' bps1 bpa1 pLast
                          (3 + 2 * lowi + BFRNG) with
                      | none => none
                      | some (bps2, bpa2) =>
                        emit_from fuel2' lowi bpa2 (some bps2)
                          (bpa2.dropLast.foldl (cull_prime lowi)
                            (fun _ => false)) 0) = some r
                have hcall2 : (match (match next_prime fuel s1 with
                    | none => none
                    | some (p2, s2x) => some (s2x, [p2])) with
                  | none => none
                  | some (bps1, bpa1) =>
                    match bpa1.getLast? with
                    | none => none
                    | some pLast =>
                      match pull_base_primes fuel bps1 bpa1 pLast
                          (3 + 2 * lowi + BFRNG) with
                      | none => none
                      | some (bps2, bpa2) =>
                        emit_from fuel lowi bpa2 (some bps2)
                          (bpa2.dropLast.foldl (cull_prime lowi)
                            (fun _ => false)) 0) = some r := hcall
                generalize hn2 : next_prime fuel s1 = r2 at hcall2
                match r2 with
                | none => exact Option.noConfusion hcall2
                | some (p2, s2x) =>
                  rw [ih fuel (by omega) fuel2' _ _ hle' hn2]
                  show (match ([p2] : List Nat).getLast? with
                    | none => none
                    | some pLast =>
                      match pull_base_primes fuel2' s2x [p2] pLast
                          (3 + 2 * lowi + BFRNG) with
                      | none => none
                      | some (bps2, bpa2) =>
                        emit_from fuel2' lowi bpa2 (some bps2)
                          (bpa2.dropLast.foldl (cull_prime lowi)
                            (fun _ => false)) 0) = some r
                  rw [List.getLast?_singleton]
                  show (match pull_base_primes fuel2' s2x [p2] p2
                        (3 + 2 * lowi + BFRNG) with
                    | none => none
                    | some (bps2, bpa2) =>
                      emit_from fuel2' lowi bpa2 (some bps2)
                        (bpa2.dropLast.foldl (cull_prime lowi)
                          (fun _ => false)) 0) = some r
                  have hcall3 : (match pull_base_primes fuel s2x [p2] p2
                        (3 + 2 * lowi + BFRNG) with
                    | none => none
                    | some (bps2, bpa2) =>
                      emit_from fuel lowi bpa2 (some bps2)
                        (bpa2.dropLast.foldl (cull_prime lowi)
                          (fun _ => false)) 0) = some r := hcall2
                  generalize hpl : pull_base_primes fuel s2x [p2] p2
                    (3 + 2 * lowi + BFRNG) = rp at hcall3
                  match rp with
                  | none => exact Option.noConfusion hcall3
                  | some (bps2, bpa2) =>
                    rw [MOpull fuel fuel2' hle'
                      (fun g g2 s2 r2 hg hgle h =>
                        ih g (by omega) g2 s2 r2 hgle h)
                      s2x [p2] p2 (3 + 2 * lowi + BFRNG) (bps2, bpa2) hpl]
                    exact MOemit fuel fuel2'
                      (fun s2 r2 h => ih fuel (by omega) fuel2' s2 r2 hle' h)
                      lowi bpa2 (some bps2) _ 0 r hcall3
            | false =>
              rw [if_neg (by rw [hemp]; exact Bool.false_ne_true)] at hcall
              rw [if_neg (by exact Bool.false_ne_true)]
              have hcall2 : (match bpa.getLast? with
                  | none => none
                  | some pLast =>
                    match pull_base_primes fuel
                        (bps.getD IncrementalSieve.new) bpa pLast
                        (3 + 2 * lowi + BFRNG) with
                    | none => none
                    | some (bps2, bpa2) =>
                      emit_from fuel lowi bpa2 (some bps2)
                        (bpa2.dropLast.foldl (cull_prime lowi)
                          (fun _ => false)) 0) = some r := hcall
              show (match bpa.getLast? with
                  | none => none
                  | some pLast =>
                    match pull_base_primes fuel2'
                        (bps.getD IncrementalSieve.new) bpa pLast
                        (3 + 2 * lowi + BFRNG) with
                    | none => none
                    | some (bps2, bpa2) =>
                      emit_from fuel2' lowi bpa2 (some bps2)
                        (bpa2.dropLast.foldl (cull_prime lowi)
                          (fun _ => false)) 0) = some r
              cases hgl : bpa.getLast? with
              | none =>
                rw [hgl] at hcall2
                exact Option.noConfusion hcall2
              | some p =>
                rw [hgl] at hcall2
                show (match pull_base_primes fuel2'
                      (bps.getD IncrementalSieve.new) bpa p
                      (3 + 2 * lowi + BFRNG) with
                  | none => none
                  | some (bps2, bpa2) =>
                    emit_from fuel2' lowi bpa2 (some bps2)
                      (bpa2.dropLast.foldl (cull_prime lowi)
                        (fun _ => false)) 0) = some r
                have hcall3 : (match pull_base_primes fuel
                      (bps.getD IncrementalSieve.new) bpa p
                      (3 + 2 * lowi + BFRNG) with
                  | none => none
                  | some (bps2, bpa2) =>
                    emit_from fuel lowi bpa2 (some bps2)
                      (bpa2.dropLast.foldl (cull_prime lowi)
                        (fun _ => false)) 0) = some r := hcall2
                generalize hpl : pull_base_primes fuel
                  (bps.getD IncrementalSieve.new) bpa p
                  (3 + 2 * lowi + BFRNG) = rp at hcall3
                match rp with
                | none => exact Option.noConfusion hcall3
                | some (bps2, bpa2) =>
                  rw [MOpull fuel fuel2' hle'
                    (fun g g2 s2 r2 hg hgle h =>
                      ih g (by omega) g2 s2 r2 hgle h)
                    (bps.getD IncrementalSieve.new) bpa p
                    (3 + 2 * lowi + BFRNG) (bps2, bpa2) hpl]
                  exact MOemit fuel fuel2'
                    (fun s2 r2 h => ih fuel (by omega) fuel2' s2 r2 hle' h)
                    lowi bpa2 (some bps2) _ 0 r hcall3
        · rw [if_neg hb] at hcall ⊢
          exact MOemit fuel fuel2'
            (fun s2 r2 h => ih fuel (by omega) fuel2' s2 r2 hle' h)
            lowi bpa bps buf b r hcall

theorem MOcollect :
    ∀ fuel fuel2 L (s : IncrementalSieve) (r : List Nat × IncrementalSieve),
      fuel ≤ fuel2 → collect_while_lt fuel L s = some r →
        collect_while_lt fuel2 L s = some r := by
  intro fuel
  induction fuel with
  | zero =>
    intro fuel2 L s r _ hcall
    exact Option.noConfusion hcall
  | succ fuel ih =>
    intro fuel2 L s r hle hcall
    obtain ⟨fuel2', rfl⟩ : ∃ f2, fuel2 = f2 + 1 := ⟨fuel2 - 1, by omega⟩
    rw [collect_while_lt] at hcall ⊢
    generalize hn : next_prime fuel s = rn at hcall
    match rn with
    | none => exact Option.noConfusion hcall
    | some (p, s2) =>
      rw [MOnextT fuel fuel2' s (p, s2) (by omega) hn]
      have hcall2 : (if p < L then
            match collect_while_lt fuel L s2 with
            | none => none
            | some (l, s3x) => some (p :: l, s3x)
          else some ([], s2)) = some r := hcall
      show (if p < L then
            match collect_while_lt fuel2' L s2 with
            | none => none
            | some (l, s3x) => some (p :: l, s3x)
          else some ([], s2)) = some r
      by_cases hpL : p < L
      · rw [if_pos hpL] at hcall2 ⊢
        generalize hc : collect_while_lt fuel L s2 = rc at hcall2
        match rc with
        | none => exact Option.noConfusion hcall2
        | some (l, s3x) =>
          rw [ih fuel2' L s2 (l, s3x) (by omega) hc]
          exact hcall2
      · rw [if_neg hpL] at hcall2 ⊢
        exact hcall2

/-! ## Totality of the segmented sieve -/

theorem next_prime_new :
    next_prime 1 IncrementalSieve.new
      = some (2, ⟨some 0, 0, [], none, fun _ => false⟩) := by
  rw [show IncrementalSieve.new
      = (⟨none, 0, [], none, fun _ => false⟩ : IncrementalSieve) from rfl,
    next_prime]

theorem bootstrap_buf_three :
    bootstrap_cull (3 + 2 * 0 + BFRNG) 0 3 (fun _ => false) 0 = false := by
  rcases Bool.eq_false_or_eq_true
    (bootstrap_cull (3 + 2 * 0 + BFRNG) 0 3 (fun _ => false) 0) with ht | hf
  · have hcomp := (bootstrap_page_zero_inv 0 (by rw [BFBTS_eq]; omega)).mp ht
    exact absurd Nat.prime_three (by simpa using hcomp)
  · exact hf

theorem next_prime_pageZero (fuel : Nat) :
    next_prime (fuel + 1) ⟨some 0, 0, [], none, fun _ => false⟩
      = some (3, ⟨some 1, 0, [], none,
          bootstrap_cull (3 + 2 * 0 + BFRNG) 0 3 (fun _ => false)⟩) := by
  rw [next_prime, if_pos rfl, if_pos rfl, emit_from]
  have hscan : scan_buf
      (bootstrap_cull (3 + 2 * 0 + BFRNG) 0 3 (fun _ => false)) 0 = 0 := by
    rw [scan_buf, dif_neg]
    rintro ⟨-, hb⟩
    rw [bootstrap_buf_three] at hb
    exact Bool.noConfusion hb
  rw [hscan, if_pos (by rw [BFBTS_eq]; omega)]

theorem minPrimeGe_le_double {p : Nat} (hp : 1 ≤ p) :
    minPrimeGe (p + 1) ≤ 2 * p := by
  obtain ⟨q, hq, hq1, hq2⟩ := Nat.bertrand p (by omega)
  exact le_trans (minPrimeGe_min hq (by omega)) hq2

/-- If the least prime at or above the frontier lies within the current
page, the scan stops at a clear bit. -/
theorem scan_finds_prime {lowi b : Nat} (buf : Nat → Bool)
    (hbuf : BufInv lowi buf) (hble : b ≤ BFBTS)
    (hlt : minPrimeGe (3 + 2 * (lowi + b)) < 3 + 2 * (lowi + BFBTS)) :
    scan_buf buf b < BFBTS := by
  obtain ⟨hs1, hs2, hs3, hs4⟩ := scan_buf_spec buf BFBTS b (by omega) hble
  have hNp : (minPrimeGe (3 + 2 * (lowi + b))).Prime := minPrimeGe_prime _
  have hNge : 3 + 2 * (lowi + b) ≤ minPrimeGe (3 + 2 * (lowi + b)) :=
    minPrimeGe_ge _
  have hNodd : minPrimeGe (3 + 2 * (lowi + b)) % 2 = 1 := by
    rcases hNp.eq_two_or_odd with h | h
    · omega
    · exact h
  have hjN : minPrimeGe (3 + 2 * (lowi + b))
      = 3 + 2 * (lowi + ((minPrimeGe (3 + 2 * (lowi + b)) - 3) / 2 - lowi)) :=
    by omega
  by_contra hge
  have hset := hs3 ((minPrimeGe (3 + 2 * (lowi + b)) - 3) / 2 - lowi)
    (by omega) (by omega)
  have hcomp := (hbuf ((minPrimeGe (3 + 2 * (lowi + b)) - 3) / 2 - lowi)
    (by omega)).mp hset
  rw [← hjN] at hcomp
  exact hcomp hNp

/-- If no prime lies on the rest of the page, the scan runs to the end of
the buffer. -/
theorem scan_exhausts {lowi b : Nat} (buf : Nat → Bool)
    (hbuf : BufInv lowi buf) (hble : b ≤ BFBTS)
    (hge : 3 + 2 * (lowi + BFBTS) ≤ minPrimeGe (3 + 2 * (lowi + b))) :
    scan_buf buf b = BFBTS := by
  obtain ⟨hs1, hs2, hs3, hs4⟩ := scan_buf_spec buf BFBTS b (by omega) hble
  by_contra hne
  have hlt : scan_buf buf b < BFBTS := by omega
  have hclear := hs4 hlt
  have hprime : (3 + 2 * (lowi + scan_buf buf b)).Prime := by
    by_contra hnp
    have := (hbuf _ hlt).mpr hnp
    rw [hclear] at this
    exact Bool.noConfusion this
  have := @minPrimeGe_min (3 + 2 * (lowi + b)) _ hprime (by omega)
  omega

/-- Advancing past a fully composite page keeps the least pending prime
unchanged. -/
theorem advance_congr {lowi b : Nat} (buf : Nat → Bool)
    (hbuf : BufInv lowi buf) (hble : b ≤ BFBTS)
    (hNge : 3 + 2 * (lowi + BFBTS) ≤ minPrimeGe (3 + 2 * (lowi + b))) :
    minPrimeGe (3 + 2 * (lowi + b)) = minPrimeGe (3 + 2 * (lowi + BFBTS))
    := by
  have hscan := scan_exhausts buf hbuf hble hNge
  obtain ⟨hs1, hs2, hs3, hs4⟩ := scan_buf_spec buf BFBTS b (by omega) hble
  apply minPrimeGe_congr (by omega)
  intro r h1 h2 h3
  exact no_prime_in_scanned buf hbuf hble (Nat.le_refl BFBTS)
    (fun t ht1 ht2 => hs3 t ht1 (by omega)) r h1 h2 h3

/-- Totality of the scan-and-emit tail: either the page still holds the
pending prime (immediate emission), or the page is exhausted and the
caller supplies totality of the advanced call. -/
theorem emit_phase_total :
    ∀ (lowi b : Nat) (bpa2 : List Nat) (bps2 : Option IncrementalSieve)
      (buf2 : Nat → Bool),
      b ≤ BFBTS → BufInv lowi buf2 →
      (3 + 2 * (lowi + BFBTS) ≤ minPrimeGe (3 + 2 * (lowi + b)) →
        ∃ fuel r, next_prime fuel
          ⟨some 0, lowi + BFBTS, bpa2, bps2, buf2⟩ = some r) →
      ∃ fuel r, emit_from fuel lowi bpa2 bps2 buf2 b = some r := by
  intro lowi b bpa2 bps2 buf2 hble hbuf hadv
  by_cases hcase :
      minPrimeGe (3 + 2 * (lowi + b)) < 3 + 2 * (lowi + BFBTS)
  · have hscan : scan_buf buf2 b < BFBTS :=
      scan_finds_prime buf2 hbuf hble hcase
    refine ⟨0, (3 + 2 * (lowi + scan_buf buf2 b),
      ⟨some (scan_buf buf2 b + 1), lowi, bpa2, bps2, buf2⟩), ?_⟩
    rw [emit_from, if_pos hscan]
  · obtain ⟨fuelR, r, hR⟩ := hadv (by omega)
    refine ⟨fuelR, r, ?_⟩
    rw [emit_from, if_neg (by
      rw [scan_exhausts buf2 hbuf hble (by omega)]
      omega)]
    exact hR

/-- Totality of the base-prime pull loop, given totality of the nested
sieve below the pending prime `N`. -/
theorem pull_total :
    ∀ (k : Nat) (bps : IncrementalSieve) (bpa : List Nat) (p nxt N Fb : Nat),
      nxt - p ≤ k →
      Valid bps Fb → FrontierStep p Fb → p.Prime → 3 ≤ p →
      2 * Nat.sqrt nxt < N →
      (∀ M, M < N → ∀ (s : IncrementalSieve) (F : Nat), Valid s F →
        minPrimeGe F = M → ∃ fuel r, next_prime fuel s = some r) →
      ∃ fuel out, pull_base_primes fuel bps bpa p nxt = some out := by
  intro k
  induction k with
  | zero =>
    intro bps bpa p nxt N Fb hk hval hstep hpp h3p hsq hIH
    refine ⟨1, (bps, bpa), ?_⟩
    rw [pull_base_primes, if_neg (by
      have := Nat.le_mul_of_pos_left p (show 0 < p by omega)
      omega)]
  | succ k ihk =>
    intro bps bpa p nxt N Fb hk hval hstep hpp h3p hsq hIH
    by_cases hcond : p * p < nxt
    · have hpsqrt : p ≤ Nat.sqrt nxt := Nat.le_sqrt.mpr (by omega)
      have hminP : minPrimeGe Fb = minPrimeGe (p + 1) :=
        frontier_step_min hpp hstep
      have hqN : minPrimeGe Fb < N := by
        have h2p := minPrimeGe_le_double (show 1 ≤ p by omega)
        omega
      obtain ⟨fuel1, ⟨q, bps2⟩, hn⟩ := hIH (minPrimeGe Fb) hqN bps Fb hval rfl
      obtain ⟨hq, F2, hstep2, hval2⟩ := PCnextT fuel1 bps Fb q bps2 hval hn
      have hqprime : q.Prime := hq ▸ minPrimeGe_prime Fb
      have hpq : p < q := by
        have hge := minPrimeGe_ge Fb
        have hpFb : p < Fb := (hstep p hpp).mpr (Nat.le_refl p)
        omega
      obtain ⟨fuel2, out, hpull⟩ := ihk bps2 (bpa ++ [q]) q nxt N F2
        (by omega) hval2 hstep2 hqprime (by omega) hsq hIH
      refine ⟨max fuel1 fuel2 + 1, out, ?_⟩
      rw [pull_base_primes, if_pos hcond,
        MOnextT fuel1 (max fuel1 fuel2) bps (q, bps2) (by omega) hn]
      exact MOpull fuel2 (max fuel1 fuel2) (by omega)
        (fun g g2 s r2 hg hgle h => MOnextT g g2 s r2 hgle h)
        bps2 (bpa ++ [q]) q nxt out hpull
    · refine ⟨1, (bps, bpa), ?_⟩
      rw [pull_base_primes, if_neg hcond]

/-- Totality of `next_prime` from a pending page-start state, by
induction on the distance from the frontier to its pending prime. -/
theorem pend_total :
    ∀ (k lowi : Nat) (bpa : List Nat) (bps : Option IncrementalSieve)
      (buf : Nat → Bool),
      0 < lowi → BFBTS ∣ lowi → StoredInv bpa bps →
      minPrimeGe (3 + 2 * lowi) - (3 + 2 * lowi) ≤ k →
      (∀ M, M < minPrimeGe (3 + 2 * lowi) → ∀ (s : IncrementalSieve)
        (F : Nat), Valid s F → minPrimeGe F = M →
        ∃ fuel r, next_prime fuel s = some r) →
      ∃ fuel r, next_prime fuel ⟨some 0, lowi, bpa, bps, buf⟩ = some r := by
  intro k
  induction k using Nat.strong_induction_on with
  | _ k ihk =>
    intro lowi bpa bps buf hpos hdvd hstored hk hIH
    have hBle : BFBTS ≤ lowi := Nat.le_of_dvd hpos hdvd
    have hB : BFBTS = 2097152 := BFBTS_eq
    have hBF : BFRNG = 4194304 := BFRNG_eq
    have hNge : 3 + 2 * lowi ≤ minPrimeGe (3 + 2 * lowi) := minPrimeGe_ge _
    have hsqN : 2 * Nat.sqrt (3 + 2 * lowi + BFRNG)
        < minPrimeGe (3 + 2 * lowi) := by
      have hss : Nat.sqrt (3 + 2 * lowi + BFRNG)
            * Nat.sqrt (3 + 2 * lowi + BFRNG)
          ≤ 3 + 2 * lowi + BFRNG :=
        Nat.le_sqrt.mp (Nat.le_refl _)
      by_contra hge2
      push_neg at hge2
      have h1 : minPrimeGe (3 + 2 * lowi) * minPrimeGe (3 + 2 * lowi)
          ≤ (2 * Nat.sqrt (3 + 2 * lowi + BFRNG))
            * (2 * Nat.sqrt (3 + 2 * lowi + BFRNG)) :=
        Nat.mul_le_mul hge2 hge2
      have h2 : (2 * Nat.sqrt (3 + 2 * lowi + BFRNG))
            * (2 * Nat.sqrt (3 + 2 * lowi + BFRNG))
          = 4 * (Nat.sqrt (3 + 2 * lowi + BFRNG)
            * Nat.sqrt (3 + 2 * lowi + BFRNG)) := by ring
      rw [h2] at h1
      have h4 : minPrimeGe (3 + 2 * lowi) * minPrimeGe (3 + 2 * lowi)
          ≤ 8 * minPrimeGe (3 + 2 * lowi) := by omega
      have h5 : minPrimeGe (3 + 2 * lowi) ≤ 8 :=
        Nat.le_of_mul_le_mul_right (by omega)
          (show 0 < minPrimeGe (3 + 2 * lowi) by omega)
      omega
    rcases hstored with ⟨hbpa, hbps⟩ | ⟨Fb, bpsS, hbps, hne, hchar, hvalS⟩
    · subst hbpa
      subst hbps
      obtain ⟨-, F2b, hstepb, hvalb⟩ := PCnextT 1
        ⟨some 0, 0, [], none, fun _ => false⟩ 3 3
        ⟨some 1, 0, [], none,
          bootstrap_cull (3 + 2 * 0 + BFRNG) 0 3 (fun _ => false)⟩
        Valid.pageZero (next_prime_pageZero 0)
      obtain ⟨fuelP, ⟨bps2, bpa2⟩, hpull⟩ := pull_total
        (3 + 2 * lowi + BFRNG)
        ⟨some 1, 0, [], none,
          bootstrap_cull (3 + 2 * 0 + BFRNG) 0 3 (fun _ => false)⟩
        [3] 3 (3 + 2 * lowi + BFRNG) (minPrimeGe (3 + 2 * lowi)) F2b
        (by omega) hvalb hstepb Nat.prime_three (Nat.le_refl 3) hsqN hIH
      obtain ⟨Fb2, pL2, hchar2, hval2, hlast2, hstep2, hsq2⟩ :=
        PCpull fuelP (fun g _ => PCnextT g) _ [3] 3 (3 + 2 * lowi + BFRNG)
          bps2 bpa2 F2b hvalb (BpaChar_singleton_three hstepb)
          (List.getLast?_singleton 3) hstepb hpull
      have hbuf2 : BufInv lowi
          (bpa2.dropLast.foldl (cull_prime lowi) (fun _ => false)) :=
        cull_page_inv bpa2.dropLast (bpa_dropLast_sound hchar2)
          (bpa_dropLast_complete hchar2 hlast2 hsq2)
      have hadv : 3 + 2 * (lowi + BFBTS)
          ≤ minPrimeGe (3 + 2 * (lowi + 0)) →
          ∃ fuel r, next_prime fuel
            ⟨some 0, lowi + BFBTS, bpa2, some bps2,
              bpa2.dropLast.foldl (cull_prime lowi) (fun _ => false)⟩
            = some r := by
        intro hNadv
        have hNadv2 : 3 + 2 * (lowi + BFBTS)
            ≤ minPrimeGe (3 + 2 * lowi) := hNadv
        have hcong2 : minPrimeGe (3 + 2 * lowi)
            = minPrimeGe (3 + 2 * (lowi + BFBTS)) :=
          advance_congr _ hbuf2 (Nat.zero_le _) hNadv
        refine ihk (k - 1) (by omega) (lowi + BFBTS) bpa2 (some bps2) _
          (by omega) (Nat.dvd_add hdvd dvd_rfl)
          (Or.inr ⟨Fb2, bps2, rfl, getLast?_ne_nil hlast2, hchar2, hval2⟩)
          (by rw [← hcong2]; omega)
          (fun M hM s F hv hm => hIH M (by rw [hcong2]; exact hM) s F hv hm)
      obtain ⟨fuelE, rE, hE⟩ := emit_phase_total lowi 0 bpa2 (some bps2)
        (bpa2.dropLast.foldl (cull_prime lowi) (fun _ => false))
        (Nat.zero_le _) hbuf2 hadv
      refine ⟨max fuelP (max fuelE 1) + 1, rE, ?_⟩
      have hchain : next_prime (max fuelP (max fuelE 1) + 1)
          ⟨some 0, lowi, [], none, buf⟩
          = emit_from (max fuelP (max fuelE 1)) lowi bpa2 (some bps2)
            (bpa2.dropLast.foldl (cull_prime lowi) (fun _ => false)) 0 := by
        rw [next_prime, if_pos rfl, if_neg (by omega),
          if_pos List.isEmpty_nil, Option.getD_none,
          MOnextT 1 (max fuelP (max fuelE 1)) _ _ (by omega) next_prime_new]
        show (match (match next_prime (max fuelP (max fuelE 1))
              (⟨some 0, 0, [], none, fun _ => false⟩ : IncrementalSieve) with
            | none => none
            | some (p2, s2x) => some (s2x, [p2])) with
          | none => none
          | some (bps1, bpa1) =>
            match bpa1.getLast? with
            | none => none
            | some pLast =>
              match pull_base_primes (max fuelP (max fuelE 1)) bps1 bpa1
                  pLast (3 + 2 * lowi + BFRNG) with
              | none => none
              | some (bps2x, bpa2x) =>
                emit_from (max fuelP (max fuelE 1)) lowi bpa2x (some bps2x)
                  (bpa2x.dropLast.foldl (cull_prime lowi)
                    (fun _ => false)) 0) = _
        rw [MOnextT 1 (max fuelP (max fuelE 1)) _ _ (by omega)
          (next_prime_pageZero 0)]
        show (match ([3] : List Nat).getLast? with
          | none => none
          | some pLast =>
            match pull_base_primes (max fuelP (max fuelE 1))
                ⟨some 1, 0, [], none,
                  bootstrap_cull (3 + 2 * 0 + BFRNG) 0 3 (fun _ => false)⟩
                [3] pLast (3 + 2 * lowi + BFRNG) with
            | none => none
            | some (bps2x, bpa2x) =>
              emit_from (max fuelP (max fuelE 1)) lowi bpa2x (some bps2x)
                (bpa2x.dropLast.foldl (cull_prime lowi)
                  (fun _ => false)) 0) = _
        rw [List.getLast?_singleton]
        show (match pull_base_primes (max fuelP (max fuelE 1))
              ⟨some 1, 0, [], none,
                bootstrap_cull (3 + 2 * 0 + BFRNG) 0 3 (fun _ => false)⟩
              [3] 3 (3 + 2 * lowi + BFRNG) with
          | none => none
          | some (bps2x, bpa2x) =>
            emit_from (max fuelP (max fuelE 1)) lowi bpa2x (some bps2x)
              (bpa2x.dropLast.foldl (cull_prime lowi)
                (fun _ => false)) 0) = _
        rw [MOpull fuelP (max fuelP (max fuelE 1)) (by omega)
          (fun g g2 ss rr hg hgle h => MOnextT g g2 ss rr hgle h)
          _ [3] 3 (3 + 2 * lowi + BFRNG) (bps2, bpa2) hpull]
      rw [hchain]
      exact MOemit fuelE (max fuelP (max fuelE 1))
        (fun ss rr h => MOnextT fuelE _ ss rr (by omega) h)
        lowi bpa2 (some bps2) _ 0 rE hE
    · subst hbps
      obtain ⟨p, hp⟩ := Option.isSome_iff_exists.mp
        (List.getLast?_isSome.mpr hne)
      have hstepP := bpa_frontier hchar hp
      obtain ⟨hppr, h3p, hpFb⟩ := (hchar.2 p).mp (getLast?_mem_list hp)
      obtain ⟨fuelP, ⟨bps2, bpa2⟩, hpull⟩ := pull_total
        (3 + 2 * lowi + BFRNG) bpsS bpa p (3 + 2 * lowi + BFRNG)
        (minPrimeGe (3 + 2 * lowi)) Fb
        (by omega) hvalS hstepP hppr h3p hsqN hIH
      obtain ⟨Fb2, pL2, hchar2, hval2, hlast2, hstep2, hsq2⟩ :=
        PCpull fuelP (fun g _ => PCnextT g) bpsS bpa p
          (3 + 2 * lowi + BFRNG) bps2 bpa2 Fb hvalS hchar hp hstepP hpull
      have hbuf2 : BufInv lowi
          (bpa2.dropLast.foldl (cull_prime lowi) (fun _ => false)) :=
        cull_page_inv bpa2.dropLast (bpa_dropLast_sound hchar2)
          (bpa_dropLast_complete hchar2 hlast2 hsq2)
      have hadv : 3 + 2 * (lowi + BFBTS)
          ≤ minPrimeGe (3 + 2 * (lowi + 0)) →
          ∃ fuel r, next_prime fuel
            ⟨some 0, lowi + BFBTS, bpa2, some bps2,
              bpa2.dropLast.foldl (cull_prime lowi) (fun _ => false)⟩
            = some r := by
        intro hNadv
        have hNadv2 : 3 + 2 * (lowi + BFBTS)
            ≤ minPrimeGe (3 + 2 * lowi) := hNadv
        have hcong2 : minPrimeGe (3 + 2 * lowi)
            = minPrimeGe (3 + 2 * (lowi + BFBTS)) :=
          advance_congr _ hbuf2 (Nat.zero_le _) hNadv
        refine ihk (k - 1) (by omega) (lowi + BFBTS) bpa2 (some bps2) _
          (by omega) (Nat.dvd_add hdvd dvd_rfl)
          (Or.inr ⟨Fb2, bps2, rfl, getLast?_ne_nil hlast2, hchar2, hval2⟩)
          (by rw [← hcong2]; omega)
          (fun M hM s F hv hm => hIH M (by rw [hcong2]; exact hM) s F hv hm)
      obtain ⟨fuelE, rE, hE⟩ := emit_phase_total lowi 0 bpa2 (some bps2)
        (bpa2.dropLast.foldl (cull_prime lowi) (fun _ => false))
        (Nat.zero_le _) hbuf2 hadv
      refine ⟨max fuelP (max fuelE 1) + 1, rE, ?_⟩
      have hchain : next_prime (max fuelP (max fuelE 1) + 1)
          ⟨some 0, lowi, bpa, some bpsS, buf⟩
          = emit_from (max fuelP (max fuelE 1)) lowi bpa2 (some bps2)
            (bpa2.dropLast.foldl (cull_prime lowi) (fun _ => false)) 0 := by
        rw [next_prime, if_pos rfl, if_neg (by omega),
          if_neg (fun h => hne (List.isEmpty_iff.mp h)), Option.getD_some]
        show (match bpa.getLast? with
          | none => none
          | some pLast =>
            match pull_base_primes (max fuelP (max fuelE 1)) bpsS bpa
                pLast (3 + 2 * lowi + BFRNG) with
            | none => none
            | some (bps2x, bpa2x) =>
              emit_from (max fuelP (max fuelE 1)) lowi bpa2x (some bps2x)
                (bpa2x.dropLast.foldl (cull_prime lowi)
                  (fun _ => false)) 0) = _
        rw [hp]
        show (match pull_base_primes (max fuelP (max fuelE 1)) bpsS bpa p
              (3 + 2 * lowi + BFRNG) with
          | none => none
          | some (bps2x, bpa2x) =>
            emit_from (max fuelP (max fuelE 1)) lowi bpa2x (some bps2x)
              (bpa2x.dropLast.foldl (cull_prime lowi)
                (fun _ => false)) 0) = _
        rw [MOpull fuelP (max fuelP (max fuelE 1)) (by omega)
          (fun g g2 ss rr hg hgle h => MOnextT g g2 ss rr hgle h)
          bpsS bpa p (3 + 2 * lowi + BFRNG) (bps2, bpa2) hpull]
      rw [hchain]
      exact MOemit fuelE (max fuelP (max fuelE 1))
        (fun ss rr h => MOnextT fuelE _ ss rr (by omega) h)
        lowi bpa2 (some bps2) _ 0 rE hE

/-- `next_prime` from any valid state succeeds with enough fuel, by
strong induction on the pending prime. -/
theorem next_total :
    ∀ (N : Nat) (s : IncrementalSieve) (F : Nat), Valid s F →
      minPrimeGe F = N → ∃ fuel r, next_prime fuel s = some r := by
  intro N
  induction N using Nat.strong_induction_on with
  | _ N ihN =>
    intro s F hval hNeq
    cases hval with
    | start => exact ⟨1, _, next_prime_new⟩
    | pageZero => exact ⟨1, _, next_prime_pageZero 0⟩
    | pendingFresh lowi buf hpos hdvd =>
      subst hNeq
      exact pend_total (minPrimeGe (3 + 2 * lowi) - (3 + 2 * lowi)) lowi []
        none buf hpos hdvd (Or.inl ⟨rfl, rfl⟩) (Nat.le_refl _)
        (fun M hM s' F' hv' hm' => ihN M hM s' F' hv' hm')
    | pendingBps lowi bpa bpsS buf Fb hpos hdvd hne hchar hvalS =>
      subst hNeq
      exact pend_total (minPrimeGe (3 + 2 * lowi) - (3 + 2 * lowi)) lowi bpa
        (some bpsS) buf hpos hdvd
        (Or.inr ⟨Fb, bpsS, rfl, hne, hchar, hvalS⟩) (Nat.le_refl _)
        (fun M hM s' F' hv' hm' => ihN M hM s' F' hv' hm')
    | midFresh b lowi buf hb1 hb2 hdvd hbuf =>
      subst hNeq
      have hadv : 3 + 2 * (lowi + BFBTS)
          ≤ minPrimeGe (3 + 2 * (lowi + b)) →
          ∃ fuel r, next_prime fuel
            ⟨some 0, lowi + BFBTS, [], none, buf⟩ = some r := by
        intro hNadv
        have hcong := advance_congr buf hbuf hb2 hNadv
        exact pend_total
          (minPrimeGe (3 + 2 * (lowi + BFBTS)) - (3 + 2 * (lowi + BFBTS)))
          (lowi + BFBTS) [] none buf
          (by have := BFBTS_eq; omega) (Nat.dvd_add hdvd dvd_rfl)
          (Or.inl ⟨rfl, rfl⟩) (Nat.le_refl _)
          (fun M hM s' F' hv' hm' =>
            ihN M (by rw [hcong]; exact hM) s' F' hv' hm')
      obtain ⟨fuelE, rE, hE⟩ :=
        emit_phase_total lowi b [] none buf hb2 hbuf hadv
      exact ⟨fuelE + 1, rE, by rw [next_prime, if_neg (by omega)]; exact hE⟩
    | midBps b lowi bpa bpsS buf Fb hb1 hb2 hdvd hbuf hne hchar hvalS =>
      subst hNeq
      have hadv : 3 + 2 * (lowi + BFBTS)
          ≤ minPrimeGe (3 + 2 * (lowi + b)) →
          ∃ fuel r, next_prime fuel
            ⟨some 0, lowi + BFBTS, bpa, some bpsS, buf⟩ = some r := by
        intro hNadv
        have hcong := advance_congr buf hbuf hb2 hNadv
        exact pend_total
          (minPrimeGe (3 + 2 * (lowi + BFBTS)) - (3 + 2 * (lowi + BFBTS)))
          (lowi + BFBTS) bpa (some bpsS) buf
          (by have := BFBTS_eq; omega) (Nat.dvd_add hdvd dvd_rfl)
          (Or.inr ⟨Fb, bpsS, rfl, hne, hchar, hvalS⟩) (Nat.le_refl _)
          (fun M hM s' F' hv' hm' =>
            ihN M (by rw [hcong]; exact hM) s' F' hv' hm')
      obtain ⟨fuelE, rE, hE⟩ :=
        emit_phase_total lowi b bpa (some bpsS) buf hb2 hbuf hadv
      exact ⟨fuelE + 1, rE, by rw [next_prime, if_neg (by omega)]; exact hE⟩

theorem next_total_of_valid {s : IncrementalSieve} {F : Nat}
    (hval : Valid s F) : ∃ fuel r, next_prime fuel s = some r :=
  next_total (minPrimeGe F) s F hval rfl

/-- Collecting the primes below any bound from a valid state succeeds
with enough fuel. -/
theorem collect_total :
    ∀ (k L : Nat) (s : IncrementalSieve) (F : Nat), Valid s F →
      L - F ≤ k → ∃ fuel out, collect_while_lt fuel L s = some out := by
  intro k
  induction k using Nat.strong_induction_on with
  | _ k ihk =>
    intro L s F hval hk
    obtain ⟨fuelN, ⟨q, s2⟩, hn⟩ := next_total_of_valid hval
    obtain ⟨hq, F2, hstep, hval2⟩ := PCnextT fuelN s F q s2 hval hn
    have hqF : F ≤ q := hq ▸ minPrimeGe_ge F
    by_cases hqL : q < L
    · have hqF2 : q < F2 :=
        (hstep q (hq ▸ minPrimeGe_prime F)).mpr (Nat.le_refl q)
      obtain ⟨fuelC, ⟨l3, s3⟩, hc⟩ :=
        ihk (k - 1) (by omega) L s2 F2 hval2 (by omega)
      refine ⟨max fuelN fuelC + 1, (q :: l3, s3), ?_⟩
      rw [collect_while_lt,
        MOnextT fuelN (max fuelN fuelC) s (q, s2) (by omega) hn]
      show (if q < L then
            match collect_while_lt (max fuelN fuelC) L s2 with
            | none => none
            | some (l, s3x) => some (q :: l, s3x)
          else some ([], s2)) = some (q :: l3, s3)
      rw [if_pos hqL,
        MOcollect fuelC (max fuelN fuelC) L s2 (l3, s3) (by omega) hc]
    · refine ⟨fuelN + 1, ([], s2), ?_⟩
      rw [collect_while_lt, hn]
      show (if q < L then
            match collect_while_lt fuelN L s2 with
            | none => none
            | some (l, s3x) => some (q :: l, s3x)
          else some ([], s2)) = some ([], s2)
      rw [if_neg hqL]

theorem collect_total_new (L : Nat) :
    ∃ fuel out, collect_while_lt fuel L IncrementalSieve.new = some out :=
  collect_total (L - 2) L IncrementalSieve.new 2 Valid.start (Nat.le_refl _)

/-! ## Claim C2 -/

/-- **C2.** The page-segmented infinite sieve emits exactly the sequence
of all primes in increasing order: for every bound `L`, any terminating
run that collects successive `next_prime()` outputs from a fresh
`IncrementalSieve` while they are `< L` yields exactly `primes(L)`, the
output of the bounded sieve — and for every `L` such a terminating run
exists (the fuel-indexed model always succeeds for some fuel, matching
the unbounded loop of the source). -/
theorem C2_incremental_sieve :
    (∀ (L fuel : Nat) (ps : List Nat) (s : IncrementalSieve),
        collect_while_lt fuel L IncrementalSieve.new = some (ps, s) →
        ps = primes L) ∧
    (∀ L : Nat, ∃ (fuel : Nat) (ps : List Nat) (s : IncrementalSieve),
        collect_while_lt fuel L IncrementalSieve.new = some (ps, s)) := by
  constructor
  · intro L fuel ps s hcall
    obtain ⟨hps, -⟩ := collect_spec fuel L IncrementalSieve.new 2 ps s
      Valid.start hcall
    rw [hps, filter_two_eq_primes]
  · intro L
    obtain ⟨fuel, ⟨ps, s⟩, h⟩ := collect_total_new L
    exact ⟨fuel, ps, s, h⟩

/-- Witness for C2: the concrete run at bound 2 — the very first emitted
prime 2 is pulled and discarded, yielding the empty collection, which the
theorem equates with `primes 2`. -/
theorem C2_incremental_sieve_witness :
    collect_while_lt 2 2 IncrementalSieve.new
        = some ([], ⟨some 0, 0, [], none, fun _ => false⟩) ∧
      ([] : List Nat) = primes 2 := by
  have h : collect_while_lt 2 2 IncrementalSieve.new
      = some ([], ⟨some 0, 0, [], none, fun _ => false⟩) := by
    show collect_while_lt (1 + 1) 2 IncrementalSieve.new = _
    rw [collect_while_lt, next_prime_new]
    show (if 2 < 2 then
          match collect_while_lt 1 2
              (⟨some 0, 0, [], none, fun _ => false⟩ : IncrementalSieve) with
          | none => none
          | some (l, s3x) => some (2 :: l, s3x)
        else some ([], ⟨some 0, 0, [], none, fun _ => false⟩))
        = some ([], ⟨some 0, 0, [], none, fun _ => false⟩)
    rw [if_neg (by omega)]
  exact ⟨h, C2_incremental_sieve.1 2 2 [] _ h⟩

end Euler
